import Mathlib

/-!
Shallow embedding of the buddy-system memory allocator of
`paddle/fluid/memory/detail/buddy_allocator.cc`, and proofs of the
specification claims about it.

The chunk-level operations of `MemoryBlock` (`init`, `split`, `merge`,
`mark_as_free`, the buddy lookups) and the descriptor layout live in files
that are not part of the given sources; the definitions below that realize
them are modelled from the specification and marked as such in their
doc comments.  Everything else is translated from `buddy_allocator.cc`.

Machine addresses are modelled as pairs `(source-region id, byte offset)`:
regions returned by successive system-allocator calls are laid out at
increasing machine addresses, so address comparison is lexicographic on the
pair.  The `size_t` counters `total_used_`/`total_free_` are modelled as
natural numbers reduced modulo `2 ^ 64` at every update, exactly as C++
unsigned arithmetic behaves.
-/

namespace Buddy

/-- Chunk states, mirroring the `MemoryBlock` types used by the source. -/
inductive BlockType where
  | FREE_CHUNK
  | ARENA_CHUNK
  | HUGE_CHUNK
deriving DecidableEq

/-- A chunk address: `(source-region id, byte offset inside that region)`. -/
abbrev Addr := Nat × Nat

/-- Pool keys `(index, total_size, chunk address)` as in the source typedef
`IndexSizeAddress`; `none` models `nullptr`, which compares below every real
chunk address. -/
abbrev IndexSizeAddress := Nat × Nat × Option Addr

/-- Key of an optional address used for lexicographic comparison: `nullptr`
sorts below every real address. -/
def addrKey : Option Addr → Nat × Nat × Nat
  | none => (0, 0, 0)
  | some a => (1, a.1, a.2)

/-- The strict ordering of the pool `std::set`: lexicographic on
`(index, total_size, address)`. -/
def isaLt (x y : IndexSizeAddress) : Prop :=
  x.1 < y.1 ∨ (x.1 = y.1 ∧ (x.2.1 < y.2.1 ∨ (x.2.1 = y.2.1 ∧
    ((addrKey x.2.2).1 < (addrKey y.2.2).1 ∨ ((addrKey x.2.2).1 = (addrKey y.2.2).1 ∧
      ((addrKey x.2.2).2.1 < (addrKey y.2.2).2.1 ∨ ((addrKey x.2.2).2.1 = (addrKey y.2.2).2.1 ∧
        (addrKey x.2.2).2.2 < (addrKey y.2.2).2.2)))))))

instance (x y : IndexSizeAddress) : Decidable (isaLt x y) :=
  inferInstanceAs (Decidable
    (x.1 < y.1 ∨ (x.1 = y.1 ∧ (x.2.1 < y.2.1 ∨ (x.2.1 = y.2.1 ∧
      ((addrKey x.2.2).1 < (addrKey y.2.2).1 ∨
        ((addrKey x.2.2).1 = (addrKey y.2.2).1 ∧
        ((addrKey x.2.2).2.1 < (addrKey y.2.2).2.1 ∨
          ((addrKey x.2.2).2.1 = (addrKey y.2.2).2.1 ∧
          (addrKey x.2.2).2.2 < (addrKey y.2.2).2.2)))))))))

theorem isaLt_irrefl (x : IndexSizeAddress) : ¬ isaLt x x := by
  obtain ⟨x1, x2, x3⟩ := x
  rcases x3 with _ | ⟨xr, xo⟩ <;> simp [isaLt, addrKey]

theorem isaLt_trans {x y z : IndexSizeAddress} (h1 : isaLt x y) (h2 : isaLt y z) :
    isaLt x z := by
  obtain ⟨x1, x2, x3⟩ := x; obtain ⟨y1, y2, y3⟩ := y; obtain ⟨z1, z2, z3⟩ := z
  rcases x3 with _ | ⟨xr, xo⟩ <;> rcases y3 with _ | ⟨yr, yo⟩ <;>
    rcases z3 with _ | ⟨zr, zo⟩ <;> simp [isaLt, addrKey] at * <;> omega

theorem isaLt_asymm {x y : IndexSizeAddress} (h : isaLt x y) : ¬ isaLt y x := by
  obtain ⟨x1, x2, x3⟩ := x; obtain ⟨y1, y2, y3⟩ := y
  rcases x3 with _ | ⟨xr, xo⟩ <;> rcases y3 with _ | ⟨yr, yo⟩ <;>
    simp [isaLt, addrKey] at * <;> omega

theorem eq_of_not_isaLt {x y : IndexSizeAddress} (h1 : ¬ isaLt x y)
    (h2 : ¬ isaLt y x) : x = y := by
  obtain ⟨x1, x2, x3⟩ := x; obtain ⟨y1, y2, y3⟩ := y
  rcases x3 with _ | ⟨xr, xo⟩ <;> rcases y3 with _ | ⟨yr, yo⟩ <;>
    simp [isaLt, addrKey] at * <;> omega

instance : IsAntisymm IndexSizeAddress isaLt :=
  ⟨fun _ _ h h' => absurd h' (isaLt_asymm h)⟩

/-- `std::set::insert`: put the key at its ordered position, or do nothing if
an equal key is already present. -/
def poolInsert (x : IndexSizeAddress) : List IndexSizeAddress → List IndexSizeAddress
  | [] => [x]
  | y :: l =>
    if isaLt y x then y :: poolInsert x l
    else if isaLt x y then x :: y :: l
    else y :: l

/-- `std::set::erase(key)`: remove the (unique) element equal to the key. -/
def poolErase (x : IndexSizeAddress) : List IndexSizeAddress → List IndexSizeAddress
  | [] => []
  | y :: l => if y = x then l else y :: poolErase x l

/-- `std::set::lower_bound`: the first element that is not below the key. -/
def poolLowerBound (x : IndexSizeAddress) :
    List IndexSizeAddress → Option IndexSizeAddress
  | [] => none
  | y :: l => if isaLt y x then poolLowerBound x l else some y

/-- `align` from buddy_allocator.cc (lines 52-55). -/
def align (size alignment : Nat) : Nat :=
  let remaining := size % alignment
  if remaining = 0 then size else size + (alignment - remaining)

/-- The body of `BuddyAllocator::FindExistChunk` (lines 221-241): the
`while (1)` loop, with explicit fuel.  Each iteration asks for the lower
bound of `(index, size, nullptr)`; if the entry's region index is larger and
its size already fits it is returned at once, if it does not fit the loop
retries from that index, and an entry from the current region is returned
directly. -/
def findLoop (pool : List IndexSizeAddress) (size : Nat) : Nat → Nat → Option IndexSizeAddress
  | _, 0 => none
  | index, fuel + 1 =>
    match poolLowerBound (index, size, none) pool with
    | none => none
    | some e =>
      if index < e.1 then
        if size ≤ e.2.1 then some e
        else findLoop pool size e.1 fuel
      else some e

/-- `BuddyAllocator::FindExistChunk`: the loop starts at index 0; the fuel
`pool.length + 1` is enough because every retry strictly shrinks the set of
pool entries at or above the probed key. -/
def FindExistChunk (pool : List IndexSizeAddress) (size : Nat) :
    Option IndexSizeAddress :=
  findLoop pool size 0 (pool.length + 1)


/-! ### The allocator state and its operations -/

/-- Width of `size_t`: the counters are 64-bit unsigned integers. -/
def W : Nat := 2 ^ 64

/-- `size_t` addition. -/
def wadd (x y : Nat) : Nat := (x + y) % W

/-- `size_t` subtraction (wraps around on underflow, as C++ unsigned
arithmetic does). -/
def wsub (x y : Nat) : Nat := (x + (W - y % W)) % W

/-- Compile-time parameters of the allocator: constructor arguments,
`sizeof(MemoryBlock::Desc)`, the trailing-guard size (spec, data-model
invariant 1), and the device refill policy inputs (`platform` sizes and the
reallocation flag), which are opaque configuration values here. -/
structure Config where
  descSize : Nat
  guardSize : Nat
  min_chunk_size : Nat
  max_chunk_size : Nat
  useGpu : Bool
  gpuInitAllocSize : Nat
  gpuReallocSize : Nat
  reallocFlagMB : Nat
deriving DecidableEq

/-- The computed request of `BuddyAllocator::Alloc` (lines 59-60). -/
def computedSize (cfg : Config) (unaligned_size : Nat) : Nat :=
  align (unaligned_size + cfg.descSize) cfg.min_chunk_size

/-- One chunk of a refill region: its state and `total_size`.  Its base
offset is implicit in its position in the region's chunk list, and its
`index` is the region's. -/
structure Seg where
  type : BlockType
  total_size : Nat
deriving DecidableEq

/-- One region obtained from the system allocator by `RefillPool`: the
source index the system allocator reported and the chunks that currently
partition the region, in address order.  The `prev`/`next` physical links of
`MemoryBlock` are represented by list adjacency (modelled from the spec:
the links form a doubly-linked list of the chunks within a refill region). -/
structure Region where
  index : Nat
  segs : List Seg
deriving DecidableEq

/-- A payload pointer handed to a caller, identified by the base address of
its chunk: either inside refill region `r` at byte offset `off`, or the
`h`-th huge system allocation.  (`MemoryBlock::data()` and `metadata()`
translate between chunk base and payload by the fixed descriptor size, so
the chunk base identifies the pointer.) -/
inductive Ptr where
  | reg (r off : Nat)
  | huge (h : Nat)
deriving DecidableEq

/-- The whole allocator state.  `script` is the injected system allocator:
the list of its future answers, each `some index` (success, reporting a
source-region index) or `none` (refusal).  `refills` is a history variable
recording `(index, allocate_bytes)` of every successful non-HUGE refill; it
is written only by `RefillPool` and read by no operation. -/
structure AllocState where
  regions : List Region
  huges : List (Nat × Nat × Nat)
  nextHuge : Nat
  pool : List IndexSizeAddress
  total_used : Nat
  total_free : Nat
  realloc_size : Nat
  script : List (Option Nat)
  refills : List (Nat × Nat)
deriving DecidableEq

/-- Modelled from the spec: walk a region's chunk list to the chunk whose
base offset is `off`, returning the chunks left of it (nearest first), the
chunk, and the chunks right of it.  This realizes descriptor lookup plus the
`prev`/`next` physical-neighbour links of `MemoryBlock`. -/
def splitAtOff (acc : List Seg) : List Seg → Nat → Option (List Seg × Seg × List Seg)
  | [], _ => none
  | sg :: l, off =>
    if off = 0 then some (acc, sg, l)
    else if off < sg.total_size then none
    else splitAtOff (sg :: acc) l (off - sg.total_size)

/-- Locate the chunk at base offset `off` in a region's chunk list. -/
def locateSeg (segs : List Seg) (off : Nat) : Option (List Seg × Seg × List Seg) :=
  splitAtOff [] segs off

/-- Right-buddy merge step of `BuddyAllocator::Free` (lines 122-137): if the
physical right neighbour exists and is FREE, erase it from the pool by its
`(index, total_size, address)` key and absorb its size.  Returns the new
`total_size`, the remaining right neighbours, and the new pool.
(`MemoryBlock::merge` and `get_right_buddy` are modelled from the spec.) -/
def mergeRightSeg (idx r off ts : Nat) (post : List Seg)
    (pool : List IndexSizeAddress) : Nat × List Seg × List IndexSizeAddress :=
  match post with
  | rb :: post' =>
    if rb.type = BlockType.FREE_CHUNK then
      (ts + rb.total_size, post', poolErase (idx, rb.total_size, some (r, off + ts)) pool)
    else (ts, rb :: post', pool)
  | [] => (ts, [], pool)

/-- Left-buddy merge step of `BuddyAllocator::Free` (lines 139-157): if the
physical left neighbour exists and is FREE, erase it from the pool and let
it absorb the block; the block's base moves to the left buddy's.  Returns
the new base offset, the new `total_size`, the remaining left neighbours
(nearest first), and the new pool. -/
def mergeLeftSeg (idx r off ts : Nat) (preRev : List Seg)
    (pool : List IndexSizeAddress) : Nat × Nat × List Seg × List IndexSizeAddress :=
  match preRev with
  | lb :: pre' =>
    if lb.type = BlockType.FREE_CHUNK then
      (off - lb.total_size, lb.total_size + ts, pre',
        poolErase (idx, lb.total_size, some (r, off - lb.total_size)) pool)
    else (off, ts, lb :: pre', pool)
  | [] => (off, ts, [], pool)

/-- `BuddyAllocator::Free` (lines 97-163).  A HUGE chunk is released to the
system allocator directly, leaving pool and counters untouched.  Otherwise
the chunk is marked FREE, the counters move its `total_size` from used to
free, the right and then the left physical buddy are merged when FREE, and
the resulting chunk is inserted into the pool.  A pointer that does not
refer to a live ARENA or HUGE chunk violates the caller contract (undefined
behaviour per the spec) and is modelled as a no-op. -/
def Free (_cfg : Config) (s : AllocState) (p : Ptr) : AllocState :=
  match p with
  | .huge h =>
    if s.huges.any (fun t => t.1 = h) then
      { s with huges := s.huges.filter (fun t => ! (t.1 == h)) }
    else s
  | .reg r off =>
    match s.regions[r]? with
    | none => s
    | some reg =>
      match locateSeg reg.segs off with
      | none => s
      | some pcp =>
        if pcp.2.1.type = BlockType.ARENA_CHUNK then
          let ts := pcp.2.1.total_size
          let m1 := mergeRightSeg reg.index r off ts pcp.2.2 s.pool
          let m2 := mergeLeftSeg reg.index r off m1.1 pcp.1 m1.2.2
          { s with
            regions := s.regions.set r
              ⟨reg.index, m2.2.2.1.reverse ++ Seg.mk BlockType.FREE_CHUNK m2.2.1 :: m1.2.1⟩,
            total_used := wsub s.total_used ts,
            total_free := wadd s.total_free ts,
            pool := poolInsert (reg.index, m2.2.1, some (r, m2.1)) m2.2.2.2 }
        else s

/-- `MemoryBlock::split`, modelled from the spec: the chunk is split only
when the residual strictly exceeds one descriptor plus `min_chunk_size`;
otherwise the caller receives the whole chunk.  The served piece becomes
ARENA (line 253 of the source sets the type after the split). -/
def splitSegs (cfg : Config) (ts size : Nat) : List Seg :=
  if size + cfg.descSize + cfg.min_chunk_size < ts then
    [⟨BlockType.ARENA_CHUNK, size⟩, ⟨BlockType.FREE_CHUNK, ts - size⟩]
  else [⟨BlockType.ARENA_CHUNK, ts⟩]

/-- `BuddyAllocator::SplitToAlloc` (lines 243-270): erase the chosen entry
from the pool, split its chunk, mark the served piece ARENA, and reinsert
the right neighbour into the pool if it exists and is FREE. -/
def SplitToAlloc (cfg : Config) (s : AllocState) (e : IndexSizeAddress)
    (size : Nat) : AllocState × Ptr :=
  match e.2.2 with
  | none => (s, Ptr.huge 0)
  | some a =>
    match s.regions[a.1]? with
    | none => ({ s with pool := poolErase e s.pool }, Ptr.reg a.1 a.2)
    | some reg =>
      match locateSeg reg.segs a.2 with
      | none => ({ s with pool := poolErase e s.pool }, Ptr.reg a.1 a.2)
      | some pcp =>
        let pieces := splitSegs cfg pcp.2.1.total_size size
        let pool2 :=
          match pieces with
          | _ :: res :: _ =>
            if res.type = BlockType.FREE_CHUNK then
              poolInsert (reg.index, res.total_size, some (a.1, a.2 + size))
                (poolErase e s.pool)
            else poolErase e s.pool
          | _ =>
            match pcp.2.2 with
            | rb :: _ =>
              if rb.type = BlockType.FREE_CHUNK then
                poolInsert (reg.index, rb.total_size,
                  some (a.1, a.2 + pcp.2.1.total_size)) (poolErase e s.pool)
              else poolErase e s.pool
            | [] => poolErase e s.pool
        ({ s with
            regions := s.regions.set a.1 ⟨reg.index, pcp.1.reverse ++ pieces ++ pcp.2.2⟩,
            pool := pool2 }, Ptr.reg a.1 a.2)

/-- `BuddyAllocator::SystemAlloc` (lines 169-181): ask the system allocator
directly; on success the returned chunk is initialized as HUGE and its
payload pointer returned.  Pool and counters are untouched. -/
def SystemAlloc (_cfg : Config) (s : AllocState) (size : Nat) :
    Option Ptr × AllocState :=
  match s.script with
  | [] => (none, s)
  | resp :: rest =>
    match resp with
    | none => (none, { s with script := rest })
    | some idx =>
      (some (Ptr.huge s.nextHuge),
        { s with script := rest, nextHuge := s.nextHuge + 1,
                 huges := (s.nextHuge, idx, size) :: s.huges })

/-- The `allocate_bytes` computation of `BuddyAllocator::RefillPool`
(lines 185-202), returning the bytes to request and the new memoized
`realloc_size_`.  On a host allocator it is `max_chunk_size_`; on a device
allocator the first refill uses `max(GpuInitAllocSize, request)` and later
refills `max(realloc size policy, request)` with the policy memoized. -/
def computeAllocateBytes (cfg : Config) (s : AllocState) (request : Nat) :
    Nat × Nat :=
  if cfg.useGpu then
    if s.total_used + s.total_free = 0 then
      (max cfg.gpuInitAllocSize request, s.realloc_size)
    else
      if s.realloc_size = 0 ∨ cfg.reallocFlagMB = 0 then
        (max cfg.gpuReallocSize request, cfg.gpuReallocSize)
      else
        (max s.realloc_size request, s.realloc_size)
  else (cfg.max_chunk_size, s.realloc_size)

/-- `BuddyAllocator::RefillPool` (lines 183-219): compute `allocate_bytes`,
ask the system allocator once, and on success initialize the region as one
FREE chunk, add its size to `total_free`, and insert it into the pool,
returning the new entry; on refusal return the end sentinel (`none`). -/
def RefillPool (cfg : Config) (s : AllocState) (request : Nat) :
    Option IndexSizeAddress × AllocState :=
  let ab := computeAllocateBytes cfg s request
  let s1 := { s with realloc_size := ab.2 }
  match s1.script with
  | [] => (none, s1)
  | resp :: rest =>
    match resp with
    | none => (none, { s1 with script := rest })
    | some idx =>
      (some (idx, ab.1, some (s1.regions.length, 0)),
        { s1 with script := rest,
                  regions := s1.regions ++ [⟨idx, [⟨BlockType.FREE_CHUNK, ab.1⟩]⟩],
                  total_free := wadd s1.total_free ab.1,
                  pool := poolInsert (idx, ab.1, some (s1.regions.length, 0)) s1.pool,
                  refills := s1.refills ++ [(idx, ab.1)] })

/-- `BuddyAllocator::Alloc` (lines 57-95): compute the aligned request; a
huge request goes straight to `SystemAlloc`; otherwise search the pool,
refill on a miss, return null if the refill also missed, and otherwise move
the computed size from free to used and serve through `SplitToAlloc`. -/
def Alloc (cfg : Config) (s : AllocState) (unaligned_size : Nat) :
    Option Ptr × AllocState :=
  let size := computedSize cfg unaligned_size
  if cfg.max_chunk_size < size then SystemAlloc cfg s size
  else
    match FindExistChunk s.pool size with
    | some e =>
      let s1 := { s with total_used := wadd s.total_used size,
                         total_free := wsub s.total_free size }
      let res := SplitToAlloc cfg s1 e size
      (some res.2, res.1)
    | none =>
      let rf := RefillPool cfg s size
      match rf.1 with
      | none => (none, rf.2)
      | some e =>
        let s1 := { rf.2 with total_used := wadd rf.2.total_used size,
                              total_free := wsub rf.2.total_free size }
        let res := SplitToAlloc cfg s1 e size
        (some res.2, res.1)

/-- A chunk descriptor as loaded through the metadata cache.  Modelled from
the spec: `size` is the payload, with
`total_size = sizeof(Descriptor) + size + sizeof(trailing guard)`
(data-model invariant 1). -/
structure Desc where
  type : BlockType
  index : Nat
  total_size : Nat
  size : Nat
deriving DecidableEq

/-- Modelled from the spec: `MetadataCache::load_desc` for a chunk at base
offset `off` of refill region `r` (the in-band header is the source of
truth, so the descriptor is read off the region contents). -/
def descAt (cfg : Config) (regions : List Region) (r off : Nat) : Option Desc :=
  match regions[r]? with
  | none => none
  | some reg =>
    match locateSeg reg.segs off with
    | none => none
    | some pcp =>
      some ⟨pcp.2.1.type, reg.index, pcp.2.1.total_size,
        pcp.2.1.total_size - cfg.descSize - cfg.guardSize⟩

/-- The destructor loop of `BuddyAllocator::~BuddyAllocator` (lines 38-50):
while the pool is not empty, take the first entry, load the block's
descriptor, call `SystemAllocator::Free(block, desc->size, desc->index)`,
invalidate the cache entry, and erase the pool entry.  The emitted calls
`(address, byte count, index)` are collected in order.  Cache invalidation
of the erased entry does not affect later lookups (all pool entries have
distinct addresses), so the region contents stay fixed. -/
def destructorCalls (cfg : Config) (regions : List Region) :
    List IndexSizeAddress → List (Option Addr × Nat × Nat)
  | [] => []
  | e :: rest =>
    match e.2.2 with
    | some a =>
      match descAt cfg regions a.1 a.2 with
      | some d => (some a, d.size, d.index) :: destructorCalls cfg regions rest
      | none => (some a, 0, 0) :: destructorCalls cfg regions rest
    | none => (none, 0, 0) :: destructorCalls cfg regions rest

/-! ### Runs of the allocator -/

/-- One external call to the allocator. -/
inductive Op where
  | alloc (unaligned_size : Nat)
  | free (p : Ptr)
deriving DecidableEq

/-- Execute one call (the returned pointer of an `alloc` is dropped). -/
def stepOp (cfg : Config) (s : AllocState) : Op → AllocState
  | .alloc u => (Alloc cfg s u).2
  | .free p => Free cfg s p

/-- Execute a sequence of calls. -/
def run (cfg : Config) (s : AllocState) : List Op → AllocState
  | [] => s
  | o :: ops => run cfg (stepOp cfg s o) ops

/-- The state of a freshly constructed allocator, with the system
allocator's future answers. -/
def initState (script : List (Option Nat)) : AllocState :=
  ⟨[], [], 0, [], 0, 0, 0, script, []⟩

/-- Total bytes of the recorded refills. -/
def refillBytes (l : List (Nat × Nat)) : Nat := (l.map Prod.snd).sum

/-- Execute a sequence of `Alloc` calls, collecting the returned pointers. -/
def runAllocs (cfg : Config) (s : AllocState) :
    List Nat → AllocState × List (Option Ptr)
  | [] => (s, [])
  | u :: us =>
    let a := Alloc cfg s u
    let rest := runAllocs cfg a.2 us
    (rest.1, a.1 :: rest.2)

/-- Execute a sequence of `Free` calls. -/
def runFrees (cfg : Config) (s : AllocState) : List Ptr → AllocState
  | [] => s
  | p :: ps => runFrees cfg (Free cfg s p) ps

/-! ### The pool and chunk views of the region contents -/

/-- The chunks of a region paired with their base offsets, the first chunk
starting at `c`. -/
def segsWithOff (c : Nat) : List Seg → List (Nat × Seg)
  | [] => []
  | sg :: l => (c, sg) :: segsWithOff (c + sg.total_size) l

/-- The pool entries contributed by the FREE chunks of region number `r`. -/
def regionFreeTriples (r : Nat) (reg : Region) : List IndexSizeAddress :=
  (segsWithOff 0 reg.segs).filterMap
    (fun p => if p.2.type = BlockType.FREE_CHUNK then
        some (reg.index, p.2.total_size, some (r, p.1)) else none)

/-- The pool entries contributed by all FREE chunks of the regions, the
first region numbered `k`. -/
def freeTriplesFrom (k : Nat) : List Region → List IndexSizeAddress
  | [] => []
  | reg :: rest => regionFreeTriples k reg ++ freeTriplesFrom (k + 1) rest

/-- The pool entries of all FREE chunks. -/
def freeTriples (regions : List Region) : List IndexSizeAddress :=
  freeTriplesFrom 0 regions

/-- The base pointers of the ARENA chunks of region number `r`. -/
def regionArenaPtrs (r : Nat) (reg : Region) : List Ptr :=
  (segsWithOff 0 reg.segs).filterMap
    (fun p => if p.2.type = BlockType.ARENA_CHUNK then
        some (Ptr.reg r p.1) else none)

/-- The base pointers of all outstanding ARENA chunks, the first region
numbered `k`. -/
def arenaPtrsFrom (k : Nat) : List Region → List Ptr
  | [] => []
  | reg :: rest => regionArenaPtrs k reg ++ arenaPtrsFrom (k + 1) rest

/-- The base pointers of all outstanding ARENA chunks. -/
def arenaPtrs (regions : List Region) : List Ptr :=
  arenaPtrsFrom 0 regions

/-- Well-formedness of one region's chunk list: it is nonempty, every chunk
has positive size and is FREE or ARENA, and no two physically adjacent
chunks are both FREE (the at-rest coalescence invariant). -/
def SegsOk (segs : List Seg) : Prop :=
  segs ≠ [] ∧ (∀ sg ∈ segs, 0 < sg.total_size ∧ sg.type ≠ BlockType.HUGE_CHUNK) ∧
  List.Chain' (fun a b => a.type = BlockType.FREE_CHUNK →
    b.type ≠ BlockType.FREE_CHUNK) segs

/-- The reachable-state invariant: every region is well formed, the pool
holds exactly the FREE chunks (as a sorted list of their
`(index, total_size, address)` keys), and the refill history matches the
regions (each region was created by one refill of its total bytes). -/
def Inv (s : AllocState) : Prop :=
  (∀ reg ∈ s.regions, SegsOk reg.segs) ∧
  s.pool.Perm (freeTriples s.regions) ∧
  List.Pairwise isaLt s.pool ∧
  s.refills = s.regions.map (fun reg => (reg.index, (reg.segs.map Seg.total_size).sum))

/-- A kernel-reducible decision procedure for `List.Chain` (the library
instance is built by tactics and does not reduce). -/
def decChain {α : Type} (R : α → α → Prop) [DecidableRel R] :
    ∀ (a : α) (l : List α), Decidable (List.Chain R a l)
  | _, [] => isTrue List.Chain.nil
  | a, b :: l =>
    haveI := decChain R b l
    decidable_of_iff (R a b ∧ List.Chain R b l) List.chain_cons.symm

instance decChain' {α : Type} (R : α → α → Prop) [DecidableRel R] :
    ∀ l : List α, Decidable (List.Chain' R l)
  | [] => isTrue trivial
  | a :: l => decChain R a l

instance (segs : List Seg) : Decidable (SegsOk segs) :=
  inferInstanceAs (Decidable (segs ≠ [] ∧
    (∀ sg ∈ segs, 0 < sg.total_size ∧ sg.type ≠ BlockType.HUGE_CHUNK) ∧
    List.Chain' (fun (a b : Seg) => a.type = BlockType.FREE_CHUNK →
      b.type ≠ BlockType.FREE_CHUNK) segs))

instance (s : AllocState) : Decidable (Inv s) :=
  inferInstanceAs (Decidable ((∀ reg ∈ s.regions, SegsOk reg.segs) ∧
    s.pool.Perm (freeTriples s.regions) ∧
    List.Pairwise isaLt s.pool ∧
    s.refills = s.regions.map
      (fun reg => (reg.index, (reg.segs.map Seg.total_size).sum))))

/-- Consistency of the pool with the chunk descriptors: every pool entry's
address carries a FREE chunk whose descriptor agrees with the entry's key. -/
def PoolDescOk (cfg : Config) (s : AllocState) : Prop :=
  ∀ e ∈ s.pool, ∃ a : Addr, e.2.2 = some a ∧
    descAt cfg s.regions a.1 a.2 =
      some ⟨BlockType.FREE_CHUNK, e.1, e.2.1, e.2.1 - cfg.descSize - cfg.guardSize⟩

instance (cfg : Config) (s : AllocState) : Decidable (PoolDescOk cfg s) :=
  inferInstanceAs (Decidable (∀ e ∈ s.pool, ∃ a : Addr, e.2.2 = some a ∧
    descAt cfg s.regions a.1 a.2 =
      some ⟨BlockType.FREE_CHUNK, e.1, e.2.1,
        e.2.1 - cfg.descSize - cfg.guardSize⟩))

/-- Total bytes of a chunk list. -/
def segsBytes (l : List Seg) : Nat := (l.map Seg.total_size).sum

/-- The pool keys of the FREE chunks of a chunk list starting at offset `c`
inside region number `r` with source index `idx`. -/
def triplesAt (idx r c : Nat) (segs : List Seg) : List IndexSizeAddress :=
  (segsWithOff c segs).filterMap
    (fun p => if p.2.type = BlockType.FREE_CHUNK then
        some (idx, p.2.total_size, some (r, p.1)) else none)

/-- The base pointers of the ARENA chunks of a chunk list starting at offset
`c` inside region number `r`. -/
def arenasAt (r c : Nat) (segs : List Seg) : List Ptr :=
  (segsWithOff c segs).filterMap
    (fun p => if p.2.type = BlockType.ARENA_CHUNK then
        some (Ptr.reg r p.1) else none)

/-- The state shape produced by the non-HUGE branch of `Free`: region `r`'s
chunk list replaced, the freed chunk's `total_size` moved from used to
free, and the merged chunk's key inserted into an intermediate pool. -/
def afterFree (s : AllocState) (r idx : Nat) (segs : List Seg) (t : Nat)
    (k : IndexSizeAddress) (p : List IndexSizeAddress) : AllocState :=
  { s with regions := s.regions.set r ⟨idx, segs⟩,
           total_used := wsub s.total_used t,
           total_free := wadd s.total_free t,
           pool := poolInsert k p }

/-! ### Correctness of the pool search -/

theorem poolLowerBound_mem {x e : IndexSizeAddress} :
    ∀ {l : List IndexSizeAddress}, poolLowerBound x l = some e → e ∈ l := by
  intro l
  induction l with
  | nil => simp [poolLowerBound]
  | cons y l ih =>
    simp only [poolLowerBound]
    split
    · exact fun h => List.mem_cons_of_mem _ (ih h)
    · intro h; cases h; exact List.mem_cons_self _ _

theorem poolLowerBound_not_lt {x e : IndexSizeAddress} :
    ∀ {l : List IndexSizeAddress}, poolLowerBound x l = some e → ¬ isaLt e x := by
  intro l
  induction l with
  | nil => simp [poolLowerBound]
  | cons y l ih =>
    simp only [poolLowerBound]
    split
    · exact ih
    · intro h; cases h; assumption

theorem poolLowerBound_none {x : IndexSizeAddress} :
    ∀ {l : List IndexSizeAddress}, poolLowerBound x l = none →
      ∀ y ∈ l, isaLt y x := by
  intro l
  induction l with
  | nil => simp
  | cons z l ih =>
    simp only [poolLowerBound]
    split
    · intro h y hy
      rcases List.mem_cons.1 hy with rfl | hy
      · assumption
      · exact ih h y hy
    · intro h; cases h

theorem poolLowerBound_min {x e : IndexSizeAddress} :
    ∀ {l : List IndexSizeAddress}, List.Pairwise isaLt l →
      poolLowerBound x l = some e → ∀ y ∈ l, ¬ isaLt y x → ¬ isaLt y e := by
  intro l
  induction l with
  | nil => simp [poolLowerBound]
  | cons z l ih =>
    intro hp h y hy hyx
    simp only [poolLowerBound] at h
    rcases List.pairwise_cons.1 hp with ⟨hz, hp'⟩
    split at h
    · rcases List.mem_cons.1 hy with rfl | hy
      · exact absurd ‹isaLt y x› hyx
      · exact ih hp' h y hy hyx
    · cases h
      rcases List.mem_cons.1 hy with rfl | hy
      · exact isaLt_irrefl y
      · exact isaLt_asymm (hz y hy)

/-- On a sorted pool, `find?` with a satisfied predicate returns the least
satisfying element. -/
theorem find?_min {p : IndexSizeAddress → Bool} {e : IndexSizeAddress} :
    ∀ {l : List IndexSizeAddress}, List.Pairwise isaLt l →
      l.find? p = some e → ∀ y ∈ l, p y → e = y ∨ isaLt e y := by
  intro l
  induction l with
  | nil => simp
  | cons z l ih =>
    intro hp h y hy hpy
    rcases List.pairwise_cons.1 hp with ⟨hz, hp'⟩
    rcases hpz : p z with _ | _
    · rw [List.find?_cons_of_neg _ (by simp [hpz])] at h
      rcases List.mem_cons.1 hy with rfl | hy
      · rw [hpz] at hpy; cases hpy
      · exact ih hp' h y hy hpy
    · rw [List.find?_cons_of_pos _ hpz] at h
      cases h
      rcases List.mem_cons.1 hy with rfl | hy
      · exact Or.inl rfl
      · exact Or.inr (hz y hy)

/-- On a sorted pool, an element below which no element satisfies the
predicate is the result of `find?`. -/
theorem find?_eq_some_of_min {p : IndexSizeAddress → Bool} {e : IndexSizeAddress} :
    ∀ {l : List IndexSizeAddress}, List.Pairwise isaLt l →
      e ∈ l → p e = true → (∀ y ∈ l, isaLt y e → p y = false) →
      l.find? p = some e := by
  intro l
  induction l with
  | nil => simp
  | cons z l ih =>
    intro hp hm hpe hmin
    rcases List.pairwise_cons.1 hp with ⟨hz, hp'⟩
    rcases List.mem_cons.1 hm with rfl | hm
    · exact List.find?_cons_of_pos _ hpe
    · have hze : isaLt z e := hz e hm
      have hpz : p z = false := hmin z (List.mem_cons_self _ _) hze
      rw [List.find?_cons_of_neg _ (by simp [hpz])]
      refine ih hp' hm hpe ?_
      intro y hy hye
      exact hmin y (List.mem_cons_of_mem _ hy) hye

theorem length_filter_lt {p : IndexSizeAddress → Bool} {a : IndexSizeAddress} :
    ∀ {l : List IndexSizeAddress}, a ∈ l → p a = false →
      (l.filter p).length < l.length := by
  intro l
  induction l with
  | nil => simp
  | cons z l ih =>
    intro hm hpa
    rcases List.mem_cons.1 hm with rfl | hm
    · simp only [List.filter_cons, hpa]
      exact Nat.lt_succ_of_le (List.length_filter_le _ _)
    · simp only [List.filter_cons]
      split
      · simpa using ih hm hpa
      · exact Nat.lt_succ_of_lt (ih hm hpa)


/-- Entries of the pool strictly below `(i, size, nullptr)` either belong to a
region of smaller index or do not fit `size`. -/
theorem lt_probe_cases {y : IndexSizeAddress} {i size : Nat}
    (h : isaLt y (i, size, none)) : y.1 < i ∨ (y.1 = i ∧ y.2.1 < size) := by
  obtain ⟨y1, y2, y3⟩ := y
  rcases y3 with _ | ⟨yr, yo⟩ <;> simp [isaLt, addrKey] at h ⊢ <;> omega

/-- A pool entry that is not below `(i, size, nullptr)` and has region index
`i` fits `size`. -/
theorem fits_of_not_lt_probe {e : IndexSizeAddress} {i size : Nat}
    (h : ¬ isaLt e (i, size, none)) (h1 : e.1 = i) : size ≤ e.2.1 := by
  obtain ⟨e1, e2, e3⟩ := e
  rcases e3 with _ | ⟨er, eo⟩ <;> simp [isaLt, addrKey] at h h1 ⊢ <;> omega

theorem lt_probe_of_small {e : IndexSizeAddress} {size : Nat}
    (h : e.2.1 < size) : isaLt e (e.1, size, none) := by
  obtain ⟨e1, e2, e3⟩ := e
  rcases e3 with _ | ⟨er, eo⟩ <;> simp [isaLt, addrKey] at h ⊢ <;> omega

theorem probe_lt_probe {i j size : Nat} (h : i < j) :
    isaLt (i, size, (none : Option Addr)) (j, size, none) := by
  simp [isaLt, addrKey]; omega

/-- The loop of `FindExistChunk` computes, on a sorted pool, exactly the first
pool entry whose `total_size` fits the request. -/
theorem findLoop_eq_find? {pool : List IndexSizeAddress} {size : Nat}
    (hs : List.Pairwise isaLt pool) :
    ∀ (fuel index : Nat),
      (∀ e ∈ pool, e.1 < index → e.2.1 < size) →
      (pool.filter (fun e => ! decide (isaLt e (index, size, none)))).length < fuel →
      findLoop pool size index fuel =
        pool.find? (fun e => decide (size ≤ e.2.1)) := by
  intro fuel
  induction fuel with
  | zero => intro index _ h; cases h
  | succ fuel ih =>
    intro index hbelow hfuel
    have hstep : findLoop pool size index (fuel + 1) =
        match poolLowerBound (index, size, none) pool with
        | none => none
        | some e =>
          if index < e.1 then
            if size ≤ e.2.1 then some e
            else findLoop pool size e.1 fuel
          else some e := rfl
    rcases hlb : poolLowerBound (index, size, none) pool with _ | e
    · rw [hstep]
      simp only [hlb]
      symm
      rw [List.find?_eq_none]
      intro y hy
      rcases lt_probe_cases (poolLowerBound_none hlb y hy) with h | ⟨_, h⟩
      · have := hbelow y hy h; simp; omega
      · simp; omega
    · rw [hstep]
      simp only [hlb]
      have he_mem := poolLowerBound_mem hlb
      have he_ge := poolLowerBound_not_lt hlb
      have he_min := poolLowerBound_min hs hlb
      have hige : index ≤ e.1 := by
        by_contra hcon
        exact he_ge (Or.inl (by omega))
      have hnotfit_lt : ∀ y ∈ pool, isaLt y (index, size, none) → ¬ (size ≤ y.2.1) := by
        intro y hy hylt
        rcases lt_probe_cases hylt with h | ⟨_, h⟩
        · have := hbelow y hy h; omega
        · omega
      have hret : ∀ _ : size ≤ e.2.1,
          pool.find? (fun e => decide (size ≤ e.2.1)) = some e := by
        intro hfit
        refine find?_eq_some_of_min hs he_mem (by simpa using hfit) ?_
        intro y hy hye
        by_cases hylt : isaLt y (index, size, none)
        · simpa using hnotfit_lt y hy hylt
        · exact absurd hye (he_min y hy hylt)
      split
      · rename_i hidx
        split
        · rename_i hfit
          exact (hret hfit).symm
        · rename_i hnofit
          push_neg at hnofit
          refine ih e.1 ?_ ?_
          · intro y hy hy1
            by_cases hylt : isaLt y (index, size, none)
            · rcases lt_probe_cases hylt with h | ⟨h, h'⟩
              · exact hbelow y hy h
              · exact h'
            · exact absurd (Or.inl hy1) (he_min y hy hylt)
          · have hsub : pool.filter (fun x => ! decide (isaLt x (e.1, size, none)))
                = (pool.filter (fun x => ! decide (isaLt x (index, size, none)))).filter
                    (fun x => ! decide (isaLt x (e.1, size, none))) := by
              rw [List.filter_filter]
              apply List.filter_congr
              intro x hx
              by_cases h1 : isaLt x (index, size, none) <;>
                by_cases h2 : isaLt x (e.1, size, none) <;> simp [h1, h2]
              exact absurd (isaLt_trans h1 (probe_lt_probe hidx)) h2
            have he_in : e ∈ pool.filter (fun x => ! decide (isaLt x (index, size, none))) := by
              rw [List.mem_filter]
              exact ⟨he_mem, by simpa using he_ge⟩
            have he_out : (! decide (isaLt e (e.1, size, none))) = false := by
              simp [lt_probe_of_small hnofit]
            have hlt1 : (pool.filter (fun x => ! decide (isaLt x (index, size, none)))).length ≤ fuel := by
              omega
            rw [hsub]
            exact Nat.lt_of_lt_of_le (length_filter_lt he_in he_out) hlt1
      · rename_i hidx
        have heq : e.1 = index := by omega
        have hfit : size ≤ e.2.1 := fits_of_not_lt_probe he_ge heq
        exact (hret hfit).symm

theorem findExistChunk_eq_find? {pool : List IndexSizeAddress} {size : Nat}
    (hs : List.Pairwise isaLt pool) :
    FindExistChunk pool size = pool.find? (fun e => decide (size ≤ e.2.1)) := by
  refine findLoop_eq_find? hs (pool.length + 1) 0 (by intro e _ h; cases h) ?_
  exact Nat.lt_succ_of_le (List.length_filter_le _ _)

/-! ### The aligned request size (claim C7) -/

theorem align_ge (x a : Nat) : x ≤ align x a := by
  unfold align
  dsimp only
  split <;> omega

theorem align_dvd (x a : Nat) (ha : 0 < a) : a ∣ align x a := by
  unfold align
  dsimp only
  split
  · exact Nat.dvd_of_mod_eq_zero (by assumption)
  · have h3 := Nat.div_add_mod x a
    have h1 : x % a < a := Nat.mod_lt _ ha
    refine ⟨x / a + 1, ?_⟩
    rw [Nat.mul_succ]
    omega

theorem align_least (x a m : Nat) (ha : 0 < a) (hm : a ∣ m) (hxm : x ≤ m) :
    align x a ≤ m := by
  unfold align
  dsimp only
  split
  · exact hxm
  · obtain ⟨k, rfl⟩ := hm
    have h3 := Nat.div_add_mod x a
    have h1 : x % a < a := Nat.mod_lt _ ha
    have h4 : a * (x / a) < a * k := by omega
    have h5 : x / a + 1 ≤ k := Nat.lt_of_mul_lt_mul_left h4
    have h6 : a * (x / a + 1) ≤ a * k := Nat.mul_le_mul_left a h5
    rw [Nat.mul_succ] at h6
    omega

/-- C7: for every `unaligned_size`, `Alloc` computes its internal request as
the smallest multiple of `min_chunk_size` that is at least
`unaligned_size + sizeof(Descriptor)`; with a positive descriptor size and a
positive `min_chunk_size`, `Alloc(0)` computes a request of at least one
`min_chunk_size` unit. -/
theorem computedSize_spec (cfg : Config) (u : Nat)
    (hmin : 0 < cfg.min_chunk_size) :
    cfg.min_chunk_size ∣ computedSize cfg u ∧
    u + cfg.descSize ≤ computedSize cfg u ∧
    (∀ m, cfg.min_chunk_size ∣ m → u + cfg.descSize ≤ m → computedSize cfg u ≤ m) ∧
    (0 < cfg.descSize → cfg.min_chunk_size ≤ computedSize cfg 0) := by
  refine ⟨align_dvd _ _ hmin, align_ge _ _, fun m hm hxm => align_least _ _ _ hmin hm hxm, ?_⟩
  intro hd
  have h1 : 0 < computedSize cfg 0 :=
    Nat.lt_of_lt_of_le (by omega) (align_ge (0 + cfg.descSize) cfg.min_chunk_size)
  exact Nat.le_of_dvd h1 (align_dvd _ _ hmin)

theorem computedSize_spec_witness :
    0 < (256 : Nat) ∧
    (256 : Nat) ∣ computedSize (Config.mk 32 0 256 4096 false 0 0 0) 100 ∧
    100 + 32 ≤ computedSize (Config.mk 32 0 256 4096 false 0 0 0) 100 ∧
    (∀ m, (256 : Nat) ∣ m → 100 + 32 ≤ m →
      computedSize (Config.mk 32 0 256 4096 false 0 0 0) 100 ≤ m) ∧
    (0 < (32 : Nat) → (256 : Nat) ≤ computedSize (Config.mk 32 0 256 4096 false 0 0 0) 0) :=
  ⟨by decide, computedSize_spec (Config.mk 32 0 256 4096 false 0 0 0) 100 (by decide)⟩

/-! ### Pool search (claim C2) -/

/-- C2: on a sorted pool, `FindExistChunk(size)` equals the first pool entry
(in the `(index, total_size, address)` order) whose `total_size` fits, i.e.
the smallest fitting chunk of the lowest source-region index holding one,
and is `none` exactly when no chunk of any region fits; in particular the
code's shortcut return is equivalent to the jump-and-retry search this
characterizes. -/
theorem FindExistChunk_correct (pool : List IndexSizeAddress) (size : Nat)
    (hs : List.Pairwise isaLt pool) :
    FindExistChunk pool size = pool.find? (fun e => decide (size ≤ e.2.1)) ∧
    (∀ e, FindExistChunk pool size = some e →
      e ∈ pool ∧ size ≤ e.2.1 ∧ ∀ y ∈ pool, size ≤ y.2.1 → e = y ∨ isaLt e y) ∧
    (FindExistChunk pool size = none → ∀ y ∈ pool, y.2.1 < size) := by
  refine ⟨findExistChunk_eq_find? hs, ?_, ?_⟩
  · intro e h
    rw [findExistChunk_eq_find? hs] at h
    refine ⟨List.mem_of_find?_eq_some h, by simpa using List.find?_some h, ?_⟩
    intro y hy hfy
    exact find?_min hs h y hy (by simpa using hfy)
  · intro h y hy
    rw [findExistChunk_eq_find? hs] at h
    have h2 := List.find?_eq_none.1 h y hy
    simp at h2
    omega

theorem FindExistChunk_correct_witness :
    List.Pairwise isaLt [((0 : Nat), (100 : Nat), some ((0 : Nat), (0 : Nat))),
      (1, 50, some (1, 0)), (1, 200, some (1, 300))] ∧
    FindExistChunk [((0 : Nat), (100 : Nat), some ((0 : Nat), (0 : Nat))),
      (1, 50, some (1, 0)), (1, 200, some (1, 300))] 150 =
      List.find? (fun e => decide (150 ≤ e.2.1))
        [((0 : Nat), (100 : Nat), some ((0 : Nat), (0 : Nat))),
          (1, 50, some (1, 0)), (1, 200, some (1, 300))] :=
  ⟨by decide,
   (FindExistChunk_correct [((0 : Nat), (100 : Nat), some ((0 : Nat), (0 : Nat))),
      (1, 50, some (1, 0)), (1, 200, some (1, 300))] 150 (by decide)).1⟩

/-! ### Frame lemmas for the huge and failure paths -/

theorem systemAlloc_frame (cfg : Config) (s : AllocState) (z : Nat) :
    (SystemAlloc cfg s z).2.pool = s.pool ∧
    (SystemAlloc cfg s z).2.total_used = s.total_used ∧
    (SystemAlloc cfg s z).2.total_free = s.total_free ∧
    (SystemAlloc cfg s z).2.regions = s.regions ∧
    (SystemAlloc cfg s z).2.refills = s.refills ∧
    (SystemAlloc cfg s z).2.realloc_size = s.realloc_size := by
  rcases hscr : s.script with _ | ⟨_ | i, rest⟩ <;> simp [SystemAlloc, hscr]

theorem free_huge_frame (cfg : Config) (s : AllocState) (h : Nat) :
    (Free cfg s (Ptr.huge h)).pool = s.pool ∧
    (Free cfg s (Ptr.huge h)).total_used = s.total_used ∧
    (Free cfg s (Ptr.huge h)).total_free = s.total_free ∧
    (Free cfg s (Ptr.huge h)).regions = s.regions ∧
    (Free cfg s (Ptr.huge h)).refills = s.refills ∧
    (Free cfg s (Ptr.huge h)).script = s.script := by
  simp only [Free]
  split <;> simp

/-- C5: when the computed size exceeds `max_chunk_size`, `Alloc` is exactly
`SystemAlloc` of that size, leaving the free pool, `total_used` and
`total_free` (and the regions) unchanged; `Free` of a HUGE chunk releases it
directly to the system allocator (it disappears from the live huge chunks)
and also leaves pool and counters unchanged. -/
theorem huge_path_frame (cfg : Config) (s : AllocState) (u h : Nat)
    (hhuge : cfg.max_chunk_size < computedSize cfg u) :
    Alloc cfg s u = SystemAlloc cfg s (computedSize cfg u) ∧
    (Alloc cfg s u).2.pool = s.pool ∧
    (Alloc cfg s u).2.total_used = s.total_used ∧
    (Alloc cfg s u).2.total_free = s.total_free ∧
    (Alloc cfg s u).2.regions = s.regions ∧
    (Free cfg s (Ptr.huge h)).pool = s.pool ∧
    (Free cfg s (Ptr.huge h)).total_used = s.total_used ∧
    (Free cfg s (Ptr.huge h)).total_free = s.total_free ∧
    (Free cfg s (Ptr.huge h)).regions = s.regions ∧
    (s.huges.any (fun t => t.1 = h) →
      (Free cfg s (Ptr.huge h)).huges = s.huges.filter (fun t => ! (t.1 == h))) := by
  have halloc : Alloc cfg s u = SystemAlloc cfg s (computedSize cfg u) := by
    simp only [Alloc, if_pos hhuge]
  have hsys := systemAlloc_frame cfg s (computedSize cfg u)
  have hfree := free_huge_frame cfg s h
  refine ⟨halloc, ?_, ?_, ?_, ?_, hfree.1, hfree.2.1, hfree.2.2.1, hfree.2.2.2.1, ?_⟩
  · rw [halloc]; exact hsys.1
  · rw [halloc]; exact hsys.2.1
  · rw [halloc]; exact hsys.2.2.1
  · rw [halloc]; exact hsys.2.2.2.1
  · intro hlive
    simp only [Free, hlive, if_pos]

theorem huge_path_frame_witness :
    (let cfg : Config := Config.mk 32 0 256 4096 false 0 0 0;
     let s : AllocState := AllocState.mk [] [(0, 0, 5120)] 1 [] 0 0 0 [] [];
     cfg.max_chunk_size < computedSize cfg 5000 ∧
     Alloc cfg s 5000 = SystemAlloc cfg s (computedSize cfg 5000) ∧
     (Free cfg s (Ptr.huge 0)).pool = s.pool ∧
     (Free cfg s (Ptr.huge 0)).total_used = s.total_used ∧
     (Free cfg s (Ptr.huge 0)).total_free = s.total_free) := by
  refine ⟨by decide, ?_⟩
  have h := huge_path_frame (Config.mk 32 0 256 4096 false 0 0 0)
    (AllocState.mk [] [(0, 0, 5120)] 1 [] 0 0 0 [] []) 5000 0 (by decide)
  exact ⟨h.1, h.2.2.2.2.2.1, h.2.2.2.2.2.2.1, h.2.2.2.2.2.2.2.1⟩

/-- C10: the huge test compares the aligned computed size (which already
includes the descriptor and the round-up) with `max_chunk_size`, so any
request with `unaligned_size + sizeof(Descriptor) > max_chunk_size` takes
the `SystemAlloc` path and bypasses the pool — in particular, with a
positive descriptor size, the caller-visible size `max_chunk_size` itself
does. -/
theorem huge_boundary (cfg : Config) (s : AllocState) (u : Nat)
    (hgt : cfg.max_chunk_size < u + cfg.descSize) :
    cfg.max_chunk_size < computedSize cfg u ∧
    Alloc cfg s u = SystemAlloc cfg s (computedSize cfg u) ∧
    (Alloc cfg s u).2.pool = s.pool ∧
    (0 < cfg.descSize →
      cfg.max_chunk_size < computedSize cfg cfg.max_chunk_size) := by
  have h1 : cfg.max_chunk_size < computedSize cfg u :=
    Nat.lt_of_lt_of_le hgt (align_ge _ _)
  have h2 := huge_path_frame cfg s u 0 h1
  refine ⟨h1, h2.1, h2.2.1, ?_⟩
  intro hd
  exact Nat.lt_of_lt_of_le (by omega)
    (align_ge (cfg.max_chunk_size + cfg.descSize) cfg.min_chunk_size)

theorem huge_boundary_witness :
    (let cfg : Config := Config.mk 32 0 256 4096 false 0 0 0;
     cfg.max_chunk_size < computedSize cfg cfg.max_chunk_size ∧
     Alloc cfg (initState []) 4096 = SystemAlloc cfg (initState []) (computedSize cfg 4096)) := by
  have h := huge_boundary (Config.mk 32 0 256 4096 false 0 0 0) (initState []) 4096 (by decide)
  exact ⟨h.2.2.2 (by decide), h.2.1⟩

/-- C6: if the pool search misses and the system allocator answers the
refill with null (or is exhausted), `Alloc` returns null and the pool, the
counters, the regions and the huge chunks are all as before (only the
consumed script answer and the memoized device reallocation size may
differ). -/
theorem oom_atomic (cfg : Config) (s : AllocState) (u : Nat)
    (hsize : computedSize cfg u ≤ cfg.max_chunk_size)
    (hmiss : FindExistChunk s.pool (computedSize cfg u) = none)
    (hscript : s.script.head?.getD none = none) :
    (Alloc cfg s u).1 = none ∧
    (Alloc cfg s u).2.pool = s.pool ∧
    (Alloc cfg s u).2.total_used = s.total_used ∧
    (Alloc cfg s u).2.total_free = s.total_free ∧
    (Alloc cfg s u).2.regions = s.regions ∧
    (Alloc cfg s u).2.huges = s.huges := by
  have hnot : ¬ cfg.max_chunk_size < computedSize cfg u := not_lt.2 hsize
  simp only [Alloc, if_neg hnot, hmiss]
  rcases hscr : s.script with _ | ⟨r0, rest⟩
  · simp [RefillPool, hscr]
  · rcases r0 with _ | i
    · simp [RefillPool, hscr]
    · rw [hscr] at hscript
      simp at hscript

theorem oom_atomic_witness :
    (let cfg : Config := Config.mk 32 0 256 4096 false 0 0 0;
     let s : AllocState := AllocState.mk [] [] 0 [] 7 9 0 [none] [];
     (Alloc cfg s 100).1 = none ∧ (Alloc cfg s 100).2.pool = s.pool ∧
     (Alloc cfg s 100).2.total_used = s.total_used ∧
     (Alloc cfg s 100).2.total_free = s.total_free) := by
  have h := oom_atomic (Config.mk 32 0 256 4096 false 0 0 0)
    (AllocState.mk [] [] 0 [] 7 9 0 [none] []) 100 (by decide) (by decide) (by decide)
  exact ⟨h.1, h.2.1, h.2.2.1, h.2.2.2.1⟩

/-! ### The counter-sum invariant (claim C1) -/

theorem wsub_wadd_sum {u f R : Nat} (t : Nat) (h : (u + f) % W = R % W) :
    (wsub u t + wadd f t) % W = R % W := by
  simp only [wadd, wsub, W] at *
  omega

theorem wadd_wsub_sum {u f R : Nat} (t : Nat) (h : (u + f) % W = R % W) :
    (wadd u t + wsub f t) % W = R % W := by
  simp only [wadd, wsub, W] at *
  omega

theorem wadd_right_sum {u f R : Nat} (t : Nat) (h : (u + f) % W = R % W) :
    (u + wadd f t) % W = (R + t) % W := by
  simp only [wadd, W] at *
  omega

theorem splitToAlloc_frame (cfg : Config) (s : AllocState)
    (e : IndexSizeAddress) (size : Nat) :
    (SplitToAlloc cfg s e size).1.total_used = s.total_used ∧
    (SplitToAlloc cfg s e size).1.total_free = s.total_free ∧
    (SplitToAlloc cfg s e size).1.refills = s.refills ∧
    (SplitToAlloc cfg s e size).1.script = s.script ∧
    (SplitToAlloc cfg s e size).1.huges = s.huges := by
  unfold SplitToAlloc
  rcases he : e.2.2 with _ | a <;> simp only [he]
  · simp
  · rcases hreg : s.regions[a.1]? with _ | reg <;> simp only [hreg]
    · simp
    · rcases hloc : locateSeg reg.segs a.2 with _ | pcp <;> simp only [hloc]
      · simp
      · simp

theorem refillPool_sum (cfg : Config) (s : AllocState) (z : Nat)
    (h : (s.total_used + s.total_free) % W = refillBytes s.refills % W) :
    ((RefillPool cfg s z).2.total_used + (RefillPool cfg s z).2.total_free) % W
      = refillBytes (RefillPool cfg s z).2.refills % W := by
  unfold RefillPool
  rcases hscr : s.script with _ | ⟨r0, rest⟩ <;> simp only [hscr]
  · exact h
  · rcases r0 with _ | i <;> dsimp only
    · exact h
    · rw [refillBytes, List.map_append, List.sum_append]
      exact wadd_right_sum _ h

/-- The counter sum modulo the `size_t` width and the refill history: one
step preserves the relation. -/
theorem stepOp_sum (cfg : Config) (s : AllocState) (op : Op)
    (h : (s.total_used + s.total_free) % W = refillBytes s.refills % W) :
    ((stepOp cfg s op).total_used + (stepOp cfg s op).total_free) % W =
      refillBytes (stepOp cfg s op).refills % W := by
  rcases op with u | p
  · simp only [stepOp, Alloc]
    split
    · have hf := systemAlloc_frame cfg s (computedSize cfg u)
      rw [hf.2.1, hf.2.2.1, hf.2.2.2.2.1]
      exact h
    · rcases hfind : FindExistChunk s.pool (computedSize cfg u) with _ | e
      · simp only [hfind]
        rcases hrf : RefillPool cfg s (computedSize cfg u) with ⟨rfo, s2⟩
        have hr := refillPool_sum cfg s (computedSize cfg u) h
        rw [hrf] at hr
        simp only [hrf]
        rcases rfo with _ | e <;> dsimp only
        · exact hr
        · have hsp := splitToAlloc_frame cfg
            { s2 with total_used := wadd s2.total_used (computedSize cfg u),
                      total_free := wsub s2.total_free (computedSize cfg u) }
            e (computedSize cfg u)
          rw [hsp.1, hsp.2.1, hsp.2.2.1]
          exact wadd_wsub_sum _ hr
      · simp only [hfind]
        have hsp := splitToAlloc_frame cfg
          { s with total_used := wadd s.total_used (computedSize cfg u),
                   total_free := wsub s.total_free (computedSize cfg u) }
          e (computedSize cfg u)
        rw [hsp.1, hsp.2.1, hsp.2.2.1]
        exact wadd_wsub_sum _ h
  · rcases p with ⟨r, off⟩ | hh
    all_goals simp only [stepOp, Free]
    · rcases hreg : s.regions[r]? with _ | reg <;> simp only [hreg]
      · exact h
      · rcases hloc : locateSeg reg.segs off with _ | pcp <;> simp only [hloc]
        · exact h
        · split
          · dsimp only
            exact wsub_wadd_sum _ h
          · exact h
    · split <;> simpa using h

/-- C1 (amended): along any run of `Alloc` and `Free` calls from a fresh
allocator, `total_used + total_free` equals the sum of `allocate_bytes`
over all successful non-HUGE refills **modulo `2 ^ 64`** — the counters are
`size_t` values; `Alloc` moves the computed size from free to used, `Free`
moves the freed chunk's `total_size` back, and merging leaves the sum
untouched, but the subtraction wraps, so the equation holds modulo the
word size rather than over the integers. -/
theorem counter_sum_invariant (cfg : Config) (script : List (Option Nat))
    (ops : List Op) :
    ((run cfg (initState script) ops).total_used +
        (run cfg (initState script) ops).total_free) % W =
      refillBytes (run cfg (initState script) ops).refills % W := by
  suffices hgen : ∀ (s : AllocState),
      (s.total_used + s.total_free) % W = refillBytes s.refills % W →
      ((run cfg s ops).total_used + (run cfg s ops).total_free) % W =
        refillBytes (run cfg s ops).refills % W by
    exact hgen (initState script) (by simp [initState, refillBytes])
  induction ops with
  | nil => intro s h; exact h
  | cons o ops ih =>
    intro s h
    exact ih (stepOp cfg s o) (stepOp_sum cfg s o h)

/-- C1 as stated is false of the code: after `Alloc(3808)` (computed size
3840, served without a split from a 4096-byte refill because the residual
256 is below one descriptor plus `min_chunk_size`) and its `Free` (which
subtracts the chunk's `total_size` 4096 from `total_used`, wrapping the
`size_t` counter), `total_used + total_free` is `2 ^ 64 + 4096`, not the
refilled 4096. -/
theorem counter_sum_exact_cex :
    ¬ ((run (Config.mk 32 0 256 4096 false 0 0 0) (initState [some 0])
          [Op.alloc 3808, Op.free (Ptr.reg 0 0)]).total_used +
       (run (Config.mk 32 0 256 4096 false 0 0 0) (initState [some 0])
          [Op.alloc 3808, Op.free (Ptr.reg 0 0)]).total_free =
       refillBytes (run (Config.mk 32 0 256 4096 false 0 0 0) (initState [some 0])
          [Op.alloc 3808, Op.free (Ptr.reg 0 0)]).refills) := by
  decide

/-! ### The destructor (claim C9) -/

/-- C9: the destructor loop takes pool entries in pool-iteration order and
for each one calls the system allocator's release with the descriptor's
payload size field (`desc->size` — strictly smaller than `total_size`
whenever the descriptor is nonempty), together with the descriptor's index,
then invalidates and erases the entry; the emitted calls are exactly the
pool entries in order, with the payload byte count, not `total_size`. -/
theorem destructor_payload (cfg : Config) (s : AllocState)
    (h : PoolDescOk cfg s) :
    destructorCalls cfg s.regions s.pool =
      s.pool.map (fun e => (e.2.2, e.2.1 - cfg.descSize - cfg.guardSize, e.1)) ∧
    (0 < cfg.descSize → ∀ e ∈ s.pool, 0 < e.2.1 →
      e.2.1 - cfg.descSize - cfg.guardSize < e.2.1) := by
  constructor
  · have hgen : ∀ (l : List IndexSizeAddress),
        (∀ e ∈ l, ∃ a : Addr, e.2.2 = some a ∧
          descAt cfg s.regions a.1 a.2 =
            some ⟨BlockType.FREE_CHUNK, e.1, e.2.1, e.2.1 - cfg.descSize - cfg.guardSize⟩) →
        destructorCalls cfg s.regions l =
          l.map (fun e => (e.2.2, e.2.1 - cfg.descSize - cfg.guardSize, e.1)) := by
      intro l
      induction l with
      | nil => intro _; simp [destructorCalls]
      | cons e rest ih =>
        intro hl
        obtain ⟨a, ha, hd⟩ := hl e (List.mem_cons_self _ _)
        have hr := ih (fun x hx => hl x (List.mem_cons_of_mem _ hx))
        simp [destructorCalls, ha, hd, hr]
    exact hgen s.pool h
  · intro hd e _ hpos
    omega

theorem destructor_payload_witness :
    PoolDescOk (Config.mk 32 0 256 4096 false 0 0 0)
      (AllocState.mk [Region.mk 0 [Seg.mk BlockType.FREE_CHUNK 4096]] [] 0
        [(0, 4096, some (0, 0))] 0 4096 0 [] [(0, 4096)]) ∧
    destructorCalls (Config.mk 32 0 256 4096 false 0 0 0)
        [Region.mk 0 [Seg.mk BlockType.FREE_CHUNK 4096]] [(0, 4096, some (0, 0))] =
      [(some (0, 0), 4064, 0)] :=
  ⟨by decide,
   by
    have h := destructor_payload (Config.mk 32 0 256 4096 false 0 0 0)
      (AllocState.mk [Region.mk 0 [Seg.mk BlockType.FREE_CHUNK 4096]] [] 0
        [(0, 4096, some (0, 0))] 0 4096 0 [] [(0, 4096)]) (by decide)
    exact h.1.trans (by decide)⟩

/-! ### Canonical form of the pool -/

theorem mem_poolInsert {x z : IndexSizeAddress} :
    ∀ {l : List IndexSizeAddress}, z ∈ poolInsert x l → z = x ∨ z ∈ l := by
  intro l
  induction l with
  | nil => simp [poolInsert]
  | cons y l ih =>
    simp only [poolInsert]
    split
    · intro h
      rcases List.mem_cons.1 h with rfl | h
      · exact Or.inr (List.mem_cons_self _ _)
      · rcases ih h with h | h
        · exact Or.inl h
        · exact Or.inr (List.mem_cons_of_mem _ h)
    · split
      · intro h
        rcases List.mem_cons.1 h with rfl | h
        · exact Or.inl rfl
        · exact Or.inr h
      · exact fun h => Or.inr h

theorem poolInsert_perm {x : IndexSizeAddress} :
    ∀ {l : List IndexSizeAddress}, x ∉ l → (poolInsert x l).Perm (x :: l) := by
  intro l
  induction l with
  | nil => simp [poolInsert]
  | cons y l ih =>
    intro hx
    simp only [poolInsert]
    split
    · refine ((ih (fun h => hx (List.mem_cons_of_mem _ h))).cons y).trans ?_
      exact List.Perm.swap x y l
    · split
      · exact List.Perm.refl _
      · rename_i hyx hxy
        cases eq_of_not_isaLt hyx hxy
        exact absurd (List.mem_cons_self _ _) hx

theorem poolInsert_sorted {x : IndexSizeAddress} :
    ∀ {l : List IndexSizeAddress}, List.Pairwise isaLt l →
      List.Pairwise isaLt (poolInsert x l) := by
  intro l
  induction l with
  | nil => simp [poolInsert]
  | cons y l ih =>
    intro hp
    rcases List.pairwise_cons.1 hp with ⟨hy, hp'⟩
    simp only [poolInsert]
    split
    · rw [List.pairwise_cons]
      refine ⟨?_, ih hp'⟩
      intro z hz
      rcases mem_poolInsert hz with rfl | hz
      · assumption
      · exact hy z hz
    · split
      · rw [List.pairwise_cons]
        refine ⟨?_, hp⟩
        intro z hz
        rcases List.mem_cons.1 hz with rfl | hz
        · assumption
        · exact isaLt_trans (by assumption) (hy z hz)
      · exact hp

theorem mem_of_mem_poolErase {x z : IndexSizeAddress} :
    ∀ {l : List IndexSizeAddress}, z ∈ poolErase x l → z ∈ l := by
  intro l
  induction l with
  | nil => simp [poolErase]
  | cons y l ih =>
    simp only [poolErase]
    split
    · exact fun h => List.mem_cons_of_mem _ h
    · intro h
      rcases List.mem_cons.1 h with rfl | h
      · exact List.mem_cons_self _ _
      · exact List.mem_cons_of_mem _ (ih h)

theorem poolErase_sublist (x : IndexSizeAddress) :
    ∀ (l : List IndexSizeAddress), (poolErase x l).Sublist l := by
  intro l
  induction l with
  | nil => simp [poolErase]
  | cons y l ih =>
    simp only [poolErase]
    split
    · exact List.sublist_cons_self _ _
    · exact ih.cons₂ y

theorem poolErase_sorted {x : IndexSizeAddress} {l : List IndexSizeAddress}
    (hp : List.Pairwise isaLt l) : List.Pairwise isaLt (poolErase x l) :=
  hp.sublist (poolErase_sublist x l)

theorem perm_cons_poolErase {a : IndexSizeAddress} :
    ∀ {l : List IndexSizeAddress}, a ∈ l → l.Perm (a :: poolErase a l) := by
  intro l
  induction l with
  | nil => simp
  | cons y l ih =>
    intro ha
    simp only [poolErase]
    split
    · rename_i h
      cases h
      exact List.Perm.refl _
    · rename_i h
      have ha' : a ∈ l := by
        rcases List.mem_cons.1 ha with rfl | ha'
        · exact absurd rfl h
        · exact ha'
      exact ((ih ha').cons y).trans (List.Perm.swap a y _)

theorem poolErase_coe_cons {a : IndexSizeAddress} {l : List IndexSizeAddress}
    {m : Multiset IndexSizeAddress} (h : (l : Multiset IndexSizeAddress) = a ::ₘ m) :
    (poolErase a l : Multiset IndexSizeAddress) = m := by
  have ha : a ∈ l := by
    have h2 : a ∈ (l : Multiset IndexSizeAddress) := by
      rw [h]; exact Multiset.mem_cons_self _ _
    simpa using h2
  have h2 : (l : Multiset IndexSizeAddress) = a ::ₘ ↑(poolErase a l) := by
    rw [Multiset.cons_coe, Multiset.coe_eq_coe]
    exact perm_cons_poolErase ha
  rw [h2] at h
  exact (Multiset.cons_inj_right a).1 h

theorem poolInsert_coe {x : IndexSizeAddress} {l : List IndexSizeAddress}
    (h : x ∉ l) : (poolInsert x l : Multiset IndexSizeAddress) = x ::ₘ ↑l := by
  rw [Multiset.cons_coe, Multiset.coe_eq_coe]
  exact poolInsert_perm h

/-- Two sorted pools holding the same entries are the same list. -/
theorem sorted_perm_eq {l1 l2 : List IndexSizeAddress} (hp : l1.Perm l2)
    (h1 : List.Pairwise isaLt l1) (h2 : List.Pairwise isaLt l2) : l1 = l2 :=
  List.eq_of_perm_of_sorted hp h1 h2

/-! ### Decomposing the chunk views -/

theorem segsWithOff_append (c : Nat) (l1 l2 : List Seg) :
    segsWithOff c (l1 ++ l2) =
      segsWithOff c l1 ++ segsWithOff (c + segsBytes l1) l2 := by
  induction l1 generalizing c with
  | nil => simp [segsWithOff, segsBytes]
  | cons sg l1 ih =>
    have h1 : segsWithOff c ((sg :: l1) ++ l2) =
        (c, sg) :: segsWithOff (c + sg.total_size) (l1 ++ l2) := rfl
    have h2 : segsWithOff c (sg :: l1) =
        (c, sg) :: segsWithOff (c + sg.total_size) l1 := rfl
    have h3 : c + sg.total_size + segsBytes l1 = c + segsBytes (sg :: l1) := by
      simp only [segsBytes, List.map_cons, List.sum_cons]
      omega
    rw [h1, ih, h2, List.cons_append, h3]

theorem triplesAt_append (idx r c : Nat) (l1 l2 : List Seg) :
    triplesAt idx r c (l1 ++ l2) =
      triplesAt idx r c l1 ++ triplesAt idx r (c + segsBytes l1) l2 := by
  simp [triplesAt, segsWithOff_append, List.filterMap_append]

theorem arenasAt_append (r c : Nat) (l1 l2 : List Seg) :
    arenasAt r c (l1 ++ l2) =
      arenasAt r c l1 ++ arenasAt r (c + segsBytes l1) l2 := by
  simp [arenasAt, segsWithOff_append, List.filterMap_append]

theorem triplesAt_cons (idx r c : Nat) (sg : Seg) (l : List Seg) :
    triplesAt idx r c (sg :: l) =
      (if sg.type = BlockType.FREE_CHUNK then
        [(idx, sg.total_size, some (r, c))] else []) ++
        triplesAt idx r (c + sg.total_size) l := by
  by_cases h : sg.type = BlockType.FREE_CHUNK <;>
    simp [triplesAt, segsWithOff, List.filterMap_cons, h]

theorem arenasAt_cons (r c : Nat) (sg : Seg) (l : List Seg) :
    arenasAt r c (sg :: l) =
      (if sg.type = BlockType.ARENA_CHUNK then [Ptr.reg r c] else []) ++
        arenasAt r (c + sg.total_size) l := by
  by_cases h : sg.type = BlockType.ARENA_CHUNK <;>
    simp [arenasAt, segsWithOff, List.filterMap_cons, h]

theorem regionFreeTriples_eq (r : Nat) (reg : Region) :
    regionFreeTriples r reg = triplesAt reg.index r 0 reg.segs := rfl

theorem regionArenaPtrs_eq (r : Nat) (reg : Region) :
    regionArenaPtrs r reg = arenasAt r 0 reg.segs := rfl

/-- Replacing one region rewrites exactly its block of the pool view,
leaving the other regions' blocks untouched. -/
theorem freeTriplesFrom_set :
    ∀ {regs : List Region} {r : Nat} {reg : Region} (k : Nat),
      regs[r]? = some reg →
      ∃ X Y, freeTriplesFrom k regs = X ++ regionFreeTriples (k + r) reg ++ Y ∧
        ∀ reg' : Region, freeTriplesFrom k (regs.set r reg') =
            X ++ regionFreeTriples (k + r) reg' ++ Y := by
  intro regs
  induction regs with
  | nil => intro r reg k h; simp at h
  | cons reg0 rest ih =>
    intro r reg k h
    rcases r with _ | r
    · simp only [List.getElem?_cons_zero, Option.some.injEq] at h
      subst h
      refine ⟨[], freeTriplesFrom (k + 1) rest, by simp [freeTriplesFrom], ?_⟩
      intro reg'
      simp [freeTriplesFrom]
    · simp only [List.getElem?_cons_succ] at h
      obtain ⟨X, Y, h1, h2⟩ := ih (k + 1) h
      have hadd : k + 1 + r = k + (r + 1) := by omega
      refine ⟨regionFreeTriples k reg0 ++ X, Y, ?_, ?_⟩
      · simp only [freeTriplesFrom, h1, hadd]
        simp
      · intro reg'
        simp only [List.set_cons_succ, freeTriplesFrom, h2 reg', hadd]
        simp

/-- Replacing one region rewrites exactly its block of the outstanding
arena-pointer view. -/
theorem arenaPtrsFrom_set :
    ∀ {regs : List Region} {r : Nat} {reg : Region} (k : Nat),
      regs[r]? = some reg →
      ∃ X Y, arenaPtrsFrom k regs = X ++ regionArenaPtrs (k + r) reg ++ Y ∧
        ∀ reg' : Region, arenaPtrsFrom k (regs.set r reg') =
            X ++ regionArenaPtrs (k + r) reg' ++ Y := by
  intro regs
  induction regs with
  | nil => intro r reg k h; simp at h
  | cons reg0 rest ih =>
    intro r reg k h
    rcases r with _ | r
    · simp only [List.getElem?_cons_zero, Option.some.injEq] at h
      subst h
      refine ⟨[], arenaPtrsFrom (k + 1) rest, by simp [arenaPtrsFrom], ?_⟩
      intro reg'
      simp [arenaPtrsFrom]
    · simp only [List.getElem?_cons_succ] at h
      obtain ⟨X, Y, h1, h2⟩ := ih (k + 1) h
      have hadd : k + 1 + r = k + (r + 1) := by omega
      refine ⟨regionArenaPtrs k reg0 ++ X, Y, ?_, ?_⟩
      · simp only [arenaPtrsFrom, h1, hadd]
        simp
      · intro reg'
        simp only [List.set_cons_succ, arenaPtrsFrom, h2 reg', hadd]
        simp

/-- Appending a region appends its block to the pool view. -/
theorem freeTriplesFrom_append (x : Region) :
    ∀ (regs : List Region) (k : Nat),
      freeTriplesFrom k (regs ++ [x]) =
        freeTriplesFrom k regs ++ regionFreeTriples (k + regs.length) x := by
  intro regs
  induction regs with
  | nil => intro k; simp [freeTriplesFrom]
  | cons reg0 rest ih =>
    intro k
    simp only [List.cons_append, freeTriplesFrom, List.length_cons, List.append_eq]
    have hadd : k + 1 + rest.length = k + (rest.length + 1) := by omega
    rw [ih (k + 1), hadd]
    simp

/-- Appending a region appends its block to the arena view. -/
theorem arenaPtrsFrom_append (x : Region) :
    ∀ (regs : List Region) (k : Nat),
      arenaPtrsFrom k (regs ++ [x]) =
        arenaPtrsFrom k regs ++ regionArenaPtrs (k + regs.length) x := by
  intro regs
  induction regs with
  | nil => intro k; simp [arenaPtrsFrom]
  | cons reg0 rest ih =>
    intro k
    simp only [List.cons_append, arenaPtrsFrom, List.length_cons, List.append_eq]
    have hadd : k + 1 + rest.length = k + (rest.length + 1) := by omega
    rw [ih (k + 1), hadd]
    simp

/-! ### Membership in the chunk views -/

theorem mem_segsWithOff {c' : Nat} {sg : Seg} :
    ∀ {segs : List Seg} {c : Nat}, (c', sg) ∈ segsWithOff c segs →
      ∃ A B, segs = A ++ sg :: B ∧ c' = c + segsBytes A := by
  intro segs
  induction segs with
  | nil => simp [segsWithOff]
  | cons s0 l ih =>
    intro c h
    rcases List.mem_cons.1 h with h | h
    · obtain ⟨h1, h2⟩ := Prod.mk.injEq .. ▸ h
      exact ⟨[], l, by simp [← h2], by simp [segsBytes, h1]⟩
    · obtain ⟨A, B, hAB, hc⟩ := ih h
      exact ⟨s0 :: A, B, by simp [hAB], by simp [segsBytes] at hc ⊢; omega⟩

theorem segsWithOff_mem {c : Nat} (A : List Seg) (sg : Seg) (B : List Seg) :
    (c + segsBytes A, sg) ∈ segsWithOff c (A ++ sg :: B) := by
  induction A generalizing c with
  | nil => simp [segsWithOff, segsBytes]
  | cons s0 A ih =>
    have h : segsWithOff c ((s0 :: A) ++ sg :: B) =
        (c, s0) :: segsWithOff (c + s0.total_size) (A ++ sg :: B) := rfl
    rw [h]
    refine List.mem_cons_of_mem _ ?_
    have hc : c + segsBytes (s0 :: A) = c + s0.total_size + segsBytes A := by
      simp only [segsBytes, List.map_cons, List.sum_cons]
      omega
    rw [hc]
    exact ih

theorem mem_triplesAt {e : IndexSizeAddress} {idx r c : Nat} {segs : List Seg}
    (h : e ∈ triplesAt idx r c segs) :
    ∃ A sg B, segs = A ++ sg :: B ∧ sg.type = BlockType.FREE_CHUNK ∧
      e = (idx, sg.total_size, some (r, c + segsBytes A)) := by
  simp only [triplesAt, List.mem_filterMap] at h
  obtain ⟨⟨c', sg⟩, hmem, hf⟩ := h
  by_cases ht : sg.type = BlockType.FREE_CHUNK
  · rw [if_pos ht] at hf
    obtain ⟨A, B, hAB, hc⟩ := mem_segsWithOff hmem
    refine ⟨A, sg, B, hAB, ht, ?_⟩
    injection hf with hf
    rw [← hf, hc]
  · rw [if_neg ht] at hf
    cases hf

theorem triplesAt_mem {idx r c : Nat} (A : List Seg) {sg : Seg} (B : List Seg)
    (ht : sg.type = BlockType.FREE_CHUNK) :
    (idx, sg.total_size, some (r, c + segsBytes A)) ∈
      triplesAt idx r c (A ++ sg :: B) := by
  simp only [triplesAt, List.mem_filterMap]
  exact ⟨(c + segsBytes A, sg), segsWithOff_mem A sg B, by rw [if_pos ht]⟩

theorem mem_arenasAt {p : Ptr} {r c : Nat} {segs : List Seg}
    (h : p ∈ arenasAt r c segs) :
    ∃ A sg B, segs = A ++ sg :: B ∧ sg.type = BlockType.ARENA_CHUNK ∧
      p = Ptr.reg r (c + segsBytes A) := by
  simp only [arenasAt, List.mem_filterMap] at h
  obtain ⟨⟨c', sg⟩, hmem, hf⟩ := h
  by_cases ht : sg.type = BlockType.ARENA_CHUNK
  · rw [if_pos ht] at hf
    obtain ⟨A, B, hAB, hc⟩ := mem_segsWithOff hmem
    refine ⟨A, sg, B, hAB, ht, ?_⟩
    injection hf with hf
    rw [← hf, hc]
  · rw [if_neg ht] at hf
    cases hf

theorem arenasAt_mem {r c : Nat} (A : List Seg) {sg : Seg} (B : List Seg)
    (ht : sg.type = BlockType.ARENA_CHUNK) :
    Ptr.reg r (c + segsBytes A) ∈ arenasAt r c (A ++ sg :: B) := by
  simp only [arenasAt, List.mem_filterMap]
  exact ⟨(c + segsBytes A, sg), segsWithOff_mem A sg B, by rw [if_pos ht]⟩

theorem mem_freeTriplesFrom {e : IndexSizeAddress} :
    ∀ {regs : List Region} {k : Nat}, e ∈ freeTriplesFrom k regs →
      ∃ r reg A sg B, regs[r]? = some reg ∧ reg.segs = A ++ sg :: B ∧
        sg.type = BlockType.FREE_CHUNK ∧
        e = (reg.index, sg.total_size, some (k + r, segsBytes A)) := by
  intro regs
  induction regs with
  | nil => simp [freeTriplesFrom]
  | cons reg0 rest ih =>
    intro k h
    rcases List.mem_append.1 h with h | h
    · rw [regionFreeTriples_eq] at h
      obtain ⟨A, sg, B, hAB, ht, he⟩ := mem_triplesAt h
      exact ⟨0, reg0, A, sg, B, by simp, hAB, ht, by simpa using he⟩
    · obtain ⟨r, reg, A, sg, B, hr, hAB, ht, he⟩ := ih h
      refine ⟨r + 1, reg, A, sg, B, by simpa using hr, hAB, ht, ?_⟩
      rw [he]
      have : k + 1 + r = k + (r + 1) := by omega
      rw [this]

theorem freeTriplesFrom_mem {regs : List Region} {r k : Nat} {reg : Region}
    (hr : regs[r]? = some reg) {A : List Seg} {sg : Seg} {B : List Seg}
    (hAB : reg.segs = A ++ sg :: B) (ht : sg.type = BlockType.FREE_CHUNK) :
    (reg.index, sg.total_size, some (k + r, segsBytes A)) ∈
      freeTriplesFrom k regs := by
  obtain ⟨X, Y, h1, _⟩ := freeTriplesFrom_set k hr
  rw [h1]
  refine List.mem_append.2 (Or.inl (List.mem_append.2 (Or.inr ?_)))
  rw [regionFreeTriples_eq, hAB]
  have h2 := @triplesAt_mem reg.index (k + r) 0 A _ B ht
  simpa using h2

theorem mem_arenaPtrsFrom {p : Ptr} :
    ∀ {regs : List Region} {k : Nat}, p ∈ arenaPtrsFrom k regs →
      ∃ r reg A sg B, regs[r]? = some reg ∧ reg.segs = A ++ sg :: B ∧
        sg.type = BlockType.ARENA_CHUNK ∧ p = Ptr.reg (k + r) (segsBytes A) := by
  intro regs
  induction regs with
  | nil => simp [arenaPtrsFrom]
  | cons reg0 rest ih =>
    intro k h
    rcases List.mem_append.1 h with h | h
    · rw [regionArenaPtrs_eq] at h
      obtain ⟨A, sg, B, hAB, ht, he⟩ := mem_arenasAt h
      exact ⟨0, reg0, A, sg, B, by simp, hAB, ht, by simpa using he⟩
    · obtain ⟨r, reg, A, sg, B, hr, hAB, ht, he⟩ := ih h
      refine ⟨r + 1, reg, A, sg, B, by simpa using hr, hAB, ht, ?_⟩
      rw [he]
      have : k + 1 + r = k + (r + 1) := by omega
      rw [this]

theorem arenaPtrsFrom_mem {regs : List Region} {r k : Nat} {reg : Region}
    (hr : regs[r]? = some reg) {A : List Seg} {sg : Seg} {B : List Seg}
    (hAB : reg.segs = A ++ sg :: B) (ht : sg.type = BlockType.ARENA_CHUNK) :
    Ptr.reg (k + r) (segsBytes A) ∈ arenaPtrsFrom k regs := by
  obtain ⟨X, Y, h1, _⟩ := arenaPtrsFrom_set k hr
  rw [h1]
  refine List.mem_append.2 (Or.inl (List.mem_append.2 (Or.inr ?_)))
  rw [regionArenaPtrs_eq, hAB]
  have h2 := @arenasAt_mem (k + r) 0 A _ B ht
  simpa using h2

/-! ### Offsets determine chunks -/

/-- Two decompositions of one chunk list have comparable base offsets:
the second base is at or before the first chunk's base, or at or after its
end. -/
theorem prefix_sum_dichotomy :
    ∀ {A : List Seg} {cur : Seg} {B A2 : List Seg} {sg : Seg} {B2 : List Seg},
      A ++ cur :: B = A2 ++ sg :: B2 →
      segsBytes A2 ≤ segsBytes A ∨
        segsBytes A + cur.total_size ≤ segsBytes A2 := by
  intro A
  induction A with
  | nil =>
    intro cur B A2 sg B2 h
    rcases A2 with _ | ⟨a, A2⟩
    · simp
    · simp only [List.nil_append, List.cons_append, List.cons.injEq] at h
      right
      rw [h.1]
      simp only [segsBytes, List.map_cons, List.sum_cons, List.map_nil,
        List.sum_nil]
      omega
  | cons a A ih =>
    intro cur B A2 sg B2 h
    rcases A2 with _ | ⟨b, A2⟩
    · left
      simp [segsBytes]
    · simp only [List.cons_append, List.cons.injEq] at h
      rcases ih h.2 with h2 | h2
      · left
        simp only [segsBytes, List.map_cons, List.sum_cons, h.1] at h2 ⊢
        omega
      · right
        simp only [segsBytes, List.map_cons, List.sum_cons, h.1] at h2 ⊢
        omega

/-- With positive chunk sizes, the base offset determines the
decomposition. -/
theorem decomp_unique :
    ∀ {A : List Seg} {cur : Seg} {B A2 : List Seg} {sg : Seg} {B2 : List Seg},
      A ++ cur :: B = A2 ++ sg :: B2 →
      (∀ x ∈ A, 0 < x.total_size) → (∀ x ∈ A2, 0 < x.total_size) →
      segsBytes A = segsBytes A2 →
      A = A2 ∧ cur = sg ∧ B = B2 := by
  intro A
  induction A with
  | nil =>
    intro cur B A2 sg B2 h _ hpos2 hsum
    rcases A2 with _ | ⟨b, A2⟩
    · simpa using h
    · exfalso
      have hb : 0 < b.total_size := hpos2 b (List.mem_cons_self _ _)
      simp only [segsBytes, List.map_nil, List.sum_nil, List.map_cons,
        List.sum_cons] at hsum
      omega
  | cons a A ih =>
    intro cur B A2 sg B2 h hpos1 hpos2 hsum
    rcases A2 with _ | ⟨b, A2⟩
    · exfalso
      have ha : 0 < a.total_size := hpos1 a (List.mem_cons_self _ _)
      simp only [segsBytes, List.map_nil, List.sum_nil, List.map_cons,
        List.sum_cons] at hsum
      omega
    · simp only [List.cons_append, List.cons.injEq] at h
      obtain ⟨rfl, h2⟩ := h
      simp only [segsBytes, List.map_cons, List.sum_cons] at hsum
      obtain ⟨hA, hcur, hB⟩ := ih h2 (fun x hx => hpos1 x (List.mem_cons_of_mem _ hx))
        (fun x hx => hpos2 x (List.mem_cons_of_mem _ hx))
        (by simpa [segsBytes] using hsum)
      exact ⟨by rw [hA], hcur, hB⟩

/-- Well-formed regions: pool keys are determined by their addresses. -/
theorem freeTriples_addr_inj {regs : List Region}
    (hwf : ∀ reg ∈ regs, ∀ sgm ∈ reg.segs, 0 < sgm.total_size)
    {e1 e2 : IndexSizeAddress} (h1 : e1 ∈ freeTriples regs)
    (h2 : e2 ∈ freeTriples regs) (ha : e1.2.2 = e2.2.2) : e1 = e2 := by
  obtain ⟨r1, reg1, A1, sg1, B1, hr1, hAB1, ht1, he1⟩ := mem_freeTriplesFrom h1
  obtain ⟨r2, reg2, A2, sg2, B2, hr2, hAB2, ht2, he2⟩ := mem_freeTriplesFrom h2
  rw [he1, he2] at ha
  simp only [Option.some.injEq, Prod.mk.injEq] at ha
  obtain ⟨hr, hoff⟩ := ha
  simp only [Nat.zero_add] at hr
  subst hr
  rw [hr1] at hr2
  injection hr2 with hr2
  subst hr2
  have hreg1 : reg1 ∈ regs := by
    have := List.getElem?_mem hr1
    exact this
  have hpos := hwf reg1 hreg1
  rw [hAB1] at hAB2
  obtain ⟨hA, hsg, hB⟩ := decomp_unique hAB2
    (fun x hx => hpos x (by rw [hAB1]; exact List.mem_append.2 (Or.inl hx)))
    (fun x hx => hpos x (by rw [hAB1, hAB2]; exact List.mem_append.2 (Or.inl hx)))
    hoff
  rw [he1, he2, hsg, hoff]

/-! ### Locating chunks by offset -/

theorem splitAtOff_spec :
    ∀ {segs : List Seg} {acc : List Seg} {off : Nat} {preRev : List Seg}
      {cur : Seg} {post : List Seg},
      splitAtOff acc segs off = some (preRev, cur, post) →
      ∃ A, segs = A ++ cur :: post ∧ preRev = A.reverse ++ acc ∧
        off = segsBytes A := by
  intro segs
  induction segs with
  | nil => intro acc off preRev cur post h; simp [splitAtOff] at h
  | cons sg l ih =>
    intro acc off preRev cur post h
    simp only [splitAtOff] at h
    split at h
    · rename_i h0
      injection h with h
      rw [Prod.ext_iff] at h
      obtain ⟨h1, h2⟩ := h
      rw [Prod.ext_iff] at h2
      obtain ⟨h3, h4⟩ := h2
      dsimp only at h1 h3 h4
      exact ⟨[], by simp [h3, h4], by simp [h1], by simp [segsBytes, h0]⟩
    · split at h
      · cases h
      · rename_i h0 hlt
        obtain ⟨A, hl, hpre, hoff⟩ := ih h
        refine ⟨sg :: A, by simp [hl], by simp [hpre], ?_⟩
        simp only [segsBytes, List.map_cons, List.sum_cons]
        simp only [segsBytes] at hoff
        omega

theorem splitAtOff_at (cur : Seg) (B : List Seg) :
    ∀ (A : List Seg) (acc : List Seg), (∀ x ∈ A, 0 < x.total_size) →
      splitAtOff acc (A ++ cur :: B) (segsBytes A) =
        some (A.reverse ++ acc, cur, B) := by
  intro A
  induction A with
  | nil => intro acc _; simp [splitAtOff, segsBytes]
  | cons a A ih =>
    intro acc hpos
    have hb : segsBytes (a :: A) = a.total_size + segsBytes A := by
      simp [segsBytes]
    have ha : 0 < a.total_size := hpos a (List.mem_cons_self _ _)
    simp only [List.cons_append, splitAtOff, hb, List.append_eq]
    rw [if_neg (by omega), if_neg (by omega)]
    have h2 : a.total_size + segsBytes A - a.total_size = segsBytes A := by omega
    rw [h2, ih (a :: acc) (fun x hx => hpos x (List.mem_cons_of_mem _ hx))]
    simp

theorem locateSeg_at {A : List Seg} {cur : Seg} {B : List Seg}
    (hpos : ∀ x ∈ A, 0 < x.total_size) :
    locateSeg (A ++ cur :: B) (segsBytes A) = some (A.reverse, cur, B) := by
  rw [locateSeg, splitAtOff_at cur B A [] hpos]
  simp

theorem map_set_eq {β : Type} {regs : List Region} {reg reg' : Region}
    (f : Region → β) (hf : f reg' = f reg) :
    ∀ {r : Nat}, regs[r]? = some reg → (regs.set r reg').map f = regs.map f := by
  induction regs with
  | nil => intro r h; simp at h
  | cons reg0 rest ih =>
    intro r h
    rcases r with _ | r
    · simp only [List.getElem?_cons_zero, Option.some.injEq] at h
      subst h
      simp [hf]
    · simp only [List.getElem?_cons_succ] at h
      simp [ih h]

theorem arena_ne_free : BlockType.ARENA_CHUNK ≠ BlockType.FREE_CHUNK := by decide

theorem free_ne_huge : BlockType.FREE_CHUNK ≠ BlockType.HUGE_CHUNK := by decide

theorem arena_ne_huge : BlockType.ARENA_CHUNK ≠ BlockType.HUGE_CHUNK := by decide

theorem segsBytes_append (l1 l2 : List Seg) :
    segsBytes (l1 ++ l2) = segsBytes l1 + segsBytes l2 := by
  simp [segsBytes]

theorem segsBytes_cons (sg : Seg) (l : List Seg) :
    segsBytes (sg :: l) = sg.total_size + segsBytes l := by
  simp [segsBytes]

/-! ### Unfolding `SplitToAlloc` at a located chunk -/

theorem splitToAlloc_eq_split (cfg : Config) {s : AllocState} {r : Nat}
    {reg : Region} {A : List Seg} {cur : Seg} {B : List Seg} {size : Nat}
    (hreg : s.regions[r]? = some reg) (hAB : reg.segs = A ++ cur :: B)
    (hposA : ∀ x ∈ A, 0 < x.total_size)
    (hc : size + cfg.descSize + cfg.min_chunk_size < cur.total_size) :
    SplitToAlloc cfg s (reg.index, cur.total_size, some (r, segsBytes A)) size =
      ({ s with
          regions := s.regions.set r
            ⟨reg.index, A ++ Seg.mk BlockType.ARENA_CHUNK size ::
              Seg.mk BlockType.FREE_CHUNK (cur.total_size - size) :: B⟩,
          pool := poolInsert
            (reg.index, cur.total_size - size, some (r, segsBytes A + size))
            (poolErase (reg.index, cur.total_size, some (r, segsBytes A)) s.pool) },
        Ptr.reg r (segsBytes A)) := by
  have hloc2 : locateSeg reg.segs (segsBytes A) = some (A.reverse, cur, B) := by
    rw [hAB]; exact locateSeg_at hposA
  simp only [SplitToAlloc, hreg, hloc2, splitSegs, if_pos hc]
  simp

theorem splitToAlloc_eq_whole (cfg : Config) {s : AllocState} {r : Nat}
    {reg : Region} {A : List Seg} {cur : Seg} {B : List Seg} {size : Nat}
    (hreg : s.regions[r]? = some reg) (hAB : reg.segs = A ++ cur :: B)
    (hposA : ∀ x ∈ A, 0 < x.total_size)
    (hB : ∀ rb ∈ B.head?, rb.type ≠ BlockType.FREE_CHUNK)
    (hc : ¬ size + cfg.descSize + cfg.min_chunk_size < cur.total_size) :
    SplitToAlloc cfg s (reg.index, cur.total_size, some (r, segsBytes A)) size =
      ({ s with
          regions := s.regions.set r
            ⟨reg.index, A ++ [Seg.mk BlockType.ARENA_CHUNK cur.total_size] ++ B⟩,
          pool := poolErase (reg.index, cur.total_size, some (r, segsBytes A)) s.pool },
        Ptr.reg r (segsBytes A)) := by
  have hloc2 : locateSeg reg.segs (segsBytes A) = some (A.reverse, cur, B) := by
    rw [hAB]; exact locateSeg_at hposA
  simp only [SplitToAlloc, hreg, hloc2, splitSegs, if_neg hc]
  rcases hBv : B with _ | ⟨rb, B'⟩
  · simp
  · have hrb : rb.type ≠ BlockType.FREE_CHUNK := by
      refine hB rb ?_
      rw [hBv]; rfl
    simp [if_neg hrb]

/-! ### `SplitToAlloc` preserves the invariant -/

theorem freeTriples_def (regs : List Region) :
    freeTriples regs = freeTriplesFrom 0 regs := rfl

theorem arenaPtrs_def (regs : List Region) :
    arenaPtrs regs = arenaPtrsFrom 0 regs := rfl

theorem splitToAlloc_preserves (cfg : Config) {s : AllocState} {r : Nat}
    {reg : Region} {A : List Seg} {cur : Seg} {B : List Seg} {size : Nat}
    (hInv : Inv s) (hreg : s.regions[r]? = some reg)
    (hAB : reg.segs = A ++ cur :: B) (ht : cur.type = BlockType.FREE_CHUNK)
    (hsize : 0 < size) (hfit : size ≤ cur.total_size) :
    Inv (SplitToAlloc cfg s (reg.index, cur.total_size, some (r, segsBytes A)) size).1 ∧
    (SplitToAlloc cfg s (reg.index, cur.total_size, some (r, segsBytes A)) size).2 =
      Ptr.reg r (segsBytes A) ∧
    (SplitToAlloc cfg s (reg.index, cur.total_size, some (r, segsBytes A)) size).1.regions.length =
      s.regions.length ∧
    (arenaPtrs (SplitToAlloc cfg s (reg.index, cur.total_size, some (r, segsBytes A)) size).1.regions :
        Multiset Ptr) =
      Ptr.reg r (segsBytes A) ::ₘ (arenaPtrs s.regions : Multiset Ptr) := by
  obtain ⟨hwf, hperm, hsort, hhist⟩ := hInv
  have hregmem : reg ∈ s.regions := List.getElem?_mem hreg
  obtain ⟨hne, hpos, hchain⟩ := hwf reg hregmem
  rw [hAB] at hpos hchain
  have hposA : ∀ x ∈ A, 0 < x.total_size :=
    fun x hx => (hpos x (List.mem_append.2 (Or.inl hx))).1
  have hcurpos : 0 < cur.total_size :=
    (hpos cur (List.mem_append.2 (Or.inr (List.mem_cons_self _ _)))).1
  obtain ⟨X, Y, hOld, hNew⟩ := freeTriplesFrom_set 0 hreg
  obtain ⟨XA, YA, hOldA, hNewA⟩ := arenaPtrsFrom_set 0 hreg
  simp only [Nat.zero_add] at hOld hNew hOldA hNewA
  have hRegOld : regionFreeTriples r reg =
      triplesAt reg.index r 0 A ++
        (reg.index, cur.total_size, some (r, segsBytes A)) ::
          triplesAt reg.index r (segsBytes A + cur.total_size) B := by
    rw [regionFreeTriples_eq, hAB, triplesAt_append, triplesAt_cons, if_pos ht]
    simp
  have hRegOldA : regionArenaPtrs r reg =
      arenasAt r 0 A ++ arenasAt r (segsBytes A + cur.total_size) B := by
    rw [regionArenaPtrs_eq, hAB, arenasAt_append, arenasAt_cons,
      if_neg (by simp [ht])]
    simp
  have hPoolOld : (s.pool : Multiset IndexSizeAddress) =
      (reg.index, cur.total_size, some (r, segsBytes A)) ::ₘ
        ((X : Multiset IndexSizeAddress) + ↑(triplesAt reg.index r 0 A) +
          ↑(triplesAt reg.index r (segsBytes A + cur.total_size) B) + ↑Y) := by
    have h1 : (s.pool : Multiset IndexSizeAddress) = ↑(freeTriples s.regions) :=
      Multiset.coe_eq_coe.2 hperm
    rw [h1, freeTriples_def, hOld, hRegOld]
    simp only [← Multiset.coe_add, ← Multiset.cons_coe]
    simp only [← Multiset.singleton_add, ← Multiset.coe_add]
    abel
  have hArenaOld : (arenaPtrs s.regions : Multiset Ptr) =
      (XA : Multiset Ptr) + ↑(arenasAt r 0 A) +
        ↑(arenasAt r (segsBytes A + cur.total_size) B) + ↑YA := by
    rw [arenaPtrs_def, hOldA, hRegOldA]
    simp only [← Multiset.coe_add]
    abel
  have hErase : (poolErase (reg.index, cur.total_size, some (r, segsBytes A)) s.pool :
      Multiset IndexSizeAddress) =
      (X : Multiset IndexSizeAddress) + ↑(triplesAt reg.index r 0 A) +
        ↑(triplesAt reg.index r (segsBytes A + cur.total_size) B) + ↑Y :=
    poolErase_coe_cons hPoolOld
  by_cases hc : size + cfg.descSize + cfg.min_chunk_size < cur.total_size
  · -- the chunk is split, the FREE residual goes back to the pool
    rw [splitToAlloc_eq_split cfg hreg hAB hposA hc]
    dsimp only
    have hszlt : size < cur.total_size := by omega
    have hearith : segsBytes A + size + (cur.total_size - size) =
        segsBytes A + cur.total_size := by omega
    have hRegNew : regionFreeTriples r
        ⟨reg.index, A ++ Seg.mk BlockType.ARENA_CHUNK size ::
          Seg.mk BlockType.FREE_CHUNK (cur.total_size - size) :: B⟩ =
        triplesAt reg.index r 0 A ++
          (reg.index, cur.total_size - size, some (r, segsBytes A + size)) ::
            triplesAt reg.index r (segsBytes A + cur.total_size) B := by
      rw [regionFreeTriples_eq]
      show triplesAt reg.index r 0
        (A ++ Seg.mk BlockType.ARENA_CHUNK size ::
          Seg.mk BlockType.FREE_CHUNK (cur.total_size - size) :: B) = _
      rw [triplesAt_append, triplesAt_cons, triplesAt_cons]
      rw [if_neg (fun h => arena_ne_free h), if_pos rfl]
      simp only [Nat.zero_add, List.nil_append, List.singleton_append]
      rw [hearith]
    have hRegNewA : regionArenaPtrs r
        ⟨reg.index, A ++ Seg.mk BlockType.ARENA_CHUNK size ::
          Seg.mk BlockType.FREE_CHUNK (cur.total_size - size) :: B⟩ =
        arenasAt r 0 A ++
          Ptr.reg r (segsBytes A) ::
            arenasAt r (segsBytes A + cur.total_size) B := by
      rw [regionArenaPtrs_eq]
      show arenasAt r 0
        (A ++ Seg.mk BlockType.ARENA_CHUNK size ::
          Seg.mk BlockType.FREE_CHUNK (cur.total_size - size) :: B) = _
      rw [arenasAt_append, arenasAt_cons, arenasAt_cons]
      rw [if_pos rfl, if_neg (fun h => arena_ne_free h.symm)]
      simp only [Nat.zero_add, List.nil_append, List.singleton_append]
      rw [hearith]
    have hFresh : (reg.index, cur.total_size - size, some (r, segsBytes A + size)) ∉
        poolErase (reg.index, cur.total_size, some (r, segsBytes A)) s.pool := by
      intro hmem
      have h2 := (poolErase_sublist _ s.pool).subset hmem
      have h3 : (reg.index, cur.total_size - size, some (r, segsBytes A + size)) ∈
          freeTriples s.regions := hperm.mem_iff.1 h2
      obtain ⟨r2, reg2, A2, sg2, B2, hr2, hAB2, _, he2⟩ := mem_freeTriplesFrom h3
      simp only [Nat.zero_add, Prod.mk.injEq, Option.some.injEq] at he2
      obtain ⟨_, _, hr2eq, hoff2⟩ := he2
      subst hr2eq
      rw [hreg] at hr2
      injection hr2 with hr2
      subst hr2
      rw [hAB] at hAB2
      rcases prefix_sum_dichotomy hAB2 with hd | hd <;> omega
    have hIns : (poolInsert (reg.index, cur.total_size - size, some (r, segsBytes A + size))
        (poolErase (reg.index, cur.total_size, some (r, segsBytes A)) s.pool) :
          Multiset IndexSizeAddress) =
        (reg.index, cur.total_size - size, some (r, segsBytes A + size)) ::ₘ
          ((X : Multiset IndexSizeAddress) + ↑(triplesAt reg.index r 0 A) +
            ↑(triplesAt reg.index r (segsBytes A + cur.total_size) B) + ↑Y) := by
      rw [poolInsert_coe hFresh, hErase]
    refine ⟨⟨?_, ?_, ?_, ?_⟩, rfl, by simp, ?_⟩
    · intro reg' hmem'
      rcases List.mem_or_eq_of_mem_set hmem' with hmem' | rfl
      · exact hwf reg' hmem'
      · refine ⟨by simp, ?_, ?_⟩
        · intro sg hsg
          rcases List.mem_append.1 hsg with hsg | hsg
          · exact hpos sg (List.mem_append.2 (Or.inl hsg))
          · rcases List.mem_cons.1 hsg with rfl | hsg
            · exact ⟨hsize, arena_ne_huge⟩
            · rcases List.mem_cons.1 hsg with rfl | hsg
              · exact ⟨Nat.sub_pos_of_lt hszlt, free_ne_huge⟩
              · exact hpos sg (List.mem_append.2 (Or.inr (List.mem_cons_of_mem _ hsg)))
        · rw [List.chain'_append] at hchain ⊢
          obtain ⟨hA, hcB, hedge⟩ := hchain
          rw [List.chain'_cons'] at hcB
          obtain ⟨hcurB, hB⟩ := hcB
          refine ⟨hA, ?_, ?_⟩
          · rw [List.chain'_cons']
            refine ⟨fun y hy h2 => absurd h2 arena_ne_free, ?_⟩
            rw [List.chain'_cons']
            exact ⟨fun y hy _ => hcurB y hy ht, hB⟩
          · intro x hx y hy
            simp only [List.head?_cons, Option.mem_def, Option.some.injEq] at hy
            subst hy
            exact fun _ => arena_ne_free
    · rw [← Multiset.coe_eq_coe, hIns, freeTriples_def, hNew, hRegNew]
      simp only [← Multiset.coe_add, ← Multiset.cons_coe]
      simp only [← Multiset.singleton_add, ← Multiset.coe_add]
      abel
    · exact poolInsert_sorted (poolErase_sorted hsort)
    · rw [hhist]
      symm
      refine map_set_eq _ ?_ hreg
      simp only [Prod.mk.injEq, true_and]
      rw [hAB]
      simp only [List.map_append, List.sum_append, List.map_cons, List.sum_cons,
        List.map_nil, List.sum_nil]
      omega
    · rw [arenaPtrs_def, hNewA, hRegNewA, hArenaOld]
      simp only [← Multiset.coe_add, ← Multiset.cons_coe]
      simp only [← Multiset.singleton_add, ← Multiset.coe_add]
      abel
  · -- the residual is too small: the whole chunk is served
    have hB2 : ∀ rb ∈ B.head?, rb.type ≠ BlockType.FREE_CHUNK := by
      intro rb hrb
      rw [List.chain'_append] at hchain
      obtain ⟨_, hcB, _⟩ := hchain
      rw [List.chain'_cons'] at hcB
      exact hcB.1 rb hrb ht
    rw [splitToAlloc_eq_whole cfg hreg hAB hposA hB2 hc]
    dsimp only
    have hRegNew : regionFreeTriples r
        ⟨reg.index, A ++ [Seg.mk BlockType.ARENA_CHUNK cur.total_size] ++ B⟩ =
        triplesAt reg.index r 0 A ++
          triplesAt reg.index r (segsBytes A + cur.total_size) B := by
      rw [regionFreeTriples_eq]
      show triplesAt reg.index r 0
        (A ++ [Seg.mk BlockType.ARENA_CHUNK cur.total_size] ++ B) = _
      rw [List.append_assoc, triplesAt_append, List.singleton_append,
        triplesAt_cons]
      rw [if_neg (fun h => arena_ne_free h)]
      simp
    have hRegNewA : regionArenaPtrs r
        ⟨reg.index, A ++ [Seg.mk BlockType.ARENA_CHUNK cur.total_size] ++ B⟩ =
        arenasAt r 0 A ++
          Ptr.reg r (segsBytes A) ::
            arenasAt r (segsBytes A + cur.total_size) B := by
      rw [regionArenaPtrs_eq]
      show arenasAt r 0
        (A ++ [Seg.mk BlockType.ARENA_CHUNK cur.total_size] ++ B) = _
      rw [List.append_assoc, arenasAt_append, List.singleton_append,
        arenasAt_cons]
      rw [if_pos rfl]
      simp
    refine ⟨⟨?_, ?_, ?_, ?_⟩, rfl, by simp, ?_⟩
    · intro reg' hmem'
      rcases List.mem_or_eq_of_mem_set hmem' with hmem' | rfl
      · exact hwf reg' hmem'
      · refine ⟨by simp, ?_, ?_⟩
        · intro sg hsg
          rcases List.mem_append.1 hsg with hsg | hsg
          · rcases List.mem_append.1 hsg with hsg | hsg
            · exact hpos sg (List.mem_append.2 (Or.inl hsg))
            · rcases List.mem_cons.1 hsg with rfl | hsg
              · exact ⟨hcurpos, arena_ne_huge⟩
              · cases hsg
          · exact hpos sg (List.mem_append.2 (Or.inr (List.mem_cons_of_mem _ hsg)))
        · rw [List.append_assoc, List.singleton_append]
          rw [List.chain'_append] at hchain ⊢
          obtain ⟨hA, hcB, hedge⟩ := hchain
          rw [List.chain'_cons'] at hcB
          obtain ⟨hcurB, hB⟩ := hcB
          refine ⟨hA, ?_, ?_⟩
          · rw [List.chain'_cons']
            exact ⟨fun y hy h2 => absurd h2 arena_ne_free, hB⟩
          · intro x hx y hy
            simp only [List.head?_cons, Option.mem_def, Option.some.injEq] at hy
            subst hy
            exact fun _ => arena_ne_free
    · rw [← Multiset.coe_eq_coe, hErase, freeTriples_def, hNew, hRegNew]
      simp only [← Multiset.coe_add]
      abel
    · exact poolErase_sorted hsort
    · rw [hhist]
      symm
      refine map_set_eq _ ?_ hreg
      simp only [Prod.mk.injEq, true_and]
      rw [hAB]
      simp only [List.map_append, List.sum_append, List.map_cons, List.sum_cons,
        List.map_nil, List.sum_nil]
      omega
    · rw [arenaPtrs_def, hNewA, hRegNewA, hArenaOld]
      simp only [← Multiset.coe_add, ← Multiset.cons_coe]
      simp only [← Multiset.singleton_add, ← Multiset.coe_add]
      abel

/-! ### Unfolding `Free` at a located chunk -/

theorem mergeRightSeg_none {idx r off ts : Nat} {post : List Seg}
    {pool : List IndexSizeAddress}
    (h : ∀ rb ∈ post.head?, rb.type ≠ BlockType.FREE_CHUNK) :
    mergeRightSeg idx r off ts post pool = (ts, post, pool) := by
  rcases post with _ | ⟨rb, post'⟩
  · rfl
  · simp only [mergeRightSeg]
    rw [if_neg (h rb rfl)]

theorem mergeRightSeg_free {idx r off ts : Nat} {rb : Seg} {post' : List Seg}
    {pool : List IndexSizeAddress} (h : rb.type = BlockType.FREE_CHUNK) :
    mergeRightSeg idx r off ts (rb :: post') pool =
      (ts + rb.total_size, post',
        poolErase (idx, rb.total_size, some (r, off + ts)) pool) := by
  simp only [mergeRightSeg]
  rw [if_pos h]

theorem mergeLeftSeg_none {idx r off ts : Nat} {preRev : List Seg}
    {pool : List IndexSizeAddress}
    (h : ∀ lb ∈ preRev.head?, lb.type ≠ BlockType.FREE_CHUNK) :
    mergeLeftSeg idx r off ts preRev pool = (off, ts, preRev, pool) := by
  rcases preRev with _ | ⟨lb, pre'⟩
  · rfl
  · simp only [mergeLeftSeg]
    rw [if_neg (h lb rfl)]

theorem mergeLeftSeg_free {idx r off ts : Nat} {lb : Seg} {pre' : List Seg}
    {pool : List IndexSizeAddress} (h : lb.type = BlockType.FREE_CHUNK) :
    mergeLeftSeg idx r off ts (lb :: pre') pool =
      (off - lb.total_size, lb.total_size + ts, pre',
        poolErase (idx, lb.total_size, some (r, off - lb.total_size)) pool) := by
  simp only [mergeLeftSeg]
  rw [if_pos h]

theorem Free_eq (cfg : Config) {s : AllocState} {r : Nat} {reg : Region}
    {A : List Seg} {cur : Seg} {B : List Seg}
    (hreg : s.regions[r]? = some reg) (hAB : reg.segs = A ++ cur :: B)
    (hposA : ∀ x ∈ A, 0 < x.total_size)
    (ht : cur.type = BlockType.ARENA_CHUNK) :
    Free cfg s (Ptr.reg r (segsBytes A)) =
      { s with
        regions := s.regions.set r ⟨reg.index,
          (mergeLeftSeg reg.index r (segsBytes A)
            (mergeRightSeg reg.index r (segsBytes A) cur.total_size B s.pool).1
            A.reverse
            (mergeRightSeg reg.index r (segsBytes A) cur.total_size B s.pool).2.2).2.2.1.reverse ++
          Seg.mk BlockType.FREE_CHUNK
            (mergeLeftSeg reg.index r (segsBytes A)
              (mergeRightSeg reg.index r (segsBytes A) cur.total_size B s.pool).1
              A.reverse
              (mergeRightSeg reg.index r (segsBytes A) cur.total_size B s.pool).2.2).2.1 ::
          (mergeRightSeg reg.index r (segsBytes A) cur.total_size B s.pool).2.1⟩,
        total_used := wsub s.total_used cur.total_size,
        total_free := wadd s.total_free cur.total_size,
        pool := poolInsert
          (reg.index,
            (mergeLeftSeg reg.index r (segsBytes A)
              (mergeRightSeg reg.index r (segsBytes A) cur.total_size B s.pool).1
              A.reverse
              (mergeRightSeg reg.index r (segsBytes A) cur.total_size B s.pool).2.2).2.1,
            some (r,
              (mergeLeftSeg reg.index r (segsBytes A)
                (mergeRightSeg reg.index r (segsBytes A) cur.total_size B s.pool).1
                A.reverse
                (mergeRightSeg reg.index r (segsBytes A) cur.total_size B s.pool).2.2).1))
          (mergeLeftSeg reg.index r (segsBytes A)
            (mergeRightSeg reg.index r (segsBytes A) cur.total_size B s.pool).1
            A.reverse
            (mergeRightSeg reg.index r (segsBytes A) cur.total_size B s.pool).2.2).2.2.2 } := by
  have hloc : locateSeg reg.segs (segsBytes A) = some (A.reverse, cur, B) := by
    rw [hAB]; exact locateSeg_at hposA
  simp only [Free, hreg, hloc]
  rw [if_pos ht]

/-! ### `Free` preserves the invariant -/

theorem inv_rebuild {s : AllocState} {r : Nat} {reg : Region}
    (hInv : Inv s) (hreg : s.regions[r]? = some reg)
    {segs' : List Seg} {pool' : List IndexSizeAddress} {u' f' : Nat}
    (hso : SegsOk segs') (hbytes : segsBytes segs' = segsBytes reg.segs)
    (hpool : pool'.Perm (freeTriples (s.regions.set r ⟨reg.index, segs'⟩)))
    (hps : List.Pairwise isaLt pool') :
    Inv { s with regions := s.regions.set r ⟨reg.index, segs'⟩,
                 pool := pool', total_used := u', total_free := f' } := by
  obtain ⟨hwf, hperm, hsort, hhist⟩ := hInv
  refine ⟨?_, hpool, hps, ?_⟩
  · intro reg' hmem'
    rcases List.mem_or_eq_of_mem_set hmem' with hmem' | rfl
    · exact hwf reg' hmem'
    · exact hso
  · dsimp only
    rw [hhist]
    symm
    refine map_set_eq _ ?_ hreg
    simp only [Prod.mk.injEq, true_and]
    exact hbytes

theorem free_preserves (cfg : Config) {s : AllocState} {r : Nat} {reg : Region}
    {A : List Seg} {cur : Seg} {B : List Seg}
    (hInv : Inv s) (hreg : s.regions[r]? = some reg)
    (hAB : reg.segs = A ++ cur :: B) (ht : cur.type = BlockType.ARENA_CHUNK) :
    Inv (Free cfg s (Ptr.reg r (segsBytes A))) ∧
    (Free cfg s (Ptr.reg r (segsBytes A))).regions.length = s.regions.length ∧
    Ptr.reg r (segsBytes A) ::ₘ
        (arenaPtrs (Free cfg s (Ptr.reg r (segsBytes A))).regions : Multiset Ptr) =
      (arenaPtrs s.regions : Multiset Ptr) ∧
    (Free cfg s (Ptr.reg r (segsBytes A))).huges = s.huges ∧
    (Free cfg s (Ptr.reg r (segsBytes A))).script = s.script ∧
    (Free cfg s (Ptr.reg r (segsBytes A))).refills = s.refills := by
  have hInvKeep := hInv
  obtain ⟨hwf, hperm, hsort, hhist⟩ := hInv
  have hregmem : reg ∈ s.regions := List.getElem?_mem hreg
  obtain ⟨hne, hpos, hchain⟩ := hwf reg hregmem
  rw [hAB] at hpos hchain
  have hposA : ∀ x ∈ A, 0 < x.total_size :=
    fun x hx => (hpos x (List.mem_append.2 (Or.inl hx))).1
  have hcurpos : 0 < cur.total_size :=
    (hpos cur (List.mem_append.2 (Or.inr (List.mem_cons_self _ _)))).1
  have hallpos : ∀ rg ∈ s.regions, ∀ sgm ∈ rg.segs, 0 < sgm.total_size :=
    fun rg hrg sgm hs => ((hwf rg hrg).2.1 sgm hs).1
  obtain ⟨X, Y, hOld, hNew⟩ := freeTriplesFrom_set 0 hreg
  obtain ⟨XA, YA, hOldA, hNewA⟩ := arenaPtrsFrom_set 0 hreg
  simp only [Nat.zero_add] at hOld hNew hOldA hNewA
  have hRegOld : regionFreeTriples r reg =
      triplesAt reg.index r 0 A ++
        triplesAt reg.index r (segsBytes A + cur.total_size) B := by
    rw [regionFreeTriples_eq, hAB, triplesAt_append, triplesAt_cons,
      if_neg (by simp [ht])]
    simp
  have hRegOldA : regionArenaPtrs r reg =
      arenasAt r 0 A ++ Ptr.reg r (segsBytes A) ::
        arenasAt r (segsBytes A + cur.total_size) B := by
    rw [regionArenaPtrs_eq, hAB, arenasAt_append, arenasAt_cons, if_pos ht]
    simp
  have hPoolOld : (s.pool : Multiset IndexSizeAddress) =
      (X : Multiset IndexSizeAddress) + ↑(triplesAt reg.index r 0 A) +
        ↑(triplesAt reg.index r (segsBytes A + cur.total_size) B) + ↑Y := by
    have h1 : (s.pool : Multiset IndexSizeAddress) = ↑(freeTriples s.regions) :=
      Multiset.coe_eq_coe.2 hperm
    rw [h1, freeTriples_def, hOld, hRegOld]
    simp only [← Multiset.coe_add]
    abel
  have hArenaOld : (arenaPtrs s.regions : Multiset Ptr) =
      Ptr.reg r (segsBytes A) ::ₘ
        ((XA : Multiset Ptr) + ↑(arenasAt r 0 A) +
          ↑(arenasAt r (segsBytes A + cur.total_size) B) + ↑YA) := by
    rw [arenaPtrs_def, hOldA, hRegOldA]
    simp only [← Multiset.coe_add, ← Multiset.cons_coe]
    simp only [← Multiset.singleton_add, ← Multiset.coe_add]
    abel
  have hFreshAt : ∀ v : IndexSizeAddress, v.2.2 = some (r, segsBytes A) →
      v ∉ s.pool := by
    intro v hv hmem
    have h3 : v ∈ freeTriples s.regions := hperm.mem_iff.1 hmem
    obtain ⟨r2, reg2, A2, sg2, B2, hr2, hAB2, ht2, he2⟩ := mem_freeTriplesFrom h3
    rw [he2] at hv
    simp only [Nat.zero_add, Option.some.injEq, Prod.mk.injEq] at hv
    obtain ⟨hr2eq, hoff2⟩ := hv
    subst hr2eq
    rw [hreg] at hr2
    injection hr2 with hr2
    subst hr2
    rw [hAB] at hAB2
    obtain ⟨_, hcur2, _⟩ := decomp_unique hAB2 hposA
      (fun x hx => hallpos reg hregmem x
        (by rw [hAB, hAB2]; exact List.mem_append.2 (Or.inl hx)))
      hoff2.symm
    rw [← hcur2] at ht2
    rw [ht2] at ht
    cases ht
  rw [Free_eq cfg hreg hAB hposA ht]
  by_cases hR : ∀ rb ∈ B.head?, rb.type ≠ BlockType.FREE_CHUNK
  · rw [mergeRightSeg_none hR]
    by_cases hL : ∀ lb ∈ A.reverse.head?, lb.type ≠ BlockType.FREE_CHUNK
    · -- no buddy merges
      rw [mergeLeftSeg_none hL]
      dsimp only
      simp only [List.reverse_reverse]
      have hLlast : ∀ lb ∈ A.getLast?, lb.type ≠ BlockType.FREE_CHUNK := by
        intro lb hlb
        exact hL lb (by rw [List.head?_reverse]; exact hlb)
      have hRegNew : regionFreeTriples r
          ⟨reg.index, A ++ Seg.mk BlockType.FREE_CHUNK cur.total_size :: B⟩ =
          triplesAt reg.index r 0 A ++
            (reg.index, cur.total_size, some (r, segsBytes A)) ::
              triplesAt reg.index r (segsBytes A + cur.total_size) B := by
        rw [regionFreeTriples_eq]
        show triplesAt reg.index r 0
          (A ++ Seg.mk BlockType.FREE_CHUNK cur.total_size :: B) = _
        rw [triplesAt_append, triplesAt_cons, if_pos rfl]
        simp
      have hRegNewA : regionArenaPtrs r
          ⟨reg.index, A ++ Seg.mk BlockType.FREE_CHUNK cur.total_size :: B⟩ =
          arenasAt r 0 A ++ arenasAt r (segsBytes A + cur.total_size) B := by
        rw [regionArenaPtrs_eq]
        show arenasAt r 0
          (A ++ Seg.mk BlockType.FREE_CHUNK cur.total_size :: B) = _
        rw [arenasAt_append, arenasAt_cons, if_neg (fun h => arena_ne_free h.symm)]
        simp
      have hFresh : (reg.index, cur.total_size, some (r, segsBytes A)) ∉ s.pool :=
        hFreshAt _ rfl
      have hIns : (poolInsert (reg.index, cur.total_size, some (r, segsBytes A))
          s.pool : Multiset IndexSizeAddress) =
          (reg.index, cur.total_size, some (r, segsBytes A)) ::ₘ
            ((X : Multiset IndexSizeAddress) + ↑(triplesAt reg.index r 0 A) +
              ↑(triplesAt reg.index r (segsBytes A + cur.total_size) B) + ↑Y) := by
        rw [poolInsert_coe hFresh, hPoolOld]
      refine ⟨inv_rebuild hInvKeep hreg ?_ ?_ ?_ ?_, by simp, ?_, trivial, trivial, trivial⟩
      · refine ⟨by simp, ?_, ?_⟩
        · intro sg hsg
          rcases List.mem_append.1 hsg with hsg | hsg
          · exact hpos sg (List.mem_append.2 (Or.inl hsg))
          · rcases List.mem_cons.1 hsg with rfl | hsg
            · exact ⟨hcurpos, free_ne_huge⟩
            · exact hpos sg (List.mem_append.2 (Or.inr (List.mem_cons_of_mem _ hsg)))
        · rw [List.chain'_append] at hchain ⊢
          obtain ⟨hA, hcB, hedge⟩ := hchain
          rw [List.chain'_cons'] at hcB
          obtain ⟨hcurB, hB⟩ := hcB
          refine ⟨hA, ?_, ?_⟩
          · rw [List.chain'_cons']
            refine ⟨?_, hB⟩
            intro y hy _
            exact hR y hy
          · intro x hx y hy
            simp only [List.head?_cons, Option.mem_def, Option.some.injEq] at hy
            subst hy
            intro hxf
            exact absurd hxf (hLlast x hx)
      · rw [hAB, segsBytes_append, segsBytes_append, segsBytes_cons, segsBytes_cons]
      · rw [← Multiset.coe_eq_coe, hIns, freeTriples_def, hNew, hRegNew]
        simp only [← Multiset.coe_add, ← Multiset.cons_coe]
        simp only [← Multiset.singleton_add, ← Multiset.coe_add]
        abel
      · exact poolInsert_sorted hsort
      · rw [arenaPtrs_def, hNewA, hRegNewA, hArenaOld]
        simp only [← Multiset.coe_add, ← Multiset.cons_coe]
        simp only [← Multiset.singleton_add, ← Multiset.coe_add]
        abel
    · -- only the left buddy merges
      rcases hArev : A.reverse with _ | ⟨lb, rest⟩
      · refine absurd ?_ hL
        intro x hx
        rw [hArev] at hx
        simp at hx
      · have hlb : lb.type = BlockType.FREE_CHUNK := by
          by_contra hk
          refine hL ?_
          intro x hx
          rw [hArev] at hx
          simp only [List.head?_cons, Option.mem_def, Option.some.injEq] at hx
          subst hx
          exact hk
        have hA0 : A = rest.reverse ++ [lb] := by
          rw [← List.reverse_reverse A, hArev]
          simp
        subst hA0
        rw [mergeLeftSeg_free hlb]
        have hoffA : segsBytes (rest.reverse ++ [lb]) =
            segsBytes rest.reverse + lb.total_size := by
          rw [segsBytes_append, segsBytes_cons]
          simp [segsBytes]
        have harith : segsBytes (rest.reverse ++ [lb]) - lb.total_size =
            segsBytes rest.reverse := by omega
        rw [harith]
        dsimp only
        have hlbpos : 0 < lb.total_size := (hpos lb (by simp)).1
        have hTA : triplesAt reg.index r 0 (rest.reverse ++ [lb]) =
            triplesAt reg.index r 0 rest.reverse ++
              [(reg.index, lb.total_size, some (r, segsBytes rest.reverse))] := by
          rw [triplesAt_append, triplesAt_cons, if_pos hlb]
          simp [triplesAt, segsWithOff]
        have hArA : arenasAt r 0 (rest.reverse ++ [lb]) =
            arenasAt r 0 rest.reverse := by
          rw [arenasAt_append, arenasAt_cons, if_neg (by simp [hlb])]
          simp [arenasAt, segsWithOff]
        rw [hArA] at hArenaOld
        have hPoolLN : (s.pool : Multiset IndexSizeAddress) =
            (reg.index, lb.total_size, some (r, segsBytes rest.reverse)) ::ₘ
              ((X : Multiset IndexSizeAddress) +
                ↑(triplesAt reg.index r 0 rest.reverse) +
                ↑(triplesAt reg.index r
                  (segsBytes (rest.reverse ++ [lb]) + cur.total_size) B) + ↑Y) := by
          rw [hPoolOld, hTA]
          simp only [← Multiset.coe_add, ← Multiset.cons_coe, Multiset.coe_nil]
          simp only [← Multiset.singleton_add, ← Multiset.coe_add, Multiset.coe_nil]
          abel
        have hlbmem : (reg.index, lb.total_size, some (r, segsBytes rest.reverse)) ∈
            s.pool := by
          rw [← Multiset.mem_coe, hPoolLN]
          exact Multiset.mem_cons_self _ _
        have hErase := poolErase_coe_cons hPoolLN
        have hFresh : (reg.index, lb.total_size + cur.total_size,
            some (r, segsBytes rest.reverse)) ∉
            poolErase (reg.index, lb.total_size, some (r, segsBytes rest.reverse))
              s.pool := by
          intro hmem
          have h2 := (poolErase_sublist _ s.pool).subset hmem
          have heq := freeTriples_addr_inj hallpos (hperm.mem_iff.1 h2)
            (hperm.mem_iff.1 hlbmem) rfl
          have h3 := congrArg (fun t : IndexSizeAddress => t.2.1) heq
          dsimp only at h3
          omega
        have hIns : (poolInsert (reg.index, lb.total_size + cur.total_size,
            some (r, segsBytes rest.reverse))
            (poolErase (reg.index, lb.total_size, some (r, segsBytes rest.reverse))
              s.pool) : Multiset IndexSizeAddress) =
            (reg.index, lb.total_size + cur.total_size,
              some (r, segsBytes rest.reverse)) ::ₘ
              ((X : Multiset IndexSizeAddress) +
                ↑(triplesAt reg.index r 0 rest.reverse) +
                ↑(triplesAt reg.index r
                  (segsBytes (rest.reverse ++ [lb]) + cur.total_size) B) + ↑Y) := by
          rw [poolInsert_coe hFresh, hErase]
        have harith2 : segsBytes rest.reverse + (lb.total_size + cur.total_size) =
            segsBytes (rest.reverse ++ [lb]) + cur.total_size := by omega
        have hRegNew : regionFreeTriples r
            ⟨reg.index, rest.reverse ++
              Seg.mk BlockType.FREE_CHUNK (lb.total_size + cur.total_size) :: B⟩ =
            triplesAt reg.index r 0 rest.reverse ++
              (reg.index, lb.total_size + cur.total_size,
                some (r, segsBytes rest.reverse)) ::
                triplesAt reg.index r
                  (segsBytes (rest.reverse ++ [lb]) + cur.total_size) B := by
          rw [regionFreeTriples_eq]
          show triplesAt reg.index r 0 (rest.reverse ++
            Seg.mk BlockType.FREE_CHUNK (lb.total_size + cur.total_size) :: B) = _
          rw [triplesAt_append, triplesAt_cons, if_pos rfl]
          simp only [Nat.zero_add, List.singleton_append]
          rw [harith2]
        have hRegNewA : regionArenaPtrs r
            ⟨reg.index, rest.reverse ++
              Seg.mk BlockType.FREE_CHUNK (lb.total_size + cur.total_size) :: B⟩ =
            arenasAt r 0 rest.reverse ++
              arenasAt r (segsBytes (rest.reverse ++ [lb]) + cur.total_size) B := by
          rw [regionArenaPtrs_eq]
          show arenasAt r 0 (rest.reverse ++
            Seg.mk BlockType.FREE_CHUNK (lb.total_size + cur.total_size) :: B) = _
          rw [arenasAt_append, arenasAt_cons, if_neg (by simp)]
          simp only [Nat.zero_add, List.nil_append]
          rw [harith2]
        rw [List.append_assoc, List.singleton_append] at hchain
        rw [List.chain'_append] at hchain
        obtain ⟨hRR, hlcB, hedge⟩ := hchain
        rw [List.chain'_cons'] at hlcB
        obtain ⟨hlb_cur, hcB⟩ := hlcB
        rw [List.chain'_cons'] at hcB
        obtain ⟨hcurB, hB⟩ := hcB
        refine ⟨inv_rebuild hInvKeep hreg ?_ ?_ ?_ ?_, by simp, ?_, by trivial,
          by trivial, by trivial⟩
        · refine ⟨by simp, ?_, ?_⟩
          · intro sg hsg
            rcases List.mem_append.1 hsg with hsg | hsg
            · exact hpos sg (by simp [hsg])
            · rcases List.mem_cons.1 hsg with rfl | hsg
              · exact ⟨Nat.lt_of_lt_of_le hlbpos (Nat.le_add_right _ _),
                  free_ne_huge⟩
              · exact hpos sg (by simp [hsg])
          · rw [List.chain'_append]
            refine ⟨hRR, ?_, ?_⟩
            · rw [List.chain'_cons']
              refine ⟨?_, hB⟩
              intro y hy _
              exact hR y hy
            · intro x hx y hy
              simp only [List.head?_cons, Option.mem_def, Option.some.injEq] at hy
              subst hy
              intro hxf
              exact absurd hlb (hedge x hx lb rfl hxf)
        · rw [hAB]
          simp only [segsBytes_append, segsBytes_cons]
          simp only [segsBytes, List.map_nil, List.sum_nil]
          omega
        · rw [← Multiset.coe_eq_coe, hIns, freeTriples_def, hNew, hRegNew]
          simp only [← Multiset.coe_add, ← Multiset.cons_coe, Multiset.coe_nil]
          simp only [← Multiset.singleton_add, ← Multiset.coe_add, Multiset.coe_nil]
          abel
        · exact poolInsert_sorted (poolErase_sorted hsort)
        · rw [arenaPtrs_def, hNewA, hRegNewA, hArenaOld]
          simp only [← Multiset.coe_add, ← Multiset.cons_coe, Multiset.coe_nil]
          simp only [← Multiset.singleton_add, ← Multiset.coe_add, Multiset.coe_nil]
          abel
  · rcases B with _ | ⟨rb, B'⟩
    · exact absurd (fun x hx => by simp at hx) hR
    · have hrb : rb.type = BlockType.FREE_CHUNK := by
        by_contra hk
        refine hR ?_
        intro x hx
        simp only [List.head?_cons, Option.mem_def, Option.some.injEq] at hx
        subst hx
        exact hk
      rw [mergeRightSeg_free hrb]
      have hrbpos : 0 < rb.total_size := (hpos rb (by simp)).1
      have hTB : triplesAt reg.index r (segsBytes A + cur.total_size) (rb :: B') =
          (reg.index, rb.total_size, some (r, segsBytes A + cur.total_size)) ::
            triplesAt reg.index r (segsBytes A + cur.total_size + rb.total_size) B' := by
        rw [triplesAt_cons, if_pos hrb]
        simp
      have hArB : arenasAt r (segsBytes A + cur.total_size) (rb :: B') =
          arenasAt r (segsBytes A + cur.total_size + rb.total_size) B' := by
        rw [arenasAt_cons, if_neg (by simp [hrb])]
        simp
      rw [hTB] at hPoolOld
      rw [hArB] at hArenaOld
      rw [List.chain'_append] at hchain
      obtain ⟨hA, hcB, hedge⟩ := hchain
      rw [List.chain'_cons'] at hcB
      obtain ⟨hcur_rb, hrbB'⟩ := hcB
      rw [List.chain'_cons'] at hrbB'
      obtain ⟨hrb_B', hB'⟩ := hrbB'
      by_cases hL : ∀ lb ∈ A.reverse.head?, lb.type ≠ BlockType.FREE_CHUNK
      · -- only the right buddy merges
        rw [mergeLeftSeg_none hL]
        dsimp only
        simp only [List.reverse_reverse]
        have hLlast : ∀ lb ∈ A.getLast?, lb.type ≠ BlockType.FREE_CHUNK := by
          intro lb hlb2
          exact hL lb (by rw [List.head?_reverse]; exact hlb2)
        have hPoolRN : (s.pool : Multiset IndexSizeAddress) =
            (reg.index, rb.total_size, some (r, segsBytes A + cur.total_size)) ::ₘ
              ((X : Multiset IndexSizeAddress) + ↑(triplesAt reg.index r 0 A) +
                ↑(triplesAt reg.index r
                  (segsBytes A + cur.total_size + rb.total_size) B') + ↑Y) := by
          rw [hPoolOld]
          simp only [← Multiset.coe_add, ← Multiset.cons_coe, Multiset.coe_nil]
          simp only [← Multiset.singleton_add, ← Multiset.coe_add, Multiset.coe_nil]
          abel
        have hErase := poolErase_coe_cons hPoolRN
        have hFresh : (reg.index, cur.total_size + rb.total_size,
            some (r, segsBytes A)) ∉
            poolErase (reg.index, rb.total_size,
              some (r, segsBytes A + cur.total_size)) s.pool := by
          intro hmem
          exact hFreshAt _ rfl ((poolErase_sublist _ s.pool).subset hmem)
        have hIns : (poolInsert (reg.index, cur.total_size + rb.total_size,
            some (r, segsBytes A))
            (poolErase (reg.index, rb.total_size,
              some (r, segsBytes A + cur.total_size)) s.pool) :
              Multiset IndexSizeAddress) =
            (reg.index, cur.total_size + rb.total_size, some (r, segsBytes A)) ::ₘ
              ((X : Multiset IndexSizeAddress) + ↑(triplesAt reg.index r 0 A) +
                ↑(triplesAt reg.index r
                  (segsBytes A + cur.total_size + rb.total_size) B') + ↑Y) := by
          rw [poolInsert_coe hFresh, hErase]
        have harith3 : segsBytes A + (cur.total_size + rb.total_size) =
            segsBytes A + cur.total_size + rb.total_size := by omega
        have hRegNew : regionFreeTriples r
            ⟨reg.index, A ++
              Seg.mk BlockType.FREE_CHUNK (cur.total_size + rb.total_size) :: B'⟩ =
            triplesAt reg.index r 0 A ++
              (reg.index, cur.total_size + rb.total_size, some (r, segsBytes A)) ::
                triplesAt reg.index r
                  (segsBytes A + cur.total_size + rb.total_size) B' := by
          rw [regionFreeTriples_eq]
          show triplesAt reg.index r 0 (A ++
            Seg.mk BlockType.FREE_CHUNK (cur.total_size + rb.total_size) :: B') = _
          rw [triplesAt_append, triplesAt_cons, if_pos rfl]
          simp only [Nat.zero_add, List.singleton_append]
          rw [harith3]
        have hRegNewA : regionArenaPtrs r
            ⟨reg.index, A ++
              Seg.mk BlockType.FREE_CHUNK (cur.total_size + rb.total_size) :: B'⟩ =
            arenasAt r 0 A ++
              arenasAt r (segsBytes A + cur.total_size + rb.total_size) B' := by
          rw [regionArenaPtrs_eq]
          show arenasAt r 0 (A ++
            Seg.mk BlockType.FREE_CHUNK (cur.total_size + rb.total_size) :: B') = _
          rw [arenasAt_append, arenasAt_cons, if_neg (by simp)]
          simp only [Nat.zero_add, List.nil_append]
          rw [harith3]
        refine ⟨inv_rebuild hInvKeep hreg ?_ ?_ ?_ ?_, by simp, ?_, by trivial,
          by trivial, by trivial⟩
        · refine ⟨by simp, ?_, ?_⟩
          · intro sg hsg
            rcases List.mem_append.1 hsg with hsg | hsg
            · exact hpos sg (by simp [hsg])
            · rcases List.mem_cons.1 hsg with rfl | hsg
              · exact ⟨Nat.lt_of_lt_of_le hcurpos (Nat.le_add_right _ _),
                  free_ne_huge⟩
              · exact hpos sg (by simp [hsg])
          · rw [List.chain'_append]
            refine ⟨hA, ?_, ?_⟩
            · rw [List.chain'_cons']
              refine ⟨?_, hB'⟩
              intro y hy _
              exact hrb_B' y hy hrb
            · intro x hx y hy
              simp only [List.head?_cons, Option.mem_def, Option.some.injEq] at hy
              subst hy
              intro hxf
              exact absurd hxf (hLlast x hx)
        · rw [hAB]
          simp only [segsBytes_append, segsBytes_cons]
          simp only [segsBytes, List.map_nil, List.sum_nil]
          omega
        · rw [← Multiset.coe_eq_coe, hIns, freeTriples_def, hNew, hRegNew]
          simp only [← Multiset.coe_add, ← Multiset.cons_coe, Multiset.coe_nil]
          simp only [← Multiset.singleton_add, ← Multiset.coe_add, Multiset.coe_nil]
          abel
        · exact poolInsert_sorted (poolErase_sorted hsort)
        · rw [arenaPtrs_def, hNewA, hRegNewA, hArenaOld]
          simp only [← Multiset.coe_add, ← Multiset.cons_coe, Multiset.coe_nil]
          simp only [← Multiset.singleton_add, ← Multiset.coe_add, Multiset.coe_nil]
          abel
      · -- both buddies merge
        rcases hArev : A.reverse with _ | ⟨lb, rest⟩
        · refine absurd ?_ hL
          intro x hx
          rw [hArev] at hx
          simp at hx
        · have hlb : lb.type = BlockType.FREE_CHUNK := by
            by_contra hk
            refine hL ?_
            intro x hx
            rw [hArev] at hx
            simp only [List.head?_cons, Option.mem_def, Option.some.injEq] at hx
            subst hx
            exact hk
          have hA0 : A = rest.reverse ++ [lb] := by
            rw [← List.reverse_reverse A, hArev]
            simp
          subst hA0
          rw [mergeLeftSeg_free hlb]
          have hoffA : segsBytes (rest.reverse ++ [lb]) =
              segsBytes rest.reverse + lb.total_size := by
            rw [segsBytes_append, segsBytes_cons]
            simp [segsBytes]
          have harith : segsBytes (rest.reverse ++ [lb]) - lb.total_size =
              segsBytes rest.reverse := by omega
          rw [harith]
          dsimp only
          have hlbpos : 0 < lb.total_size := (hpos lb (by simp)).1
          have hTA : triplesAt reg.index r 0 (rest.reverse ++ [lb]) =
              triplesAt reg.index r 0 rest.reverse ++
                [(reg.index, lb.total_size, some (r, segsBytes rest.reverse))] := by
            rw [triplesAt_append, triplesAt_cons, if_pos hlb]
            simp [triplesAt, segsWithOff]
          have hArA : arenasAt r 0 (rest.reverse ++ [lb]) =
              arenasAt r 0 rest.reverse := by
            rw [arenasAt_append, arenasAt_cons, if_neg (by simp [hlb])]
            simp [arenasAt, segsWithOff]
          rw [hArA] at hArenaOld
          have hPoolLR : (s.pool : Multiset IndexSizeAddress) =
              (reg.index, rb.total_size,
                some (r, segsBytes (rest.reverse ++ [lb]) + cur.total_size)) ::ₘ
              (reg.index, lb.total_size, some (r, segsBytes rest.reverse)) ::ₘ
                ((X : Multiset IndexSizeAddress) +
                  ↑(triplesAt reg.index r 0 rest.reverse) +
                  ↑(triplesAt reg.index r
                    (segsBytes (rest.reverse ++ [lb]) + cur.total_size +
                      rb.total_size) B') + ↑Y) := by
            rw [hPoolOld, hTA]
            simp only [← Multiset.coe_add, ← Multiset.cons_coe, Multiset.coe_nil]
            simp only [← Multiset.singleton_add, ← Multiset.coe_add, Multiset.coe_nil]
            abel
          have hEraseR := poolErase_coe_cons hPoolLR
          have hlbmem : (reg.index, lb.total_size,
              some (r, segsBytes rest.reverse)) ∈ s.pool := by
            rw [← Multiset.mem_coe, hPoolLR]
            exact Multiset.mem_cons_of_mem (Multiset.mem_cons_self _ _)
          have hEraseL := poolErase_coe_cons hEraseR
          have hFresh : (reg.index,
              lb.total_size + (cur.total_size + rb.total_size),
              some (r, segsBytes rest.reverse)) ∉
              poolErase (reg.index, lb.total_size, some (r, segsBytes rest.reverse))
                (poolErase (reg.index, rb.total_size,
                  some (r, segsBytes (rest.reverse ++ [lb]) + cur.total_size))
                  s.pool) := by
            intro hmem
            have h2 := (poolErase_sublist _ _).subset hmem
            have h3 := (poolErase_sublist _ s.pool).subset h2
            have heq := freeTriples_addr_inj hallpos (hperm.mem_iff.1 h3)
              (hperm.mem_iff.1 hlbmem) rfl
            have h4 := congrArg (fun t : IndexSizeAddress => t.2.1) heq
            dsimp only at h4
            omega
          have hIns : (poolInsert (reg.index,
              lb.total_size + (cur.total_size + rb.total_size),
              some (r, segsBytes rest.reverse))
              (poolErase (reg.index, lb.total_size, some (r, segsBytes rest.reverse))
                (poolErase (reg.index, rb.total_size,
                  some (r, segsBytes (rest.reverse ++ [lb]) + cur.total_size))
                  s.pool)) : Multiset IndexSizeAddress) =
              (reg.index, lb.total_size + (cur.total_size + rb.total_size),
                some (r, segsBytes rest.reverse)) ::ₘ
                ((X : Multiset IndexSizeAddress) +
                  ↑(triplesAt reg.index r 0 rest.reverse) +
                  ↑(triplesAt reg.index r
                    (segsBytes (rest.reverse ++ [lb]) + cur.total_size +
                      rb.total_size) B') + ↑Y) := by
            rw [poolInsert_coe hFresh, hEraseL]
          have harith4 : segsBytes rest.reverse +
              (lb.total_size + (cur.total_size + rb.total_size)) =
              segsBytes (rest.reverse ++ [lb]) + cur.total_size + rb.total_size := by
            omega
          have hRegNew : regionFreeTriples r
              ⟨reg.index, rest.reverse ++
                Seg.mk BlockType.FREE_CHUNK
                  (lb.total_size + (cur.total_size + rb.total_size)) :: B'⟩ =
              triplesAt reg.index r 0 rest.reverse ++
                (reg.index, lb.total_size + (cur.total_size + rb.total_size),
                  some (r, segsBytes rest.reverse)) ::
                  triplesAt reg.index r
                    (segsBytes (rest.reverse ++ [lb]) + cur.total_size +
                      rb.total_size) B' := by
            rw [regionFreeTriples_eq]
            show triplesAt reg.index r 0 (rest.reverse ++
              Seg.mk BlockType.FREE_CHUNK
                (lb.total_size + (cur.total_size + rb.total_size)) :: B') = _
            rw [triplesAt_append, triplesAt_cons, if_pos rfl]
            simp only [Nat.zero_add, List.singleton_append]
            rw [harith4]
          have hRegNewA : regionArenaPtrs r
              ⟨reg.index, rest.reverse ++
                Seg.mk BlockType.FREE_CHUNK
                  (lb.total_size + (cur.total_size + rb.total_size)) :: B'⟩ =
              arenasAt r 0 rest.reverse ++
                arenasAt r (segsBytes (rest.reverse ++ [lb]) + cur.total_size +
                  rb.total_size) B' := by
            rw [regionArenaPtrs_eq]
            show arenasAt r 0 (rest.reverse ++
              Seg.mk BlockType.FREE_CHUNK
                (lb.total_size + (cur.total_size + rb.total_size)) :: B') = _
            rw [arenasAt_append, arenasAt_cons, if_neg (by simp)]
            simp only [Nat.zero_add, List.nil_append]
            rw [harith4]
          refine ⟨inv_rebuild hInvKeep hreg ?_ ?_ ?_ ?_, by simp, ?_, by trivial,
            by trivial, by trivial⟩
          · refine ⟨by simp, ?_, ?_⟩
            · intro sg hsg
              rcases List.mem_append.1 hsg with hsg | hsg
              · exact hpos sg (by simp [hsg])
              · rcases List.mem_cons.1 hsg with rfl | hsg
                · exact ⟨Nat.lt_of_lt_of_le hlbpos (Nat.le_add_right _ _),
                    free_ne_huge⟩
                · exact hpos sg (by simp [hsg])
            · rw [List.chain'_append] at hA ⊢
              obtain ⟨hRR, hlbchain, hedgeRRlb⟩ := hA
              refine ⟨hRR, ?_, ?_⟩
              · rw [List.chain'_cons']
                refine ⟨?_, hB'⟩
                intro y hy _
                exact hrb_B' y hy hrb
              · intro x hx y hy
                simp only [List.head?_cons, Option.mem_def, Option.some.injEq] at hy
                subst hy
                intro hxf
                exact absurd hlb (hedgeRRlb x hx lb rfl hxf)
          · rw [hAB]
            simp only [segsBytes_append, segsBytes_cons]
            simp only [segsBytes, List.map_nil, List.sum_nil]
            omega
          · rw [← Multiset.coe_eq_coe, hIns, freeTriples_def, hNew, hRegNew]
            simp only [← Multiset.coe_add, ← Multiset.cons_coe, Multiset.coe_nil]
            simp only [← Multiset.singleton_add, ← Multiset.coe_add, Multiset.coe_nil]
            abel
          · exact poolInsert_sorted (poolErase_sorted (poolErase_sorted hsort))
          · rw [arenaPtrs_def, hNewA, hRegNewA, hArenaOld]
            simp only [← Multiset.coe_add, ← Multiset.cons_coe, Multiset.coe_nil]
            simp only [← Multiset.singleton_add, ← Multiset.coe_add, Multiset.coe_nil]
            abel

/-! ### `Alloc` preserves the invariant (toward claim C3) -/

theorem computeAllocateBytes_ge (cfg : Config) (s : AllocState) (request : Nat)
    (hmax : request ≤ cfg.max_chunk_size) :
    request ≤ (computeAllocateBytes cfg s request).1 := by
  unfold computeAllocateBytes
  split
  · split
    · exact Nat.le_max_right _ _
    · split
      · exact Nat.le_max_right _ _
      · exact Nat.le_max_right _ _
  · exact hmax

theorem inv_initState (script : List (Option Nat)) : Inv (initState script) := by
  refine ⟨?_, ?_, ?_, rfl⟩
  · intro reg h
    exact absurd h (List.not_mem_nil _)
  · exact List.Perm.refl _
  · exact List.Pairwise.nil

theorem alloc_preserves (cfg : Config) {s : AllocState} (u : Nat)
    (hInv : Inv s) (hd : 0 < cfg.descSize)
    (hmax : computedSize cfg u ≤ cfg.max_chunk_size) :
    Inv (Alloc cfg s u).2 ∧
    (∀ p, (Alloc cfg s u).1 = some p →
      (arenaPtrs (Alloc cfg s u).2.regions : Multiset Ptr) =
        p ::ₘ (arenaPtrs s.regions : Multiset Ptr)) ∧
    ((Alloc cfg s u).1 = none →
      (arenaPtrs (Alloc cfg s u).2.regions : Multiset Ptr) =
        (arenaPtrs s.regions : Multiset Ptr)) := by
  have hnot : ¬ cfg.max_chunk_size < computedSize cfg u := not_lt.2 hmax
  have hsize0 : 0 < computedSize cfg u :=
    Nat.lt_of_lt_of_le hd (Nat.le_trans (Nat.le_add_left _ _) (align_ge _ _))
  obtain ⟨hwf, hperm, hsort, hhist⟩ := hInv
  simp only [Alloc, if_neg hnot]
  rcases hfind : FindExistChunk s.pool (computedSize cfg u) with _ | e
  · -- pool miss: refill
    simp only [hfind]
    rcases hab : computeAllocateBytes cfg s (computedSize cfg u) with ⟨ab, rs⟩
    have habge : computedSize cfg u ≤ ab := by
      have h := computeAllocateBytes_ge cfg s (computedSize cfg u) hmax
      rw [hab] at h
      exact h
    have habpos : 0 < ab := Nat.lt_of_lt_of_le hsize0 habge
    rcases hscr : s.script with _ | ⟨resp, rest⟩
    · simp only [RefillPool, hab, hscr]
      exact ⟨⟨hwf, hperm, hsort, hhist⟩, by simp, by simp⟩
    · rcases resp with _ | idx
      · simp only [RefillPool, hab, hscr]
        exact ⟨⟨hwf, hperm, hsort, hhist⟩, by simp, by simp⟩
      · -- successful refill creates a fresh one-chunk region, then split
        simp only [RefillPool, hab, hscr]
        have hfreshKey : (idx, ab, some (s.regions.length, 0)) ∉ s.pool := by
          intro hmem
          have h2 := hperm.mem_iff.1 hmem
          rw [freeTriples_def] at h2
          obtain ⟨r, reg, A, sg, B, hr, _, _, he⟩ := mem_freeTriplesFrom h2
          have hrlt : r < s.regions.length := by
            by_contra hge
            rw [List.getElem?_eq_none (by omega)] at hr
            cases hr
          injection he with h1 h2
          injection h2 with h2 h3
          injection h3 with h3
          rw [Prod.ext_iff] at h3
          omega
        have hso : SegsOk [Seg.mk BlockType.FREE_CHUNK ab] := by
          refine ⟨by simp, ?_, by simp⟩
          intro sg hsg
          rcases List.mem_singleton.1 hsg with rfl
          exact ⟨habpos, free_ne_huge⟩
        have hsing : regionFreeTriples s.regions.length
            (Region.mk idx [Seg.mk BlockType.FREE_CHUNK ab]) =
            [(idx, ab, some (s.regions.length, 0))] := by
          simp [regionFreeTriples, segsWithOff]
        have hInvR : Inv { s with
            regions := s.regions ++ [Region.mk idx [Seg.mk BlockType.FREE_CHUNK ab]],
            total_free := wadd s.total_free ab,
            realloc_size := rs, script := rest,
            pool := poolInsert (idx, ab, some (s.regions.length, 0)) s.pool,
            refills := s.refills ++ [(idx, ab)] } := by
          refine ⟨?_, ?_, poolInsert_sorted hsort, ?_⟩
          · intro reg hmem
            rcases List.mem_append.1 hmem with hmem | hmem
            · exact hwf reg hmem
            · rcases List.mem_singleton.1 hmem with rfl
              exact hso
          · refine (poolInsert_perm hfreshKey).trans ?_
            rw [freeTriples_def, freeTriplesFrom_append]
            simp only [Nat.zero_add]
            rw [hsing]
            exact (hperm.cons _).trans (List.perm_append_singleton _ _).symm
          · dsimp only
            rw [List.map_append, ← hhist]
            simp
        have hreg2 : (s.regions ++
            [Region.mk idx [Seg.mk BlockType.FREE_CHUNK ab]])[s.regions.length]? =
            some (Region.mk idx [Seg.mk BlockType.FREE_CHUNK ab]) :=
          List.getElem?_concat_length _ _
        have hsp := @splitToAlloc_preserves cfg
          { s with
            regions := s.regions ++ [Region.mk idx [Seg.mk BlockType.FREE_CHUNK ab]],
            total_free := wsub (wadd s.total_free ab) (computedSize cfg u),
            total_used := wadd s.total_used (computedSize cfg u),
            realloc_size := rs, script := rest,
            pool := poolInsert (idx, ab, some (s.regions.length, 0)) s.pool,
            refills := s.refills ++ [(idx, ab)] }
          s.regions.length (Region.mk idx [Seg.mk BlockType.FREE_CHUNK ab])
          [] (Seg.mk BlockType.FREE_CHUNK ab) [] (computedSize cfg u)
          hInvR hreg2 rfl rfl hsize0 habge
        have harena : (arenaPtrs (s.regions ++
            [Region.mk idx [Seg.mk BlockType.FREE_CHUNK ab]]) : Multiset Ptr) =
            (arenaPtrs s.regions : Multiset Ptr) := by
          rw [arenaPtrs_def, arenaPtrs_def, arenaPtrsFrom_append]
          simp [regionArenaPtrs, segsWithOff]
        refine ⟨hsp.1, ?_, ?_⟩
        · intro p hp
          injection hp with hp
          rw [← hp]
          exact hsp.2.2.2.trans
            ((congrArg (fun m => Ptr.reg s.regions.length (segsBytes []) ::ₘ m)
                harena).trans
              (congrArg (fun q => q ::ₘ (arenaPtrs s.regions : Multiset Ptr))
                hsp.2.1.symm))
        · intro hp
          cases hp
  · -- serve from an existing chunk
    simp only [hfind]
    have hfind2 : s.pool.find? (fun x => decide (computedSize cfg u ≤ x.2.1)) =
        some e := by
      rw [← findExistChunk_eq_find? hsort]
      exact hfind
    have hmem : e ∈ s.pool := List.mem_of_find?_eq_some hfind2
    have hfit : computedSize cfg u ≤ e.2.1 := by
      have h := List.find?_some hfind2
      simpa using h
    have hmem2 : e ∈ freeTriplesFrom 0 s.regions := by
      have h := hperm.mem_iff.1 hmem
      rwa [freeTriples_def] at h
    obtain ⟨r, reg, A, cur, B, hreg, hAB, ht, he⟩ := mem_freeTriplesFrom hmem2
    simp only [Nat.zero_add] at he
    subst he
    have hsp := @splitToAlloc_preserves cfg
      { s with total_used := wadd s.total_used (computedSize cfg u),
               total_free := wsub s.total_free (computedSize cfg u) }
      _ _ _ _ _ _ ⟨hwf, hperm, hsort, hhist⟩ hreg hAB ht hsize0 hfit
    refine ⟨hsp.1, ?_, ?_⟩
    · intro p hp
      injection hp with hp
      rw [← hp, hsp.2.1]
      exact hsp.2.2.2
    · intro hp
      cases hp

theorem runAllocs_preserves (cfg : Config) (hd : 0 < cfg.descSize) :
    ∀ (us : List Nat) (s : AllocState), Inv s →
      (∀ u ∈ us, computedSize cfg u ≤ cfg.max_chunk_size) →
      Inv (runAllocs cfg s us).1 ∧
      (arenaPtrs (runAllocs cfg s us).1.regions : Multiset Ptr) =
        ↑((runAllocs cfg s us).2.reduceOption) + ↑(arenaPtrs s.regions) := by
  intro us
  induction us with
  | nil =>
    intro s hInv _
    exact ⟨hInv, by simp [runAllocs]⟩
  | cons u us ih =>
    intro s hInv hmax
    have ha := alloc_preserves cfg u hInv hd (hmax u (List.mem_cons_self _ _))
    have hrec := ih (Alloc cfg s u).2 ha.1
      (fun v hv => hmax v (List.mem_cons_of_mem _ hv))
    simp only [runAllocs]
    refine ⟨hrec.1, ?_⟩
    rcases hopt : (Alloc cfg s u).1 with _ | p
    · rw [List.reduceOption_cons_of_none]
      rw [ha.2.2 hopt] at hrec
      exact hrec.2
    · rw [List.reduceOption_cons_of_some]
      rw [ha.2.1 p hopt] at hrec
      rw [hrec.2]
      simp only [← Multiset.cons_coe]
      simp only [← Multiset.singleton_add]
      abel

theorem arenaPtrs_decomp {regs : List Region} {p : Ptr} (h : p ∈ arenaPtrs regs) :
    ∃ r reg A cur B, regs[r]? = some reg ∧ reg.segs = A ++ cur :: B ∧
      cur.type = BlockType.ARENA_CHUNK ∧ p = Ptr.reg r (segsBytes A) := by
  rw [arenaPtrs_def] at h
  obtain ⟨r, reg, A, sg, B, hr, hAB, ht, he⟩ := mem_arenaPtrsFrom h
  exact ⟨r, reg, A, sg, B, hr, hAB, ht, by simpa using he⟩

theorem runFrees_preserves (cfg : Config) :
    ∀ (qs : List Ptr) (s : AllocState), Inv s →
      (arenaPtrs s.regions : Multiset Ptr) = ↑qs →
      Inv (runFrees cfg s qs) ∧
      (arenaPtrs (runFrees cfg s qs).regions : Multiset Ptr) = 0 ∧
      (runFrees cfg s qs).refills = s.refills := by
  intro qs
  induction qs with
  | nil =>
    intro s hInv hq
    refine ⟨hInv, ?_, rfl⟩
    simpa using hq
  | cons p qs ih =>
    intro s hInv hq
    have hpmem : p ∈ arenaPtrs s.regions := by
      rw [← Multiset.mem_coe, hq]
      simp
    obtain ⟨r, reg, A, cur, B, hr, hAB, ht, hp⟩ := arenaPtrs_decomp hpmem
    subst hp
    have hf := free_preserves cfg hInv hr hAB ht
    have harena : (arenaPtrs (Free cfg s
        (Ptr.reg r (segsBytes A))).regions : Multiset Ptr) = ↑qs := by
      have h2 := hf.2.2.1
      rw [hq, ← Multiset.cons_coe] at h2
      exact (Multiset.cons_inj_right _).1 h2
    have hrec := ih (Free cfg s (Ptr.reg r (segsBytes A))) hf.1 harena
    simp only [runFrees]
    exact ⟨hrec.1, hrec.2.1, hrec.2.2.trans hf.2.2.2.2.2⟩

/-! ### A fully freed allocator has coalesced back to the refills -/

theorem segsOk_no_arena_singleton {segs : List Seg} (hso : SegsOk segs)
    (hnA : ∀ sg ∈ segs, sg.type ≠ BlockType.ARENA_CHUNK) :
    ∃ sg, segs = [sg] ∧ sg.type = BlockType.FREE_CHUNK := by
  obtain ⟨hne, hpos, hchain⟩ := hso
  have hfree : ∀ sg ∈ segs, sg.type = BlockType.FREE_CHUNK := by
    intro sg hsg
    cases h : sg.type
    · rfl
    · exact absurd h (hnA sg hsg)
    · exact absurd h (hpos sg hsg).2
  rcases segs with _ | ⟨a, rest⟩
  · exact absurd rfl hne
  · rcases rest with _ | ⟨b, rest2⟩
    · exact ⟨a, rfl, hfree a (by simp)⟩
    · rw [List.chain'_cons] at hchain
      exact absurd (hfree b (by simp)) (hchain.1 (hfree a (by simp)))

theorem freeTriplesFrom_coalesced :
    ∀ (regs : List Region) (k : Nat),
      (∀ reg ∈ regs, ∃ sg, reg.segs = [sg] ∧ sg.type = BlockType.FREE_CHUNK) →
      (freeTriplesFrom k regs).map (fun e => (e.1, e.2.1)) =
        regs.map (fun reg => (reg.index, (reg.segs.map Seg.total_size).sum)) := by
  intro regs
  induction regs with
  | nil =>
    intro k _
    rfl
  | cons reg0 rest ih =>
    intro k h
    obtain ⟨sg, hseg, ht⟩ := h reg0 (List.mem_cons_self _ _)
    have h2 := ih (k + 1) (fun reg hm => h reg (List.mem_cons_of_mem _ hm))
    have hreg0 : (regionFreeTriples k reg0).map (fun e => (e.1, e.2.1)) =
        [(reg0.index, (reg0.segs.map Seg.total_size).sum)] := by
      simp [regionFreeTriples, hseg, segsWithOff, ht]
    simp only [freeTriplesFrom, List.map_append, List.map_cons, hreg0, h2]
    simp

theorem coalesced_pool {s : AllocState} (hInv : Inv s)
    (hA : arenaPtrs s.regions = []) :
    ((s.pool.map (fun e => (e.1, e.2.1)) : List (Nat × Nat)) :
      Multiset (Nat × Nat)) = ↑s.refills := by
  obtain ⟨hwf, hperm, hsort, hhist⟩ := hInv
  have hsing : ∀ reg ∈ s.regions,
      ∃ sg, reg.segs = [sg] ∧ sg.type = BlockType.FREE_CHUNK := by
    intro reg hm
    refine segsOk_no_arena_singleton (hwf reg hm) ?_
    intro sg hsg ht
    obtain ⟨r, hrlt, hre⟩ := List.getElem_of_mem hm
    have hr : s.regions[r]? = some reg := by
      rw [List.getElem?_eq_getElem hrlt, hre]
    obtain ⟨A, B, hAB⟩ := List.append_of_mem hsg
    have hmem := @arenaPtrsFrom_mem _ _ 0 _ hr _ _ _ hAB ht
    rw [← arenaPtrs_def, hA] at hmem
    exact absurd hmem (List.not_mem_nil _)
  have hmap := freeTriplesFrom_coalesced s.regions 0 hsing
  rw [Multiset.coe_eq_coe, hhist, ← hmap]
  exact hperm.map _

/-- C3: after any sequence of `Alloc` calls whose computed sizes stay within
`max_chunk_size` and which all succeed, freeing every returned pointer in
any order returns the pool, viewed as a multiset of `(index, total_size)`
pairs, to exactly the recorded refills — the state that performing only
those refills with no allocations would produce — and the refill history
itself is untouched by the frees. -/
theorem roundtrip_law (cfg : Config) (script : List (Option Nat))
    (us : List Nat) (qs : List Ptr)
    (hd : 0 < cfg.descSize)
    (hmax : ∀ u ∈ us, computedSize cfg u ≤ cfg.max_chunk_size)
    (_hsucc : ∀ o ∈ (runAllocs cfg (initState script) us).2, o.isSome = true)
    (hqs : (qs : Multiset Ptr) =
      ↑((runAllocs cfg (initState script) us).2.reduceOption)) :
    ((runFrees cfg (runAllocs cfg (initState script) us).1 qs).pool.map
        (fun e => (e.1, e.2.1)) : Multiset (Nat × Nat)) =
      ↑(runFrees cfg (runAllocs cfg (initState script) us).1 qs).refills ∧
    (runFrees cfg (runAllocs cfg (initState script) us).1 qs).refills =
      (runAllocs cfg (initState script) us).1.refills := by
  have hra := runAllocs_preserves cfg hd us (initState script)
    (inv_initState script) hmax
  have harena : (arenaPtrs (runAllocs cfg
      (initState script) us).1.regions : Multiset Ptr) = ↑qs := by
    rw [hra.2, hqs]
    simp [initState, arenaPtrs, arenaPtrsFrom]
  have hrf := runFrees_preserves cfg qs _ hra.1 harena
  have hAnil : arenaPtrs (runFrees cfg
      (runAllocs cfg (initState script) us).1 qs).regions = [] := by
    have h2 := hrf.2.1
    rwa [Multiset.coe_eq_zero] at h2
  exact ⟨coalesced_pool hrf.1 hAnil, hrf.2.2⟩

theorem roundtrip_law_witness :
    ((runFrees (Config.mk 32 0 256 4096 false 0 0 0)
        (runAllocs (Config.mk 32 0 256 4096 false 0 0 0)
          (initState [some 0]) [100, 100]).1
        [Ptr.reg 0 256, Ptr.reg 0 0]).pool.map
        (fun e => (e.1, e.2.1)) : Multiset (Nat × Nat)) =
      ↑(runFrees (Config.mk 32 0 256 4096 false 0 0 0)
        (runAllocs (Config.mk 32 0 256 4096 false 0 0 0)
          (initState [some 0]) [100, 100]).1
        [Ptr.reg 0 256, Ptr.reg 0 0]).refills :=
  (roundtrip_law (Config.mk 32 0 256 4096 false 0 0 0) [some 0] [100, 100]
    [Ptr.reg 0 256, Ptr.reg 0 0] (by decide) (by decide) (by decide)
    (by decide)).1

/-! ### Merge commutativity (claim C4) -/

theorem poolErase_poolInsert {x : IndexSizeAddress} :
    ∀ {l : List IndexSizeAddress}, x ∉ l → poolErase x (poolInsert x l) = l := by
  intro l
  induction l with
  | nil =>
    intro _
    simp [poolInsert, poolErase]
  | cons y l ih =>
    intro hx
    simp only [poolInsert]
    split
    · rename_i hlt
      have hne : y ≠ x := by
        intro he
        rw [he] at hlt
        exact isaLt_irrefl x hlt
      simp only [poolErase, if_neg hne]
      rw [ih (fun h => hx (List.mem_cons_of_mem _ h))]
    · split
      · simp [poolErase]
      · rename_i h1 h2
        cases eq_of_not_isaLt h1 h2
        exact absurd (List.mem_cons_self _ _) hx

theorem poolErase_comm (x y : IndexSizeAddress) :
    ∀ l : List IndexSizeAddress,
      poolErase x (poolErase y l) = poolErase y (poolErase x l) := by
  intro l
  induction l with
  | nil => rfl
  | cons a l ih =>
    by_cases hay : a = y
    · by_cases hax : a = x
      · subst hax
        subst hay
        simp [poolErase]
      · subst hay
        simp [poolErase, hax]
    · by_cases hax : a = x
      · subst hax
        simp [poolErase, hay]
      · simp [poolErase, hay, hax, ih]

theorem self_mem_poolInsert (x : IndexSizeAddress) :
    ∀ l : List IndexSizeAddress, x ∈ poolInsert x l := by
  intro l
  induction l with
  | nil => simp [poolInsert]
  | cons y l ih =>
    simp only [poolInsert]
    split
    · exact List.mem_cons_of_mem _ ih
    · split
      · exact List.mem_cons_self _ _
      · rename_i h1 h2
        cases eq_of_not_isaLt h1 h2
        exact List.mem_cons_self _ _

theorem pool_fresh_at {s : AllocState} (hInv : Inv s) {r : Nat} {reg : Region}
    {A : List Seg} {cur : Seg} {B : List Seg}
    (hreg : s.regions[r]? = some reg) (hAB : reg.segs = A ++ cur :: B)
    (hnf : cur.type ≠ BlockType.FREE_CHUNK) :
    ∀ v : IndexSizeAddress, v.2.2 = some (r, segsBytes A) → v ∉ s.pool := by
  obtain ⟨hwf, hperm, hsort, hhist⟩ := hInv
  have hregmem : reg ∈ s.regions := List.getElem?_mem hreg
  have hallpos : ∀ rg ∈ s.regions, ∀ sgm ∈ rg.segs, 0 < sgm.total_size :=
    fun rg hrg sgm hs => ((hwf rg hrg).2.1 sgm hs).1
  have hposA : ∀ x ∈ A, 0 < x.total_size := by
    intro x hx
    exact hallpos reg hregmem x (by rw [hAB]; exact List.mem_append.2 (Or.inl hx))
  intro v hv hmem
  have h3 : v ∈ freeTriples s.regions := hperm.mem_iff.1 hmem
  obtain ⟨r2, reg2, A2, sg2, B2, hr2, hAB2, ht2, he2⟩ := mem_freeTriplesFrom h3
  rw [he2] at hv
  simp only [Nat.zero_add, Option.some.injEq, Prod.mk.injEq] at hv
  obtain ⟨hr2eq, hoff2⟩ := hv
  subst hr2eq
  rw [hreg] at hr2
  injection hr2 with hr2
  subst hr2
  rw [hAB] at hAB2
  obtain ⟨_, hcur2, _⟩ := decomp_unique hAB2 hposA
    (fun x hx => hallpos reg hregmem x
      (by rw [hAB, hAB2]; exact List.mem_append.2 (Or.inl hx)))
    hoff2.symm
  rw [← hcur2] at ht2
  exact hnf ht2

theorem pool_at_addr {s : AllocState} (hInv : Inv s) {r : Nat} {reg : Region}
    {A : List Seg} {cur : Seg} {B : List Seg}
    (hreg : s.regions[r]? = some reg) (hAB : reg.segs = A ++ cur :: B) :
    ∀ v ∈ s.pool, v.2.2 = some (r, segsBytes A) →
      v = (reg.index, cur.total_size, some (r, segsBytes A)) := by
  obtain ⟨hwf, hperm, hsort, hhist⟩ := hInv
  have hregmem : reg ∈ s.regions := List.getElem?_mem hreg
  have hallpos : ∀ rg ∈ s.regions, ∀ sgm ∈ rg.segs, 0 < sgm.total_size :=
    fun rg hrg sgm hs => ((hwf rg hrg).2.1 sgm hs).1
  have hposA : ∀ x ∈ A, 0 < x.total_size := by
    intro x hx
    exact hallpos reg hregmem x (by rw [hAB]; exact List.mem_append.2 (Or.inl hx))
  intro v hmem hv
  have h3 : v ∈ freeTriples s.regions := hperm.mem_iff.1 hmem
  obtain ⟨r2, reg2, A2, sg2, B2, hr2, hAB2, ht2, he2⟩ := mem_freeTriplesFrom h3
  rw [he2] at hv
  simp only [Nat.zero_add, Option.some.injEq, Prod.mk.injEq] at hv
  obtain ⟨hr2eq, hoff2⟩ := hv
  subst hr2eq
  rw [hreg] at hr2
  injection hr2 with hr2
  subst hr2
  rw [hAB] at hAB2
  obtain ⟨_, hcur2, _⟩ := decomp_unique hAB2 hposA
    (fun x hx => hallpos reg hregmem x
      (by rw [hAB, hAB2]; exact List.mem_append.2 (Or.inl hx)))
    hoff2.symm
  rw [he2, ← hcur2, hoff2]
  simp

theorem wsub_right_comm (u a b : Nat) :
    wsub (wsub u a) b = wsub (wsub u b) a := by
  simp only [wsub, W]
  omega

theorem wadd_right_comm (f a b : Nat) :
    wadd (wadd f a) b = wadd (wadd f b) a := by
  simp only [wadd, W]
  omega

/-- C4: for two outstanding ARENA chunks that are physical buddies
(address-adjacent within one refill region), freeing them in either order
yields the same final state — in particular the same merged chunk, the one
`(index, total_size, base address)` entry in the pool that covers both
chunks — because `Free` merges with a FREE right buddy and then a FREE left
buddy before inserting. -/
theorem merge_commute (cfg : Config) {s : AllocState} {r : Nat} {reg : Region}
    {A : List Seg} {sa sb : Seg} {B : List Seg}
    (hInv : Inv s) (hreg : s.regions[r]? = some reg)
    (hAB : reg.segs = A ++ sa :: sb :: B)
    (hta : sa.type = BlockType.ARENA_CHUNK)
    (htb : sb.type = BlockType.ARENA_CHUNK) :
    Free cfg (Free cfg s (Ptr.reg r (segsBytes A)))
        (Ptr.reg r (segsBytes A + sa.total_size)) =
      Free cfg (Free cfg s (Ptr.reg r (segsBytes A + sa.total_size)))
        (Ptr.reg r (segsBytes A)) ∧
    (∃ T base, base ≤ segsBytes A ∧
      segsBytes A + sa.total_size + sb.total_size ≤ base + T ∧
      (reg.index, T, some (r, base)) ∈
        (Free cfg (Free cfg s (Ptr.reg r (segsBytes A)))
          (Ptr.reg r (segsBytes A + sa.total_size))).pool) := by
  have hregmem : reg ∈ s.regions := List.getElem?_mem hreg
  obtain ⟨hne0, hpos0, hchain0⟩ := hInv.1 reg hregmem
  have hpos : ∀ sg ∈ A ++ sa :: sb :: B,
      0 < sg.total_size ∧ sg.type ≠ BlockType.HUGE_CHUNK := by
    rw [← hAB]
    exact hpos0
  have hposA : ∀ x ∈ A, 0 < x.total_size := fun x hx => (hpos x (by simp [hx])).1
  have hapos : 0 < sa.total_size := (hpos sa (by simp)).1
  have hbpos : 0 < sb.total_size := (hpos sb (by simp)).1
  have hrlt : r < s.regions.length := by
    by_contra hge
    rw [List.getElem?_eq_none (by omega)] at hreg
    cases hreg
  have hsetr : ∀ segs' : List Seg,
      (s.regions.set r (⟨reg.index, segs'⟩ : Region))[r]? =
        some ⟨reg.index, segs'⟩ := by
    intro segs'
    rw [List.getElem?_set_self (by simpa using hrlt)]
  have hoffA : segsBytes (A ++ [sa]) = segsBytes A + sa.total_size := by
    simp [segsBytes_append, segsBytes]
  have hAB2 : reg.segs = (A ++ [sa]) ++ sb :: B := by
    rw [hAB]
    simp
  have hposA2 : ∀ x ∈ A ++ [sa], 0 < x.total_size := by
    intro x hx
    rcases List.mem_append.1 hx with hx | hx
    · exact hposA x hx
    · rcases List.mem_singleton.1 hx with rfl
      exact hapos
  have hposA1 : ∀ x ∈ A ++ [Seg.mk BlockType.FREE_CHUNK sa.total_size],
      0 < x.total_size := by
    intro x hx
    rcases List.mem_append.1 hx with hx | hx
    · exact hposA x hx
    · rcases List.mem_singleton.1 hx with rfl
      exact hapos
  have hK1 : ∀ v : IndexSizeAddress, v.2.2 = some (r, segsBytes A) →
      v ∉ s.pool :=
    pool_fresh_at hInv hreg hAB (by rw [hta]; exact arena_ne_free)
  have hK2 : ∀ v : IndexSizeAddress,
      v.2.2 = some (r, segsBytes A + sa.total_size) → v ∉ s.pool := by
    intro v hv
    exact pool_fresh_at hInv hreg hAB2 (by rw [htb]; exact arena_ne_free) v
      (by rw [hoffA]; exact hv)
  have hRBsb : ∀ x ∈ (sb :: B).head?, x.type ≠ BlockType.FREE_CHUNK := by
    intro x hx
    simp only [List.head?_cons, Option.mem_def, Option.some.injEq] at hx
    subst hx
    rw [htb]
    exact arena_ne_free
  have hLsa : ∀ x ∈ (sa :: A.reverse).head?, x.type ≠ BlockType.FREE_CHUNK := by
    intro x hx
    simp only [List.head?_cons, Option.mem_def, Option.some.injEq] at hx
    subst hx
    rw [hta]
    exact arena_ne_free
  by_cases hRB : ∀ x ∈ B.head?, x.type ≠ BlockType.FREE_CHUNK
  · by_cases hLA : ∀ x ∈ A.reverse.head?, x.type ≠ BlockType.FREE_CHUNK
    · -- neither outer neighbour is FREE
      have h1 : Free cfg s (Ptr.reg r (segsBytes A)) =
          afterFree s r reg.index
            (A ++ Seg.mk BlockType.FREE_CHUNK sa.total_size :: sb :: B)
            sa.total_size
            (reg.index, sa.total_size, some (r, segsBytes A)) s.pool := by
        rw [Free_eq cfg hreg hAB hposA hta, mergeRightSeg_none hRBsb,
          mergeLeftSeg_none hLA]
        simp [afterFree]
      have h2 : Free cfg s (Ptr.reg r (segsBytes A + sa.total_size)) =
          afterFree s r reg.index
            (A ++ sa :: Seg.mk BlockType.FREE_CHUNK sb.total_size :: B)
            sb.total_size
            (reg.index, sb.total_size, some (r, segsBytes A + sa.total_size))
            s.pool := by
        have he := Free_eq cfg hreg hAB2 hposA2 htb
        rw [hoffA] at he
        rw [he, mergeRightSeg_none hRB,
          show (A ++ [sa]).reverse = sa :: A.reverse from by simp,
          mergeLeftSeg_none hLsa]
        simp [afterFree]
      have h12 : Free cfg (afterFree s r reg.index
            (A ++ Seg.mk BlockType.FREE_CHUNK sa.total_size :: sb :: B)
            sa.total_size (reg.index, sa.total_size, some (r, segsBytes A)) s.pool)
          (Ptr.reg r (segsBytes A + sa.total_size)) =
          afterFree (afterFree s r reg.index
            (A ++ Seg.mk BlockType.FREE_CHUNK sa.total_size :: sb :: B)
            sa.total_size (reg.index, sa.total_size, some (r, segsBytes A)) s.pool)
            r reg.index
            (A ++ Seg.mk BlockType.FREE_CHUNK (sa.total_size + sb.total_size) :: B)
            sb.total_size
            (reg.index, sa.total_size + sb.total_size, some (r, segsBytes A))
            (poolErase (reg.index, sa.total_size, some (r, segsBytes A))
              (poolInsert (reg.index, sa.total_size, some (r, segsBytes A))
                s.pool)) := by
        have he := @Free_eq cfg
          (afterFree s r reg.index
            (A ++ Seg.mk BlockType.FREE_CHUNK sa.total_size :: sb :: B)
            sa.total_size (reg.index, sa.total_size, some (r, segsBytes A)) s.pool)
          r ⟨reg.index, A ++ Seg.mk BlockType.FREE_CHUNK sa.total_size :: sb :: B⟩
          (A ++ [Seg.mk BlockType.FREE_CHUNK sa.total_size]) sb B
          (hsetr _) (by simp) hposA1 htb
        rw [show segsBytes (A ++ [Seg.mk BlockType.FREE_CHUNK sa.total_size]) =
          segsBytes A + sa.total_size from by simp [segsBytes_append, segsBytes]]
          at he
        rw [he, mergeRightSeg_none hRB,
          show (A ++ [Seg.mk BlockType.FREE_CHUNK sa.total_size]).reverse =
            Seg.mk BlockType.FREE_CHUNK sa.total_size :: A.reverse from by simp,
          mergeLeftSeg_free rfl]
        simp [afterFree]
      have h21 : Free cfg (afterFree s r reg.index
            (A ++ sa :: Seg.mk BlockType.FREE_CHUNK sb.total_size :: B)
            sb.total_size
            (reg.index, sb.total_size, some (r, segsBytes A + sa.total_size))
            s.pool)
          (Ptr.reg r (segsBytes A)) =
          afterFree (afterFree s r reg.index
            (A ++ sa :: Seg.mk BlockType.FREE_CHUNK sb.total_size :: B)
            sb.total_size
            (reg.index, sb.total_size, some (r, segsBytes A + sa.total_size))
            s.pool)
            r reg.index
            (A ++ Seg.mk BlockType.FREE_CHUNK (sa.total_size + sb.total_size) :: B)
            sa.total_size
            (reg.index, sa.total_size + sb.total_size, some (r, segsBytes A))
            (poolErase (reg.index, sb.total_size,
                some (r, segsBytes A + sa.total_size))
              (poolInsert (reg.index, sb.total_size,
                some (r, segsBytes A + sa.total_size)) s.pool)) := by
        have he := @Free_eq cfg
          (afterFree s r reg.index
            (A ++ sa :: Seg.mk BlockType.FREE_CHUNK sb.total_size :: B)
            sb.total_size
            (reg.index, sb.total_size, some (r, segsBytes A + sa.total_size))
            s.pool)
          r ⟨reg.index, A ++ sa :: Seg.mk BlockType.FREE_CHUNK sb.total_size :: B⟩
          A sa (Seg.mk BlockType.FREE_CHUNK sb.total_size :: B)
          (hsetr _) rfl hposA hta
        rw [he, mergeRightSeg_free rfl, mergeLeftSeg_none hLA]
        simp [afterFree]
      refine ⟨?_, ?_⟩
      · rw [h1, h12, h2, h21]
        simp only [afterFree]
        rw [List.set_set, List.set_set,
          poolErase_poolInsert (hK1 _ rfl), poolErase_poolInsert (hK2 _ rfl),
          wsub_right_comm s.total_used sa.total_size sb.total_size,
          wadd_right_comm s.total_free sa.total_size sb.total_size]
      · rw [h1, h12]
        simp only [afterFree]
        exact ⟨sa.total_size + sb.total_size, segsBytes A, Nat.le_refl _,
          by omega, self_mem_poolInsert _ _⟩
    · -- the left neighbour of the pair is FREE
      rcases hArev : A.reverse with _ | ⟨lb, rest⟩
      · refine absurd ?_ hLA
        intro x hx
        rw [hArev] at hx
        simp at hx
      · have hlb : lb.type = BlockType.FREE_CHUNK := by
          by_contra hk
          refine hLA ?_
          intro x hx
          rw [hArev] at hx
          simp only [List.head?_cons, Option.mem_def, Option.some.injEq] at hx
          subst hx
          exact hk
        have hA0 : A = rest.reverse ++ [lb] := by
          rw [← List.reverse_reverse A, hArev]
          simp
        subst hA0
        have hlbpos : 0 < lb.total_size := (hpos lb (by simp)).1
        have hcr : segsBytes (rest.reverse ++ [lb]) =
            segsBytes rest.reverse + lb.total_size := by
          simp [segsBytes_append, segsBytes]
        have harith : segsBytes (rest.reverse ++ [lb]) - lb.total_size =
            segsBytes rest.reverse := by omega
        have hABlb : reg.segs = rest.reverse ++ lb :: sa :: sb :: B := by
          rw [hAB]
          simp
        have hKM : (reg.index, lb.total_size + sa.total_size,
            some (r, segsBytes rest.reverse)) ∉
            poolErase (reg.index, lb.total_size, some (r, segsBytes rest.reverse))
              s.pool := by
          intro hm
          have h2 := (poolErase_sublist _ s.pool).subset hm
          have h3 := pool_at_addr hInv hreg hABlb _ h2 rfl
          injection h3 with h4 h5
          injection h5 with h5 h6
          omega
        have hoff12 : segsBytes (rest.reverse ++
            [Seg.mk BlockType.FREE_CHUNK (lb.total_size + sa.total_size)]) =
            segsBytes (rest.reverse ++ [lb]) + sa.total_size := by
          have e1 : segsBytes
              [Seg.mk BlockType.FREE_CHUNK (lb.total_size + sa.total_size)] =
              lb.total_size + sa.total_size := by simp [segsBytes]
          rw [segsBytes_append, e1]
          omega
        have harith12 : segsBytes (rest.reverse ++ [lb]) + sa.total_size -
            (Seg.mk BlockType.FREE_CHUNK
              (lb.total_size + sa.total_size)).total_size =
            segsBytes rest.reverse := by
          dsimp only
          omega
        have hposA12 : ∀ x ∈ rest.reverse ++
            [Seg.mk BlockType.FREE_CHUNK (lb.total_size + sa.total_size)],
            0 < x.total_size := by
          intro x hx
          rcases List.mem_append.1 hx with hx | hx
          · exact hposA x (by simp [hx])
          · rcases List.mem_singleton.1 hx with rfl
            exact Nat.lt_of_lt_of_le hlbpos (Nat.le_add_right _ _)
        have h1 : Free cfg s (Ptr.reg r (segsBytes (rest.reverse ++ [lb]))) =
            afterFree s r reg.index
              (rest.reverse ++ Seg.mk BlockType.FREE_CHUNK
                (lb.total_size + sa.total_size) :: sb :: B)
              sa.total_size
              (reg.index, lb.total_size + sa.total_size,
                some (r, segsBytes rest.reverse))
              (poolErase (reg.index, lb.total_size,
                some (r, segsBytes rest.reverse)) s.pool) := by
          rw [Free_eq cfg hreg hAB hposA hta, mergeRightSeg_none hRBsb, hArev,
            mergeLeftSeg_free hlb, harith]
          simp [afterFree]
        have h2 : Free cfg s
            (Ptr.reg r (segsBytes (rest.reverse ++ [lb]) + sa.total_size)) =
            afterFree s r reg.index
              (rest.reverse ++ lb :: sa ::
                Seg.mk BlockType.FREE_CHUNK sb.total_size :: B)
              sb.total_size
              (reg.index, sb.total_size,
                some (r, segsBytes (rest.reverse ++ [lb]) + sa.total_size))
              s.pool := by
          have he := Free_eq cfg hreg hAB2 hposA2 htb
          rw [hoffA] at he
          rw [he, mergeRightSeg_none hRB,
            show ((rest.reverse ++ [lb]) ++ [sa]).reverse =
              sa :: (rest.reverse ++ [lb]).reverse from by simp,
            mergeLeftSeg_none hLsa]
          simp [afterFree]
        have h12 : Free cfg (afterFree s r reg.index
              (rest.reverse ++ Seg.mk BlockType.FREE_CHUNK
                (lb.total_size + sa.total_size) :: sb :: B)
              sa.total_size
              (reg.index, lb.total_size + sa.total_size,
                some (r, segsBytes rest.reverse))
              (poolErase (reg.index, lb.total_size,
                some (r, segsBytes rest.reverse)) s.pool))
            (Ptr.reg r (segsBytes (rest.reverse ++ [lb]) + sa.total_size)) =
            afterFree (afterFree s r reg.index
              (rest.reverse ++ Seg.mk BlockType.FREE_CHUNK
                (lb.total_size + sa.total_size) :: sb :: B)
              sa.total_size
              (reg.index, lb.total_size + sa.total_size,
                some (r, segsBytes rest.reverse))
              (poolErase (reg.index, lb.total_size,
                some (r, segsBytes rest.reverse)) s.pool))
              r reg.index
              (rest.reverse ++ Seg.mk BlockType.FREE_CHUNK
                (lb.total_size + sa.total_size + sb.total_size) :: B)
              sb.total_size
              (reg.index, lb.total_size + sa.total_size + sb.total_size,
                some (r, segsBytes rest.reverse))
              (poolErase (reg.index, lb.total_size + sa.total_size,
                  some (r, segsBytes rest.reverse))
                (poolInsert (reg.index, lb.total_size + sa.total_size,
                    some (r, segsBytes rest.reverse))
                  (poolErase (reg.index, lb.total_size,
                    some (r, segsBytes rest.reverse)) s.pool))) := by
          have he := @Free_eq cfg
            (afterFree s r reg.index
              (rest.reverse ++ Seg.mk BlockType.FREE_CHUNK
                (lb.total_size + sa.total_size) :: sb :: B)
              sa.total_size
              (reg.index, lb.total_size + sa.total_size,
                some (r, segsBytes rest.reverse))
              (poolErase (reg.index, lb.total_size,
                some (r, segsBytes rest.reverse)) s.pool))
            r ⟨reg.index, rest.reverse ++ Seg.mk BlockType.FREE_CHUNK
                (lb.total_size + sa.total_size) :: sb :: B⟩
            (rest.reverse ++
              [Seg.mk BlockType.FREE_CHUNK (lb.total_size + sa.total_size)])
            sb B (hsetr _) (by simp) hposA12 htb
          rw [hoff12] at he
          rw [he, mergeRightSeg_none hRB,
            show (rest.reverse ++ [Seg.mk BlockType.FREE_CHUNK
              (lb.total_size + sa.total_size)]).reverse =
              Seg.mk BlockType.FREE_CHUNK (lb.total_size + sa.total_size) ::
                rest from by rw [List.reverse_append]; simp [← hArev],
            mergeLeftSeg_free rfl, harith12]
          simp [afterFree]
        have h21 : Free cfg (afterFree s r reg.index
              (rest.reverse ++ lb :: sa ::
                Seg.mk BlockType.FREE_CHUNK sb.total_size :: B)
              sb.total_size
              (reg.index, sb.total_size,
                some (r, segsBytes (rest.reverse ++ [lb]) + sa.total_size))
              s.pool)
            (Ptr.reg r (segsBytes (rest.reverse ++ [lb]))) =
            afterFree (afterFree s r reg.index
              (rest.reverse ++ lb :: sa ::
                Seg.mk BlockType.FREE_CHUNK sb.total_size :: B)
              sb.total_size
              (reg.index, sb.total_size,
                some (r, segsBytes (rest.reverse ++ [lb]) + sa.total_size))
              s.pool)
              r reg.index
              (rest.reverse ++ Seg.mk BlockType.FREE_CHUNK
                (lb.total_size + (sa.total_size + sb.total_size)) :: B)
              sa.total_size
              (reg.index, lb.total_size + (sa.total_size + sb.total_size),
                some (r, segsBytes rest.reverse))
              (poolErase (reg.index, lb.total_size,
                  some (r, segsBytes rest.reverse))
                (poolErase (reg.index, sb.total_size,
                    some (r, segsBytes (rest.reverse ++ [lb]) + sa.total_size))
                  (poolInsert (reg.index, sb.total_size,
                    some (r, segsBytes (rest.reverse ++ [lb]) + sa.total_size))
                    s.pool))) := by
          have he := @Free_eq cfg
            (afterFree s r reg.index
              (rest.reverse ++ lb :: sa ::
                Seg.mk BlockType.FREE_CHUNK sb.total_size :: B)
              sb.total_size
              (reg.index, sb.total_size,
                some (r, segsBytes (rest.reverse ++ [lb]) + sa.total_size))
              s.pool)
            r ⟨reg.index, rest.reverse ++ lb :: sa ::
                Seg.mk BlockType.FREE_CHUNK sb.total_size :: B⟩
            (rest.reverse ++ [lb]) sa
            (Seg.mk BlockType.FREE_CHUNK sb.total_size :: B)
            (hsetr _) (by simp) hposA hta
          rw [he, mergeRightSeg_free rfl, hArev, mergeLeftSeg_free hlb, harith]
          simp [afterFree]
        refine ⟨?_, ?_⟩
        · rw [h1, h12, h2, h21]
          simp only [afterFree]
          rw [List.set_set, List.set_set,
            poolErase_poolInsert hKM,
            poolErase_poolInsert (hK2 _ rfl),
            wsub_right_comm s.total_used sa.total_size sb.total_size,
            wadd_right_comm s.total_free sa.total_size sb.total_size,
            show lb.total_size + sa.total_size + sb.total_size =
              lb.total_size + (sa.total_size + sb.total_size) from by omega]
        · rw [h1, h12]
          simp only [afterFree]
          exact ⟨lb.total_size + sa.total_size + sb.total_size,
            segsBytes rest.reverse, by omega, by omega,
            self_mem_poolInsert _ _⟩
  · -- the right neighbour of the pair is FREE
    rcases B with _ | ⟨rb, B'⟩
    · exact absurd (fun x hx => by simp at hx) hRB
    · have hrb : rb.type = BlockType.FREE_CHUNK := by
        by_contra hk
        refine hRB ?_
        intro x hx
        simp only [List.head?_cons, Option.mem_def, Option.some.injEq] at hx
        subst hx
        exact hk
      have hrbpos : 0 < rb.total_size := (hpos rb (by simp)).1
      by_cases hLA : ∀ x ∈ A.reverse.head?, x.type ≠ BlockType.FREE_CHUNK
      · -- only the right neighbour is FREE
        have hK2R : (reg.index, sb.total_size + rb.total_size,
            some (r, segsBytes A + sa.total_size)) ∉
            poolErase (reg.index, rb.total_size,
              some (r, segsBytes A + sa.total_size + sb.total_size)) s.pool := by
          intro hm
          exact hK2 _ rfl ((poolErase_sublist _ s.pool).subset hm)
        have h1 : Free cfg s (Ptr.reg r (segsBytes A)) =
            afterFree s r reg.index
              (A ++ Seg.mk BlockType.FREE_CHUNK sa.total_size :: sb :: rb :: B')
              sa.total_size
              (reg.index, sa.total_size, some (r, segsBytes A)) s.pool := by
          rw [Free_eq cfg hreg hAB hposA hta, mergeRightSeg_none hRBsb,
            mergeLeftSeg_none hLA]
          simp [afterFree]
        have h2 : Free cfg s (Ptr.reg r (segsBytes A + sa.total_size)) =
            afterFree s r reg.index
              (A ++ sa :: Seg.mk BlockType.FREE_CHUNK
                (sb.total_size + rb.total_size) :: B')
              sb.total_size
              (reg.index, sb.total_size + rb.total_size,
                some (r, segsBytes A + sa.total_size))
              (poolErase (reg.index, rb.total_size,
                some (r, segsBytes A + sa.total_size + sb.total_size))
                s.pool) := by
          have he := Free_eq cfg hreg hAB2 hposA2 htb
          rw [hoffA] at he
          rw [he, mergeRightSeg_free hrb,
            show (A ++ [sa]).reverse = sa :: A.reverse from by simp,
            mergeLeftSeg_none hLsa]
          simp [afterFree]
        have h12 : Free cfg (afterFree s r reg.index
              (A ++ Seg.mk BlockType.FREE_CHUNK sa.total_size :: sb :: rb :: B')
              sa.total_size
              (reg.index, sa.total_size, some (r, segsBytes A)) s.pool)
            (Ptr.reg r (segsBytes A + sa.total_size)) =
            afterFree (afterFree s r reg.index
              (A ++ Seg.mk BlockType.FREE_CHUNK sa.total_size :: sb :: rb :: B')
              sa.total_size
              (reg.index, sa.total_size, some (r, segsBytes A)) s.pool)
              r reg.index
              (A ++ Seg.mk BlockType.FREE_CHUNK
                (sa.total_size + (sb.total_size + rb.total_size)) :: B')
              sb.total_size
              (reg.index, sa.total_size + (sb.total_size + rb.total_size),
                some (r, segsBytes A))
              (poolErase (reg.index, sa.total_size, some (r, segsBytes A))
                (poolErase (reg.index, rb.total_size,
                    some (r, segsBytes A + sa.total_size + sb.total_size))
                  (poolInsert (reg.index, sa.total_size,
                    some (r, segsBytes A)) s.pool))) := by
          have he := @Free_eq cfg
            (afterFree s r reg.index
              (A ++ Seg.mk BlockType.FREE_CHUNK sa.total_size :: sb :: rb :: B')
              sa.total_size
              (reg.index, sa.total_size, some (r, segsBytes A)) s.pool)
            r ⟨reg.index,
              A ++ Seg.mk BlockType.FREE_CHUNK sa.total_size :: sb :: rb :: B'⟩
            (A ++ [Seg.mk BlockType.FREE_CHUNK sa.total_size]) sb (rb :: B')
            (hsetr _) (by simp) hposA1 htb
          rw [show segsBytes (A ++ [Seg.mk BlockType.FREE_CHUNK sa.total_size]) =
            segsBytes A + sa.total_size from by simp [segsBytes_append, segsBytes]]
            at he
          rw [he, mergeRightSeg_free hrb,
            show (A ++ [Seg.mk BlockType.FREE_CHUNK sa.total_size]).reverse =
              Seg.mk BlockType.FREE_CHUNK sa.total_size :: A.reverse from by simp,
            mergeLeftSeg_free rfl]
          simp [afterFree]
        have h21 : Free cfg (afterFree s r reg.index
              (A ++ sa :: Seg.mk BlockType.FREE_CHUNK
                (sb.total_size + rb.total_size) :: B')
              sb.total_size
              (reg.index, sb.total_size + rb.total_size,
                some (r, segsBytes A + sa.total_size))
              (poolErase (reg.index, rb.total_size,
                some (r, segsBytes A + sa.total_size + sb.total_size))
                s.pool))
            (Ptr.reg r (segsBytes A)) =
            afterFree (afterFree s r reg.index
              (A ++ sa :: Seg.mk BlockType.FREE_CHUNK
                (sb.total_size + rb.total_size) :: B')
              sb.total_size
              (reg.index, sb.total_size + rb.total_size,
                some (r, segsBytes A + sa.total_size))
              (poolErase (reg.index, rb.total_size,
                some (r, segsBytes A + sa.total_size + sb.total_size))
                s.pool))
              r reg.index
              (A ++ Seg.mk BlockType.FREE_CHUNK
                (sa.total_size + (sb.total_size + rb.total_size)) :: B')
              sa.total_size
              (reg.index, sa.total_size + (sb.total_size + rb.total_size),
                some (r, segsBytes A))
              (poolErase (reg.index, sb.total_size + rb.total_size,
                  some (r, segsBytes A + sa.total_size))
                (poolInsert (reg.index, sb.total_size + rb.total_size,
                    some (r, segsBytes A + sa.total_size))
                  (poolErase (reg.index, rb.total_size,
                    some (r, segsBytes A + sa.total_size + sb.total_size))
                    s.pool))) := by
          have he := @Free_eq cfg
            (afterFree s r reg.index
              (A ++ sa :: Seg.mk BlockType.FREE_CHUNK
                (sb.total_size + rb.total_size) :: B')
              sb.total_size
              (reg.index, sb.total_size + rb.total_size,
                some (r, segsBytes A + sa.total_size))
              (poolErase (reg.index, rb.total_size,
                some (r, segsBytes A + sa.total_size + sb.total_size))
                s.pool))
            r ⟨reg.index, A ++ sa :: Seg.mk BlockType.FREE_CHUNK
                (sb.total_size + rb.total_size) :: B'⟩
            A sa
            (Seg.mk BlockType.FREE_CHUNK (sb.total_size + rb.total_size) :: B')
            (hsetr _) rfl hposA hta
          rw [he, mergeRightSeg_free rfl, mergeLeftSeg_none hLA]
          simp [afterFree]
        refine ⟨?_, ?_⟩
        · rw [h1, h12, h2, h21]
          simp only [afterFree]
          rw [List.set_set, List.set_set,
            poolErase_comm (reg.index, sa.total_size, some (r, segsBytes A))
              (reg.index, rb.total_size,
                some (r, segsBytes A + sa.total_size + sb.total_size))
              (poolInsert (reg.index, sa.total_size,
                some (r, segsBytes A)) s.pool),
            poolErase_poolInsert (hK1 _ rfl),
            poolErase_poolInsert hK2R,
            wsub_right_comm s.total_used sa.total_size sb.total_size,
            wadd_right_comm s.total_free sa.total_size sb.total_size]
        · rw [h1, h12]
          simp only [afterFree]
          exact ⟨sa.total_size + (sb.total_size + rb.total_size), segsBytes A,
            Nat.le_refl _, by omega, self_mem_poolInsert _ _⟩
      · -- both outer neighbours are FREE
        rcases hArev : A.reverse with _ | ⟨lb, rest⟩
        · refine absurd ?_ hLA
          intro x hx
          rw [hArev] at hx
          simp at hx
        · have hlb : lb.type = BlockType.FREE_CHUNK := by
            by_contra hk
            refine hLA ?_
            intro x hx
            rw [hArev] at hx
            simp only [List.head?_cons, Option.mem_def, Option.some.injEq] at hx
            subst hx
            exact hk
          have hA0 : A = rest.reverse ++ [lb] := by
            rw [← List.reverse_reverse A, hArev]
            simp
          subst hA0
          have hlbpos : 0 < lb.total_size := (hpos lb (by simp)).1
          have hcr : segsBytes (rest.reverse ++ [lb]) =
              segsBytes rest.reverse + lb.total_size := by
            simp [segsBytes_append, segsBytes]
          have harith : segsBytes (rest.reverse ++ [lb]) - lb.total_size =
              segsBytes rest.reverse := by omega
          have hABlb : reg.segs = rest.reverse ++ lb :: sa :: sb :: rb :: B' := by
            rw [hAB]
            simp
          have hKM : (reg.index, lb.total_size + sa.total_size,
              some (r, segsBytes rest.reverse)) ∉
              poolErase (reg.index, lb.total_size,
                some (r, segsBytes rest.reverse)) s.pool := by
            intro hm
            have h2 := (poolErase_sublist _ s.pool).subset hm
            have h3 := pool_at_addr hInv hreg hABlb _ h2 rfl
            injection h3 with h4 h5
            injection h5 with h5 h6
            omega
          have hK2R : (reg.index, sb.total_size + rb.total_size,
              some (r, segsBytes (rest.reverse ++ [lb]) + sa.total_size)) ∉
              poolErase (reg.index, rb.total_size,
                some (r, segsBytes (rest.reverse ++ [lb]) + sa.total_size +
                  sb.total_size)) s.pool := by
            intro hm
            exact hK2 _ rfl ((poolErase_sublist _ s.pool).subset hm)
          have hoff12 : segsBytes (rest.reverse ++
              [Seg.mk BlockType.FREE_CHUNK (lb.total_size + sa.total_size)]) =
              segsBytes (rest.reverse ++ [lb]) + sa.total_size := by
            have e1 : segsBytes
                [Seg.mk BlockType.FREE_CHUNK (lb.total_size + sa.total_size)] =
                lb.total_size + sa.total_size := by simp [segsBytes]
            rw [segsBytes_append, e1]
            omega
          have harith12 : segsBytes (rest.reverse ++ [lb]) + sa.total_size -
              (Seg.mk BlockType.FREE_CHUNK
                (lb.total_size + sa.total_size)).total_size =
              segsBytes rest.reverse := by
            dsimp only
            omega
          have hposA12 : ∀ x ∈ rest.reverse ++
              [Seg.mk BlockType.FREE_CHUNK (lb.total_size + sa.total_size)],
              0 < x.total_size := by
            intro x hx
            rcases List.mem_append.1 hx with hx | hx
            · exact hposA x (by simp [hx])
            · rcases List.mem_singleton.1 hx with rfl
              exact Nat.lt_of_lt_of_le hlbpos (Nat.le_add_right _ _)
          have h1 : Free cfg s (Ptr.reg r (segsBytes (rest.reverse ++ [lb]))) =
              afterFree s r reg.index
                (rest.reverse ++ Seg.mk BlockType.FREE_CHUNK
                  (lb.total_size + sa.total_size) :: sb :: rb :: B')
                sa.total_size
                (reg.index, lb.total_size + sa.total_size,
                  some (r, segsBytes rest.reverse))
                (poolErase (reg.index, lb.total_size,
                  some (r, segsBytes rest.reverse)) s.pool) := by
            rw [Free_eq cfg hreg hAB hposA hta, mergeRightSeg_none hRBsb, hArev,
              mergeLeftSeg_free hlb, harith]
            simp [afterFree]
          have h2 : Free cfg s
              (Ptr.reg r (segsBytes (rest.reverse ++ [lb]) + sa.total_size)) =
              afterFree s r reg.index
                (rest.reverse ++ lb :: sa :: Seg.mk BlockType.FREE_CHUNK
                  (sb.total_size + rb.total_size) :: B')
                sb.total_size
                (reg.index, sb.total_size + rb.total_size,
                  some (r, segsBytes (rest.reverse ++ [lb]) + sa.total_size))
                (poolErase (reg.index, rb.total_size,
                  some (r, segsBytes (rest.reverse ++ [lb]) + sa.total_size +
                    sb.total_size)) s.pool) := by
            have he := Free_eq cfg hreg hAB2 hposA2 htb
            rw [hoffA] at he
            rw [he, mergeRightSeg_free hrb,
              show ((rest.reverse ++ [lb]) ++ [sa]).reverse =
                sa :: (rest.reverse ++ [lb]).reverse from by simp,
              mergeLeftSeg_none hLsa]
            simp [afterFree]
          have h12 : Free cfg (afterFree s r reg.index
                (rest.reverse ++ Seg.mk BlockType.FREE_CHUNK
                  (lb.total_size + sa.total_size) :: sb :: rb :: B')
                sa.total_size
                (reg.index, lb.total_size + sa.total_size,
                  some (r, segsBytes rest.reverse))
                (poolErase (reg.index, lb.total_size,
                  some (r, segsBytes rest.reverse)) s.pool))
              (Ptr.reg r (segsBytes (rest.reverse ++ [lb]) + sa.total_size)) =
              afterFree (afterFree s r reg.index
                (rest.reverse ++ Seg.mk BlockType.FREE_CHUNK
                  (lb.total_size + sa.total_size) :: sb :: rb :: B')
                sa.total_size
                (reg.index, lb.total_size + sa.total_size,
                  some (r, segsBytes rest.reverse))
                (poolErase (reg.index, lb.total_size,
                  some (r, segsBytes rest.reverse)) s.pool))
                r reg.index
                (rest.reverse ++ Seg.mk BlockType.FREE_CHUNK
                  (lb.total_size + sa.total_size +
                    (sb.total_size + rb.total_size)) :: B')
                sb.total_size
                (reg.index, lb.total_size + sa.total_size +
                  (sb.total_size + rb.total_size),
                  some (r, segsBytes rest.reverse))
                (poolErase (reg.index, lb.total_size + sa.total_size,
                    some (r, segsBytes rest.reverse))
                  (poolErase (reg.index, rb.total_size,
                      some (r, segsBytes (rest.reverse ++ [lb]) + sa.total_size +
                        sb.total_size))
                    (poolInsert (reg.index, lb.total_size + sa.total_size,
                        some (r, segsBytes rest.reverse))
                      (poolErase (reg.index, lb.total_size,
                        some (r, segsBytes rest.reverse)) s.pool)))) := by
            have he := @Free_eq cfg
              (afterFree s r reg.index
                (rest.reverse ++ Seg.mk BlockType.FREE_CHUNK
                  (lb.total_size + sa.total_size) :: sb :: rb :: B')
                sa.total_size
                (reg.index, lb.total_size + sa.total_size,
                  some (r, segsBytes rest.reverse))
                (poolErase (reg.index, lb.total_size,
                  some (r, segsBytes rest.reverse)) s.pool))
              r ⟨reg.index, rest.reverse ++ Seg.mk BlockType.FREE_CHUNK
                  (lb.total_size + sa.total_size) :: sb :: rb :: B'⟩
              (rest.reverse ++
                [Seg.mk BlockType.FREE_CHUNK (lb.total_size + sa.total_size)])
              sb (rb :: B') (hsetr _) (by simp) hposA12 htb
            rw [hoff12] at he
            rw [he, mergeRightSeg_free hrb,
              show (rest.reverse ++ [Seg.mk BlockType.FREE_CHUNK
                (lb.total_size + sa.total_size)]).reverse =
                Seg.mk BlockType.FREE_CHUNK (lb.total_size + sa.total_size) ::
                  rest from by rw [List.reverse_append]; simp [← hArev],
              mergeLeftSeg_free rfl, harith12]
            simp [afterFree]
          have h21 : Free cfg (afterFree s r reg.index
                (rest.reverse ++ lb :: sa :: Seg.mk BlockType.FREE_CHUNK
                  (sb.total_size + rb.total_size) :: B')
                sb.total_size
                (reg.index, sb.total_size + rb.total_size,
                  some (r, segsBytes (rest.reverse ++ [lb]) + sa.total_size))
                (poolErase (reg.index, rb.total_size,
                  some (r, segsBytes (rest.reverse ++ [lb]) + sa.total_size +
                    sb.total_size)) s.pool))
              (Ptr.reg r (segsBytes (rest.reverse ++ [lb]))) =
              afterFree (afterFree s r reg.index
                (rest.reverse ++ lb :: sa :: Seg.mk BlockType.FREE_CHUNK
                  (sb.total_size + rb.total_size) :: B')
                sb.total_size
                (reg.index, sb.total_size + rb.total_size,
                  some (r, segsBytes (rest.reverse ++ [lb]) + sa.total_size))
                (poolErase (reg.index, rb.total_size,
                  some (r, segsBytes (rest.reverse ++ [lb]) + sa.total_size +
                    sb.total_size)) s.pool))
                r reg.index
                (rest.reverse ++ Seg.mk BlockType.FREE_CHUNK
                  (lb.total_size + (sa.total_size +
                    (sb.total_size + rb.total_size))) :: B')
                sa.total_size
                (reg.index, lb.total_size + (sa.total_size +
                  (sb.total_size + rb.total_size)),
                  some (r, segsBytes rest.reverse))
                (poolErase (reg.index, lb.total_size,
                    some (r, segsBytes rest.reverse))
                  (poolErase (reg.index, sb.total_size + rb.total_size,
                      some (r, segsBytes (rest.reverse ++ [lb]) + sa.total_size))
                    (poolInsert (reg.index, sb.total_size + rb.total_size,
                        some (r, segsBytes (rest.reverse ++ [lb]) +
                          sa.total_size))
                      (poolErase (reg.index, rb.total_size,
                        some (r, segsBytes (rest.reverse ++ [lb]) +
                          sa.total_size + sb.total_size)) s.pool)))) := by
            have he := @Free_eq cfg
              (afterFree s r reg.index
                (rest.reverse ++ lb :: sa :: Seg.mk BlockType.FREE_CHUNK
                  (sb.total_size + rb.total_size) :: B')
                sb.total_size
                (reg.index, sb.total_size + rb.total_size,
                  some (r, segsBytes (rest.reverse ++ [lb]) + sa.total_size))
                (poolErase (reg.index, rb.total_size,
                  some (r, segsBytes (rest.reverse ++ [lb]) + sa.total_size +
                    sb.total_size)) s.pool))
              r ⟨reg.index, rest.reverse ++ lb :: sa ::
                  Seg.mk BlockType.FREE_CHUNK
                    (sb.total_size + rb.total_size) :: B'⟩
              (rest.reverse ++ [lb]) sa
              (Seg.mk BlockType.FREE_CHUNK
                (sb.total_size + rb.total_size) :: B')
              (hsetr _) (by simp) hposA hta
            rw [he, mergeRightSeg_free rfl, hArev, mergeLeftSeg_free hlb, harith]
            simp [afterFree]
          refine ⟨?_, ?_⟩
          · rw [h1, h12, h2, h21]
            simp only [afterFree]
            rw [List.set_set, List.set_set,
              poolErase_comm (reg.index, lb.total_size + sa.total_size,
                  some (r, segsBytes rest.reverse))
                (reg.index, rb.total_size,
                  some (r, segsBytes (rest.reverse ++ [lb]) + sa.total_size +
                    sb.total_size))
                (poolInsert (reg.index, lb.total_size + sa.total_size,
                  some (r, segsBytes rest.reverse))
                  (poolErase (reg.index, lb.total_size,
                    some (r, segsBytes rest.reverse)) s.pool)),
              poolErase_poolInsert hKM,
              poolErase_poolInsert hK2R,
              poolErase_comm (reg.index, lb.total_size,
                  some (r, segsBytes rest.reverse))
                (reg.index, rb.total_size,
                  some (r, segsBytes (rest.reverse ++ [lb]) + sa.total_size +
                    sb.total_size)) s.pool,
              wsub_right_comm s.total_used sa.total_size sb.total_size,
              wadd_right_comm s.total_free sa.total_size sb.total_size,
              show lb.total_size + sa.total_size +
                (sb.total_size + rb.total_size) =
                lb.total_size + (sa.total_size +
                  (sb.total_size + rb.total_size)) from by omega]
          · rw [h1, h12]
            simp only [afterFree]
            exact ⟨lb.total_size + sa.total_size +
              (sb.total_size + rb.total_size), segsBytes rest.reverse,
              by omega, by omega, self_mem_poolInsert _ _⟩

theorem merge_commute_witness :
    Free (Config.mk 32 0 256 4096 false 0 0 0)
        (Free (Config.mk 32 0 256 4096 false 0 0 0)
          (AllocState.mk [Region.mk 0 [Seg.mk BlockType.ARENA_CHUNK 256,
              Seg.mk BlockType.ARENA_CHUNK 256,
              Seg.mk BlockType.FREE_CHUNK 3584]] [] 0
            [(0, 3584, some (0, 512))] 512 3584 0 [] [(0, 4096)])
          (Ptr.reg 0 (segsBytes [])))
        (Ptr.reg 0 (segsBytes [] + 256)) =
      Free (Config.mk 32 0 256 4096 false 0 0 0)
        (Free (Config.mk 32 0 256 4096 false 0 0 0)
          (AllocState.mk [Region.mk 0 [Seg.mk BlockType.ARENA_CHUNK 256,
              Seg.mk BlockType.ARENA_CHUNK 256,
              Seg.mk BlockType.FREE_CHUNK 3584]] [] 0
            [(0, 3584, some (0, 512))] 512 3584 0 [] [(0, 4096)])
          (Ptr.reg 0 (segsBytes [] + 256)))
        (Ptr.reg 0 (segsBytes [])) :=
  (@merge_commute (Config.mk 32 0 256 4096 false 0 0 0)
    (AllocState.mk [Region.mk 0 [Seg.mk BlockType.ARENA_CHUNK 256,
        Seg.mk BlockType.ARENA_CHUNK 256,
        Seg.mk BlockType.FREE_CHUNK 3584]] [] 0
      [(0, 3584, some (0, 512))] 512 3584 0 [] [(0, 4096)])
    0 (Region.mk 0 [Seg.mk BlockType.ARENA_CHUNK 256,
      Seg.mk BlockType.ARENA_CHUNK 256, Seg.mk BlockType.FREE_CHUNK 3584])
    [] (Seg.mk BlockType.ARENA_CHUNK 256) (Seg.mk BlockType.ARENA_CHUNK 256)
    [Seg.mk BlockType.FREE_CHUNK 3584]
    (by decide) rfl rfl rfl rfl).1
